import Mathlib

/-!
Verification of the segregated-fit dynamic storage allocator in `mm.c`
(revision with the prev-alloc bit scheme: `WSIZE 8`, `DSIZE 16`,
`CHUNKSIZE (1<<8)`, `BIN 36`, `MSIZE 256`).

The C code manipulates a byte region through headers, footers and in-block
free-list links.  The shallow embedding carries the same information in an
explicit state: the physical block sequence (each block records its payload
address, its size, its allocation bit `A` and its stored previous-allocation
bit `P`, exactly the data packed into the C headers), the 36 bin lists of
payload addresses (the doubly-linked lists threaded through free blocks'
payloads), the region bounds, the `tail_block` pointer and a byte memory for
payload contents.  Every function of `mm.c` is translated control-flow by
control-flow onto this state.  For a free block the C footer duplicates the
header, so the model keeps a single copy; `prev_block`, which the C code
derives from the footer, becomes the predecessor in the block sequence.
Arithmetic on `size_t` values that can wrap is taken modulo `2^64`.
-/

namespace MM

/-- `WSIZE` from mm.c: one 8-byte word. -/
def WSIZE : Nat := 8

/-- `DSIZE` from mm.c: a 16-byte double word. -/
def DSIZE : Nat := 16

/-- `CHUNKSIZE` from mm.c: minimum heap extension, `1 <<< 8` bytes. -/
def CHUNKSIZE : Nat := 256

/-- `BIN` from mm.c: number of size classes. -/
def BIN : Nat := 36

/-- `MSIZE` from mm.c: boundary between exact-fit and power-of-two bins. -/
def MSIZE : Nat := 256

/-- `2^64`, the modulus of C `size_t` arithmetic. -/
def U64 : Nat := 2 ^ 64

/-- Wrapping `size_t` subtraction: `(x - y) mod 2^64`. -/
def w64sub (x y : Nat) : Nat := (x + (U64 - y % U64)) % U64

/-- One block of the heap, as described by its header word
`pack(size, prev_alloc, alloc) = size | (prev_alloc << 1) | alloc`:
payload address, block size in bytes, allocation bit, stored
previous-allocation bit. -/
structure Block where
  addr : Nat
  size : Nat
  alloc : Bool
  prevAlloc : Bool
deriving DecidableEq, Repr

/-- The allocator state: region bounds (`lo` = `mem_heap_lo()`, `heapHi` =
one past the last heap byte, so `mem_heap_hi() = heapHi - 1`; `hiMax` is the
capacity beyond which the region provider `mem_sbrk` refuses to grow), the
physical block sequence between prologue and epilogue, the `bin` array, the
`tail_block` pointer (a payload address), and the payload byte memory. -/
structure State where
  lo : Nat
  hiMax : Nat
  heapHi : Nat
  tail : Nat
  blocks : List Block
  bins : List (List Nat)
  mem : Nat → Nat

instance : Inhabited State := ⟨⟨0, 0, 0, 0, [], [], fun _ => 0⟩⟩

/-- `align(p, w)` from mm.c: round `p` up to a multiple of `w`.  The C code
uses the mask `(p + (w-1)) & ~(w-1)`, which for the power of two `w = 8`
equals rounding up by division. -/
def alignTo (p w : Nat) : Nat := w * ((p + (w - 1)) / w)

/-- `aligned(p)` from mm.c: `align(p, 8) == p`. -/
def alignedB (p : Nat) : Bool := alignTo p 8 == p

/-- `mem_heap_hi()`: address of the last byte in the heap. -/
def memHeapHi (s : State) : Nat := s.heapHi - 1

/-- `in_heap(p)` from mm.c:
`p <= mem_heap_hi() + WSIZE && p >= mem_heap_lo()`. -/
def inHeapB (s : State) (p : Nat) : Bool :=
  decide (p ≤ memHeapHi s + WSIZE) && decide (s.lo ≤ p)

/-- The size rounding shared by `malloc` (mm.c lines 400-405) and `realloc`
(lines 540-545): requests of at most `3*WSIZE = 24` bytes become the minimum
block size `2*DSIZE = 32`; larger requests become
`WSIZE * ((size + WSIZE + WSIZE - 1) / WSIZE)`, computed in `size_t`
arithmetic, i.e. modulo `2^64`. -/
def asizeOf (u : Nat) : Nat :=
  if u ≤ 3 * WSIZE then 2 * DSIZE
  else WSIZE * (((u + WSIZE + WSIZE - 1) % U64) / WSIZE)

/-- The spec's notion of rounding up to the next multiple of 8 (exact
mathematical rounding, no wrap-around); used to compare the implementation
against the specification sentence of claim C3. -/
def roundUp8 (x : Nat) : Nat := 8 * ((x + 7) / 8)

/-- The loop of `insert` / `delete` / `find_fit` that maps a size above
`MSIZE` to its power-of-two bin: starting at `i = (MSIZE - 2*DSIZE)/WSIZE`,
halve the size and advance `i` while `i < BIN - 1 && size > MSIZE`.
`binLoop fuel size` counts the iterations, `fuel` being `BIN - 1 - i`. -/
def binLoop : Nat → Nat → Nat
  | 0, _ => 0
  | fuel + 1, size => if MSIZE < size then 1 + binLoop fuel (size / 2) else 0

/-- The bin index computed identically in `insert` (lines 297-307),
`delete` (lines 347-356) and `find_fit` (lines 421-430):
sizes up to `MSIZE` map to `(size - 2*DSIZE)/WSIZE`; larger sizes run the
halving loop.  The C subtraction `size - 2*DSIZE` is `size_t` arithmetic;
every stored block size is at least `2*DSIZE`, for which it agrees with the
truncated `Nat` subtraction used here. -/
def binIndex (size : Nat) : Nat :=
  if size ≤ MSIZE then (size - 2 * DSIZE) / WSIZE
  else (MSIZE - 2 * DSIZE) / WSIZE + binLoop (BIN - 1 - (MSIZE - 2 * DSIZE) / WSIZE) size

/-- Look up the block whose payload address is `p` (the header the C code
reads at `p - WSIZE`). -/
def findBlock (s : State) (p : Nat) : Option Block :=
  s.blocks.find? (fun b => b.addr == p)

/-- `get_size(header_pointer(p))`: the size stored in the header at payload
address `p`; `0` when no block starts at `p`. -/
def sizeAt (s : State) (p : Nat) : Nat :=
  (findBlock s p).elim 0 Block.size

/-- The block physically following the block at payload address `p`
(`next_block` in mm.c steps to `p + get_size(header_pointer(p))`; in the
contiguous block sequence that is the next list entry).  `none` when the
following header is the epilogue. -/
def nextOf : List Block → Nat → Option Block
  | [], _ => none
  | [_], _ => none
  | b :: c :: rest, p => if b.addr == p then some c else nextOf (c :: rest) p

/-- The block physically preceding the block at payload address `p`
(`prev_block` in mm.c steps back by the size in the preceding footer; free
blocks keep footer equal to header, so this is the previous list entry).
`none` when the preceding block is the prologue. -/
def prevOf : List Block → Nat → Option Block
  | [], _ => none
  | [_], _ => none
  | b :: c :: rest, p => if c.addr == p then some b else prevOf (c :: rest) p

/-- Rewrite the header data of the block at payload address `p`. -/
def setBlock (s : State) (p : Nat) (f : Block → Block) : State :=
  { s with blocks := s.blocks.map (fun b => if b.addr = p then f b else b) }

/-- Replace the run of `n` consecutive blocks starting at payload address
`p` by the blocks `news` (the effect of the header/footer rewrites in
`place`, `coalesce` and the `realloc` split paths). -/
def replaceRun : List Block → Nat → Nat → List Block → List Block
  | [], _, _, _ => []
  | b :: bs, p, n, news =>
    if b.addr = p then news ++ bs.drop (n - 1) else b :: replaceRun bs p n news

/-- `put(header_pointer(next_block(p)), pack(size, v, alloc))`: rewrite the
previous-allocation bit of the block after `p`.  When that header is the
epilogue header the C write only touches the epilogue's (never read) `P`
bit, so the model absorbs it. -/
def updNextP (s : State) (p : Nat) (v : Bool) : State :=
  match nextOf s.blocks p with
  | none => s
  | some nb => setBlock s nb.addr (fun b => { b with prevAlloc := v })

/-- `get_alloc(header_pointer(next_block(p)))`: the epilogue header always
carries `alloc = 1`. -/
def nextAllocOf (s : State) (p : Nat) : Bool :=
  match nextOf s.blocks p with
  | none => true
  | some nb => nb.alloc

/-- `get_alloc(header_pointer(tail_block))`.  Directly after `mm_init` the
tail pointer still names the prologue, which is not carried in the block
sequence and is permanently allocated, hence the `true` default. -/
def allocOfTail (s : State) : Bool :=
  match findBlock s s.tail with
  | none => true
  | some b => b.alloc

/-- The splice walk of `insert` (mm.c lines 308-311 and 315-340) for a
power-of-two bin: step past entries whose size is strictly below `asize`
and link `bp` before the first entry of size at least `asize`. -/
def binSplice (s : State) (asize bp : Nat) : List Nat → List Nat
  | [] => [bp]
  | a :: rest =>
    if asize > sizeAt s a then a :: binSplice s asize bp rest else bp :: a :: rest

/-- The new contents of the bin selected by `insert` (mm.c lines 291-341):
for a size up to `MSIZE` (an exact-fit bin) `bp` is pushed at the head; for
a larger size (a power-of-two bin) `bp` is spliced in size order. -/
def newbin (s : State) (bp : Nat) : List Nat :=
  if sizeAt s bp ≤ MSIZE then bp :: s.bins.getD (binIndex (sizeAt s bp)) []
  else binSplice s (sizeAt s bp) bp (s.bins.getD (binIndex (sizeAt s bp)) [])

/-- `insert(bp)` (mm.c lines 291-341): compute the bin index from `bp`'s
stored size and link `bp` into that bin (`newbin` holds the two linking
modes). -/
def insertB (s : State) (bp : Nat) : State :=
  { s with bins := s.bins.set (binIndex (sizeAt s bp)) (newbin s bp) }

/-- `delete(bp)` (mm.c lines 343-375): unlink `bp` from the doubly-linked
list of its bin; in the model, remove the occurrence of `bp` from the bin
selected by `bp`'s stored size. -/
def deleteB (s : State) (bp : Nat) : State :=
  let i := binIndex (sizeAt s bp)
  { s with bins := s.bins.set i ((s.bins.getD i []).erase bp) }

/-- The inner walk of `find_fit` (mm.c lines 432-441): first list entry
whose size is at least `asize`. -/
def binSearch (s : State) (asize : Nat) (l : List Nat) : Option Nat :=
  l.find? (fun a => decide (asize ≤ sizeAt s a))

/-- The outer loop of `find_fit` (`while (i < BIN) ...`), running over bins
`i, i+1, ...`; `fuel` is `BIN - i`. -/
def findFitLoop (s : State) (asize : Nat) : Nat → Nat → Option Nat
  | _, 0 => none
  | i, fuel + 1 =>
    match binSearch s asize (s.bins.getD i []) with
    | some bp => some bp
    | none => findFitLoop s asize (i + 1) fuel

/-- `find_fit(asize)` (mm.c lines 416-446). -/
def findFitB (s : State) (asize : Nat) : Option Nat :=
  let i := binIndex asize
  findFitLoop s asize i (BIN - i)

/-- `place(bp, asize)` (mm.c lines 448-467): unlink the chosen free block;
if the remainder is at least `2*DSIZE`, split it off as a new free block
(with `P = 1`, since `bp` becomes allocated) and insert it, moving
`tail_block` when `bp` was the tail; otherwise allocate the whole block and
set the next header's `P` bit. -/
def placeB (s : State) (bp asize : Nat) : State :=
  match findBlock s bp with
  | none => s
  | some b =>
    let oldsize := b.size
    let sz := oldsize - asize
    let s1 := deleteB s bp
    if sz ≥ 2 * DSIZE then
      let news := [⟨bp, asize, true, b.prevAlloc⟩, ⟨bp + asize, sz, false, true⟩]
      let s2 := { s1 with blocks := replaceRun s1.blocks bp 1 news }
      let s3 := insertB s2 (bp + asize)
      if bp = s3.tail then { s3 with tail := bp + asize } else s3
    else
      let s2 := setBlock s1 bp (fun c => { c with size := oldsize, alloc := true })
      updNextP s2 bp true

/-- `coalesce(bp)` (mm.c lines 243-289): merge the freshly freed block at
`bp` with its free physical neighbours, guided by `bp`'s stored `P` bit and
the next header's `A` bit, unlinking absorbed neighbours, maintaining
`tail_block`, and inserting the resulting block into its bin.  Returns the
payload address of the resulting block together with the new state. -/
def coalesceB (s : State) (bp : Nat) : Nat × State :=
  match findBlock s bp with
  | none => (bp, s)
  | some b =>
    let size := b.size
    let prevA := b.prevAlloc
    let nextA := nextAllocOf s bp
    if prevA && nextA then
      (bp, insertB s bp)
    else if prevA && !nextA then
      match nextOf s.blocks bp with
      | none => (bp, s)
      | some nb =>
        let s1 := deleteB s nb.addr
        let s2 := if s1.tail = nb.addr then { s1 with tail := bp } else s1
        let news := [⟨bp, size + nb.size, false, b.prevAlloc⟩]
        let s3 := { s2 with blocks := replaceRun s2.blocks bp 2 news }
        (bp, insertB s3 bp)
    else if !prevA && nextA then
      match prevOf s.blocks bp with
      | none => (bp, s)
      | some pb =>
        let s1 := deleteB s pb.addr
        let s2 := if s1.tail = bp then { s1 with tail := pb.addr } else s1
        let news := [⟨pb.addr, size + pb.size, false, pb.prevAlloc⟩]
        let s3 := { s2 with blocks := replaceRun s2.blocks pb.addr 2 news }
        (pb.addr, insertB s3 pb.addr)
    else
      match prevOf s.blocks bp, nextOf s.blocks bp with
      | some pb, some nb =>
        let s1 := deleteB s nb.addr
        let s2 := deleteB s1 pb.addr
        let s3 := if s2.tail = bp ∨ s2.tail = nb.addr then { s2 with tail := pb.addr } else s2
        let news := [⟨pb.addr, size + pb.size + nb.size, false, pb.prevAlloc⟩]
        let s4 := { s3 with blocks := replaceRun s3.blocks pb.addr 3 news }
        (pb.addr, insertB s4 pb.addr)
      | _, _ => (bp, s)

/-- `mem_sbrk(incr)` of the region provider.  Modelled from the spec:
`memlib` is an external collaborator ("`sbrk(n)`: extend the region by `n`
bytes, return the old `hi`, or signal failure"); it refuses to grow the
region past its fixed capacity `hiMax`.  On success it returns the previous
end of the region. -/
def memSbrk (s : State) (incr : Nat) : Option (Nat × State) :=
  if s.heapHi + incr ≤ s.hiMax then some (s.heapHi, { s with heapHi := s.heapHi + incr })
  else none

/-- `extend_heap(words)` (mm.c lines 227-241): round the word count up to
even, obtain `size` fresh bytes, lay out the new free block at the former
region end (its header overwrites the old epilogue header, its `P` bit
copies `get_alloc(header_pointer(tail_block))`), write a fresh epilogue
header, point `tail_block` at the new block and coalesce it. -/
def extendHeapB (s : State) (words : Nat) : Option (Nat × State) :=
  let size := (if words % 2 == 1 then words + 1 else words) * WSIZE
  match memSbrk s size with
  | none => none
  | some (bp, s1) =>
    let s2 := { s1 with
      blocks := s1.blocks ++ [⟨bp, size, false, allocOfTail s1⟩],
      tail := bp }
    some (coalesceB s2 bp)

/-- `malloc(size)` (mm.c lines 380-414): reject zero-size requests, round
the size, search the bins, extend the heap by `max(asize, CHUNKSIZE)` on a
miss, then place the block.  Returns the payload pointer (or none) and the
new state. -/
def mallocB (s : State) (size : Nat) : Option Nat × State :=
  if size == 0 then (none, s)
  else
    let asize := asizeOf size
    match findFitB s asize with
    | some bp => (some bp, placeB s bp asize)
    | none =>
      let extendsize := max asize CHUNKSIZE
      match extendHeapB s (extendsize / WSIZE) with
      | none => (none, s)
      | some (bp, s1) => (some bp, placeB s1 bp asize)

/-- `free(ptr)` (mm.c lines 473-506): silently return for a null, out-of-
heap, misaligned or already-free pointer; otherwise clear the header and
footer `A` bit, clear the `P` bit of the following header and coalesce.
A pointer that passes the raw guards but is not a block payload makes the C
code read an unspecified word; the model treats the failed lookup as a
no-op, and reachability only applies `free` to block payloads or
guard-rejected pointers. -/
def freeB (s : State) (p : Nat) : State :=
  if p == 0 then s
  else if !inHeapB s p then s
  else if !alignedB p then s
  else
    match findBlock s p with
    | none => s
    | some b =>
      if !b.alloc then s
      else
        let s1 := setBlock s p (fun c => { c with alloc := false })
        let s2 := updNextP s1 p false
        (coalesceB s2 p).2

/-- C library `memset(p, 0, n)` on the payload byte memory. -/
def memsetB (m : Nat → Nat) (p n : Nat) : Nat → Nat :=
  fun a => if p ≤ a ∧ a < p + n then 0 else m a

/-- C library `memcpy(dst, src, n)` on the payload byte memory, for the
non-overlapping regions the allocator passes it. -/
def memcpyB (m : Nat → Nat) (dst src n : Nat) : Nat → Nat :=
  fun a => if dst ≤ a ∧ a < dst + n then m (src + (a - dst)) else m a

/-- The relocation fallback of `realloc` (mm.c lines 600-606): allocate a
fresh block of the rounded size, `memcpy` `oldsize` bytes from the old
payload, free the old block and return the new payload. -/
def reallocRelocate (s : State) (oldptr size oldsize : Nat) : Option Nat × State :=
  match mallocB s size with
  | (none, s1) => (none, s1)
  | (some newptr, s1) =>
    let s2 := { s1 with mem := memcpyB s1.mem newptr oldptr oldsize }
    (some newptr, freeB s2 oldptr)

/-- `realloc(oldptr, size)` (mm.c lines 511-607): free on zero size, malloc
on a null pointer, reject misaligned or out-of-heap pointers, round the
size; shrink in place (splitting off the tail when it reaches `2*DSIZE`),
grow in place by absorbing a free successor when
`(signed long)(size - oldsize - next.size) < 0`, otherwise relocate.
The lazy `mm_init` call for an uninitialized allocator is omitted: modelled
states are always initialized.  As in `free`, a pointer that passes the raw
guards without being a block payload is treated as a no-op lookup miss. -/
def reallocB (s : State) (oldptr usize : Nat) : Option Nat × State :=
  if usize == 0 then (none, freeB s oldptr)
  else if oldptr == 0 then mallocB s usize
  else if !alignedB oldptr then (none, s)
  else if !inHeapB s oldptr then (none, s)
  else
    let size := asizeOf usize
    match findBlock s oldptr with
    | none => (none, s)
    | some b =>
      let oldsize := b.size
      if size ≤ oldsize then
        let remain := oldsize - size
        if remain ≥ 2 * DSIZE then
          let news := [⟨oldptr, size, true, b.prevAlloc⟩, ⟨oldptr + size, remain, false, true⟩]
          let s1 := { s with blocks := replaceRun s.blocks oldptr 1 news }
          let s2 := updNextP s1 (oldptr + size) false
          let s3 := insertB s2 (oldptr + size)
          let s4 := if s3.tail = oldptr then { s3 with tail := oldptr + size } else s3
          (some oldptr, s4)
        else
          let s1 := setBlock s oldptr (fun c => { c with size := oldsize, alloc := true })
          let s2 := updNextP s1 oldptr true
          (some oldptr, s2)
      else
        match nextOf s.blocks oldptr with
        | some nb =>
          if !nb.alloc then
            let remain := size - oldsize
            let nsize := nb.size
            let remain2 := w64sub remain nsize
            if 2 ^ 63 ≤ remain2 then
              let s1 := deleteB s nb.addr
              let asize2 := nsize + oldsize
              let remain3 := w64sub asize2 size
              if remain3 ≥ 2 * DSIZE then
                let news := [⟨oldptr, size, true, b.prevAlloc⟩, ⟨oldptr + size, remain3, false, true⟩]
                let s2 := { s1 with blocks := replaceRun s1.blocks oldptr 2 news }
                let s3 := insertB s2 (oldptr + size)
                let s4 := if s3.tail = nb.addr then { s3 with tail := oldptr + size } else s3
                (some oldptr, s4)
              else
                let news := [⟨oldptr, asize2, true, b.prevAlloc⟩]
                let s2 := { s1 with blocks := replaceRun s1.blocks oldptr 2 news }
                let s3 := updNextP s2 oldptr true
                let s4 := if s3.tail = nb.addr then { s3 with tail := oldptr } else s3
                (some oldptr, s4)
            else reallocRelocate s oldptr size oldsize
          else reallocRelocate s oldptr size oldsize
        | none => reallocRelocate s oldptr size oldsize

/-- `calloc(nmemb, size)` (mm.c lines 612-620): multiply in `size_t`
arithmetic, `malloc` the product, then `memset` the payload to zero with no
null check.  When `malloc` fails on a nonzero byte count, `memset` writes
through a null pointer; the model returns `none` for that undefined
behaviour.  (`memset(NULL, 0, 0)` touches no byte and falls through to the
null return.) -/
def callocB (s : State) (nmemb size : Nat) : Option (Option Nat × State) :=
  let bytes := (nmemb * size) % U64
  match mallocB s bytes with
  | (some p, s1) => some (some p, { s1 with mem := memsetB s1.mem p bytes })
  | (none, s1) => if bytes == 0 then some (none, s1) else none

/-- `mm_init()` followed by its initial `extend_heap(CHUNKSIZE/WSIZE)`
(mm.c lines 207-225): clear the bins, obtain `4*WSIZE` bytes for padding,
prologue and epilogue, point `tail_block` at the prologue payload, then
extend by `CHUNKSIZE` bytes.  `lo` is the (8-aligned) address `mem_sbrk`
hands out first, `cap` the region capacity. -/
def mkInit (lo cap : Nat) : Option State :=
  let pre : State :=
    { lo := lo, hiMax := cap, heapHi := lo, tail := lo + DSIZE,
      blocks := [], bins := List.replicate BIN [], mem := fun _ => 0 }
  match memSbrk pre (4 * WSIZE) with
  | none => none
  | some (_, s1) =>
    match extendHeapB s1 (CHUNKSIZE / WSIZE) with
    | none => none
    | some (_, s2) => some s2

/-- The freshly initialized allocator on a region starting at address 8
with capacity 4200 bytes; used as a concrete test state. -/
def initS : State := (mkInit 8 4200).getD default

/-- A small freshly initialized allocator whose region capacity 304 only
leaves room for the initial 256-byte chunk; used to exercise allocation
failure. -/
def tinyS : State := (mkInit 8 304).getD default

section Rounding

/-- Rounding facts used throughout: in the non-wrapping range the rounded
size is a multiple of 8, at least `2*DSIZE`, and at least `u + WSIZE`. -/
theorem asizeOf_spec (u : Nat) (h1 : 3 * WSIZE < u) (h2 : u ≤ U64 - 2 * WSIZE) :
    asizeOf u = 8 * ((u + 15) / 8) := by
  unfold asizeOf WSIZE U64 at *
  have hlt : u + 8 + 8 - 1 < 2 ^ 64 := by omega
  rw [if_neg (by omega), Nat.mod_eq_of_lt hlt]
  have he : u + 8 + 8 - 1 = u + 15 := by omega
  rw [he]

theorem asizeOf_mod8 (u : Nat) : asizeOf u % 8 = 0 := by
  unfold asizeOf WSIZE DSIZE
  split
  · rfl
  · omega

theorem asizeOf_lb (u : Nat) (h1 : 0 < u) (h2 : u ≤ U64 - 2 * WSIZE) :
    2 * DSIZE ≤ asizeOf u ∧ u + WSIZE ≤ asizeOf u := by
  by_cases hc : u ≤ 3 * WSIZE
  · unfold asizeOf
    rw [if_pos hc]
    simp only [WSIZE, DSIZE] at *
    omega
  · rw [asizeOf_spec u (by omega) h2]
    have hd := Nat.div_add_mod (u + 15) 8
    have hm : (u + 15) % 8 < 8 := Nat.mod_lt _ (by omega)
    simp only [WSIZE, DSIZE] at *
    omega

theorem asizeOf_ub (u : Nat) (h1 : 0 < u) (h2 : u ≤ U64 - 2 * WSIZE) :
    asizeOf u ≤ u + 31 := by
  by_cases hc : u ≤ 3 * WSIZE
  · unfold asizeOf
    rw [if_pos hc]
    simp only [WSIZE, DSIZE] at *
    omega
  · rw [asizeOf_spec u (by omega) h2]
    have hd := Nat.div_add_mod (u + 15) 8
    have hm : (u + 15) % 8 < 8 := Nat.mod_lt _ (by omega)
    omega

end Rounding

/-- C3, counterexample.  The claim states that every request above
`u_min = 3*WSIZE = 24` is rounded to `u + header_size` rounded up to the
next multiple of 8; at `u = 2^64 - 1` the `size_t` addition `u + 15` wraps
and the computed size is 8, not the mathematical round-up. -/
theorem c3_counterexample :
    3 * WSIZE < U64 - 1 ∧ asizeOf (U64 - 1) = 8 ∧
      asizeOf (U64 - 1) ≠ roundUp8 ((U64 - 1) + WSIZE) := by
  refine ⟨by decide, by decide, by decide⟩

/-- C3, amended: for `0 < u ≤ u_min` (with `u_min = M − header_size = 24`,
`M = 2*DSIZE = 32` the minimum block size) the rounded size is `M`; for
`u_min < u ≤ 2^64 − 16` (so that the `size_t` addition `u + 15` does not
wrap; beyond that bound the computation wraps, cf. C10) the rounded size is
`u + header_size` rounded up to the next multiple of 8. -/
theorem c3_rounding_amended (u : Nat) :
    (0 < u → u ≤ 3 * WSIZE → asizeOf u = 2 * DSIZE) ∧
      (3 * WSIZE < u → u ≤ U64 - 2 * WSIZE → asizeOf u = roundUp8 (u + WSIZE)) := by
  constructor
  · intro _ h
    unfold asizeOf
    rw [if_pos h]
  · intro h1 h2
    rw [asizeOf_spec u h1 h2]
    unfold roundUp8 WSIZE
    norm_num

/-- C3 witness: the amended theorem applied at two concrete requests. -/
theorem c3_rounding_amended_witness :
    asizeOf 16 = 2 * DSIZE ∧ asizeOf 100 = roundUp8 (100 + WSIZE) :=
  ⟨(c3_rounding_amended 16).1 (by decide) (by decide),
   (c3_rounding_amended 100).2 (by decide) (by decide)⟩

/-- C10: for every request `u` above `2^64 − 16`, the request passes the
zero-size rejection and the rounding branch computes
`8 * (((u + 15) mod 2^64) / 8)`, which wraps to at most 8 and in particular
is strictly smaller than `u` — the oversized request is treated as a small
one rather than rejected. -/
theorem c10_wrapping (u : Nat) (h1 : U64 - 2 * WSIZE < u) (h2 : u < U64) :
    ¬ u ≤ 3 * WSIZE ∧
      asizeOf u = WSIZE * (((u + 2 * WSIZE - 1) % U64) / WSIZE) ∧
      asizeOf u ≤ 8 ∧ asizeOf u < u := by
  simp only [U64, WSIZE] at h1 h2
  have hge : ¬ u ≤ 3 * WSIZE := by simp only [WSIZE]; omega
  have hkey : asizeOf u = 8 * ((u + 15 - 2 ^ 64) / 8) := by
    unfold asizeOf
    rw [if_neg hge]
    simp only [WSIZE, U64]
    have hm : (u + 8 + 8 - 1) % 2 ^ 64 = u + 15 - 2 ^ 64 := by
      rw [Nat.mod_eq_sub_mod (by omega), Nat.mod_eq_of_lt (by omega)]
      omega
    rw [hm]
  have hsmall : u + 15 - 2 ^ 64 ≤ 14 := by omega
  have hdle : (u + 15 - 2 ^ 64) / 8 ≤ 14 / 8 := Nat.div_le_div_right hsmall
  have h14 : (14 : Nat) / 8 = 1 := by norm_num
  refine ⟨hge, ?_, by omega, by omega⟩
  rw [hkey]
  simp only [WSIZE, U64]
  have hm : (u + 2 * 8 - 1) % 2 ^ 64 = u + 15 - 2 ^ 64 := by
    rw [Nat.mod_eq_sub_mod (by omega), Nat.mod_eq_of_lt (by omega)]
    omega
  rw [hm]

/-- C10 witness: the theorem applied at the largest `size_t` request. -/
theorem c10_wrapping_witness :
    ¬ U64 - 1 ≤ 3 * WSIZE ∧
      asizeOf (U64 - 1) = WSIZE * (((U64 - 1 + 2 * WSIZE - 1) % U64) / WSIZE) ∧
      asizeOf (U64 - 1) ≤ 8 ∧ asizeOf (U64 - 1) < U64 - 1 :=
  c10_wrapping (U64 - 1) (by decide) (by decide)

/-- C7: `free(p)` returns without modifying any state whenever `p` is null,
outside the heap region, not 8-aligned, or refers to an already-free
block. -/
theorem c7_free_noop (s : State) (p : Nat)
    (h : p = 0 ∨ inHeapB s p = false ∨ alignedB p = false ∨
      (∃ b, findBlock s p = some b ∧ b.alloc = false)) :
    freeB s p = s := by
  unfold freeB
  rcases h with h | h | h | ⟨b, hb, hba⟩
  · simp [h]
  · by_cases h0 : p == 0 <;> simp [h0, h]
  · by_cases h0 : p == 0
    · simp [h0]
    · by_cases h1 : inHeapB s p <;> simp [h0, h1, h]
  · by_cases h0 : p == 0
    · simp [h0]
    · by_cases h1 : inHeapB s p
      · by_cases h2 : alignedB p
        · simp [h0, h1, h2, hb, hba]
        · simp [h0, h1, h2]
      · simp [h0, h1]

/-- C7 witness: freeing the null pointer on the concrete initial state. -/
theorem c7_free_noop_witness : freeB initS 0 = initS :=
  c7_free_noop initS 0 (Or.inl rfl)

section Projections

theorem insertB_blocks (s : State) (bp : Nat) : (insertB s bp).blocks = s.blocks := rfl

theorem insertB_tail (s : State) (bp : Nat) : (insertB s bp).tail = s.tail := rfl

theorem insertB_lo (s : State) (bp : Nat) : (insertB s bp).lo = s.lo := rfl

theorem insertB_heapHi (s : State) (bp : Nat) : (insertB s bp).heapHi = s.heapHi := rfl

theorem insertB_hiMax (s : State) (bp : Nat) : (insertB s bp).hiMax = s.hiMax := rfl

theorem insertB_mem (s : State) (bp : Nat) : (insertB s bp).mem = s.mem := rfl

theorem deleteB_blocks (s : State) (bp : Nat) : (deleteB s bp).blocks = s.blocks := rfl

theorem deleteB_tail (s : State) (bp : Nat) : (deleteB s bp).tail = s.tail := rfl

theorem deleteB_lo (s : State) (bp : Nat) : (deleteB s bp).lo = s.lo := rfl

theorem deleteB_heapHi (s : State) (bp : Nat) : (deleteB s bp).heapHi = s.heapHi := rfl

theorem deleteB_hiMax (s : State) (bp : Nat) : (deleteB s bp).hiMax = s.hiMax := rfl

theorem deleteB_mem (s : State) (bp : Nat) : (deleteB s bp).mem = s.mem := rfl

theorem setBlock_bins (s : State) (p : Nat) (f : Block → Block) :
    (setBlock s p f).bins = s.bins := rfl

theorem setBlock_mem (s : State) (p : Nat) (f : Block → Block) :
    (setBlock s p f).mem = s.mem := rfl

theorem updNextP_mem (s : State) (p : Nat) (v : Bool) : (updNextP s p v).mem = s.mem := by
  unfold updNextP
  split <;> rfl

theorem updNextP_bins (s : State) (p : Nat) (v : Bool) : (updNextP s p v).bins = s.bins := by
  unfold updNextP
  split <;> rfl

theorem updNextP_tail (s : State) (p : Nat) (v : Bool) : (updNextP s p v).tail = s.tail := by
  unfold updNextP
  split <;> rfl

theorem updNextP_lo (s : State) (p : Nat) (v : Bool) : (updNextP s p v).lo = s.lo := by
  unfold updNextP
  split <;> rfl

theorem updNextP_heapHi (s : State) (p : Nat) (v : Bool) :
    (updNextP s p v).heapHi = s.heapHi := by
  unfold updNextP
  split <;> rfl

theorem updNextP_hiMax (s : State) (p : Nat) (v : Bool) :
    (updNextP s p v).hiMax = s.hiMax := by
  unfold updNextP
  split <;> rfl

theorem coalesceB_mem (s : State) (bp : Nat) : (coalesceB s bp).2.mem = s.mem := by
  unfold coalesceB
  split
  · rfl
  · dsimp only
    repeat' split
    all_goals simp only [insertB_mem, deleteB_mem]


theorem placeB_mem (s : State) (bp asize : Nat) : (placeB s bp asize).mem = s.mem := by
  unfold placeB
  split
  · rfl
  · dsimp only
    repeat' split
    all_goals simp only [insertB_mem, deleteB_mem, updNextP_mem, setBlock_mem]


theorem memSbrk_some (s : State) (n r : Nat) (s1 : State) (h : memSbrk s n = some (r, s1)) :
    s1.mem = s.mem ∧ s1.blocks = s.blocks ∧ s1.bins = s.bins ∧ s1.tail = s.tail ∧
      s1.lo = s.lo ∧ s1.hiMax = s.hiMax ∧ r = s.heapHi ∧ s1.heapHi = s.heapHi + n ∧
      s.heapHi + n ≤ s.hiMax := by
  unfold memSbrk at h
  split at h
  · next hc =>
    simp only [Option.some.injEq, Prod.mk.injEq] at h
    obtain ⟨h1, h2⟩ := h
    subst h1
    subst h2
    exact ⟨rfl, rfl, rfl, rfl, rfl, rfl, rfl, rfl, hc⟩
  · exact absurd h (by simp)

theorem extendHeapB_mem (s : State) (words r : Nat) (s1 : State)
    (h : extendHeapB s words = some (r, s1)) : s1.mem = s.mem := by
  unfold extendHeapB at h
  dsimp only at h
  generalize hn : (if words % 2 == 1 then words + 1 else words) * WSIZE = n at h
  cases hm : memSbrk s n with
  | none =>
    rw [hm] at h
    exact absurd h (by simp)
  | some pr =>
    obtain ⟨bp, s2⟩ := pr
    rw [hm] at h
    dsimp only at h
    simp only [Option.some.injEq] at h
    have hc := coalesceB_mem
      { s2 with blocks := s2.blocks ++ [⟨bp, n, false, allocOfTail s2⟩], tail := bp } bp
    rw [h] at hc
    exact hc.trans (memSbrk_some _ _ _ _ hm).1


theorem mallocB_mem (s : State) (u : Nat) : (mallocB s u).2.mem = s.mem := by
  unfold mallocB
  split
  · rfl
  · dsimp only
    split
    · exact placeB_mem ..
    · split
      · rfl
      · next bp s1 heq =>
        rw [placeB_mem]
        exact extendHeapB_mem _ _ _ _ heq


theorem freeB_mem (s : State) (p : Nat) : (freeB s p).mem = s.mem := by
  unfold freeB
  dsimp only
  repeat' split
  all_goals simp only [coalesceB_mem, updNextP_mem, setBlock_mem]


end Projections

section Decomposition

theorem find?_addr_decomp (l : List Block) (p : Nat) (b : Block)
    (h : l.find? (fun x => x.addr == p) = some b) :
    ∃ L R, l = L ++ b :: R ∧ b.addr = p ∧ ∀ x ∈ L, x.addr ≠ p := by
  induction l with
  | nil => simp at h
  | cons a t ih =>
    by_cases ha : a.addr = p
    · rw [List.find?_cons_of_pos _ (by simpa using ha)] at h
      obtain rfl := Option.some.inj h
      exact ⟨[], t, rfl, ha, by simp⟩
    · rw [List.find?_cons_of_neg _ (by simpa using ha)] at h
      obtain ⟨L, R, hl, hb, hL⟩ := ih h
      exact ⟨a :: L, R, by rw [hl]; rfl, hb, by
        intro x hx
        rcases List.mem_cons.mp hx with rfl | hx
        · exact ha
        · exact hL x hx⟩

theorem findBlock_decomp (s : State) (p : Nat) (b : Block) (h : findBlock s p = some b) :
    ∃ L R, s.blocks = L ++ b :: R ∧ b.addr = p ∧ ∀ x ∈ L, x.addr ≠ p :=
  find?_addr_decomp s.blocks p b h

theorem findBlock_mem (s : State) (p : Nat) (b : Block) (h : findBlock s p = some b) :
    b ∈ s.blocks ∧ b.addr = p := by
  obtain ⟨L, R, hl, hb, _⟩ := findBlock_decomp s p b h
  exact ⟨by rw [hl]; simp, hb⟩

theorem find?_addr_eq_some (L R : List Block) (b : Block)
    (hL : ∀ x ∈ L, x.addr ≠ b.addr) :
    (L ++ b :: R).find? (fun x => x.addr == b.addr) = some b := by
  induction L with
  | nil => simp [List.find?_cons_of_pos]
  | cons a t ih =>
    rw [List.cons_append, List.find?_cons_of_neg _ (by simp [hL a (by simp)])]
    exact ih (fun x hx => hL x (by simp [hx]))

theorem nextOf_decomp (L R : List Block) (b : Block)
    (hL : ∀ x ∈ L, x.addr ≠ b.addr) :
    nextOf (L ++ b :: R) b.addr = R.head? := by
  induction L with
  | nil =>
    cases R with
    | nil => rfl
    | cons c t => simp [nextOf]
  | cons a t ih =>
    have ha : a.addr ≠ b.addr := hL a (by simp)
    have hne : t ++ b :: R ≠ [] := by simp
    cases ht : t ++ b :: R with
    | nil => exact absurd ht hne
    | cons c u =>
      rw [List.cons_append, ht]
      have : nextOf (a :: c :: u) b.addr = nextOf (c :: u) b.addr := by
        simp [nextOf, ha]
      rw [this, ← ht, ih (fun x hx => hL x (by simp [hx]))]

theorem prevOf_of_tail_ne (l : List Block) (p : Nat)
    (h : ∀ x ∈ l.tail, x.addr ≠ p) : prevOf l p = none := by
  induction l with
  | nil => rfl
  | cons a t ih =>
    cases t with
    | nil => rfl
    | cons c u =>
      have hc : c.addr ≠ p := h c (by simp)
      have : prevOf (a :: c :: u) p = prevOf (c :: u) p := by
        simp [prevOf, hc]
      rw [this]
      exact ih (fun x hx => h x (by simp at hx ⊢; exact Or.inr hx))

theorem prevOf_decomp (L R : List Block) (b : Block)
    (hL : ∀ x ∈ L, x.addr ≠ b.addr) (hR : ∀ x ∈ R, x.addr ≠ b.addr) :
    prevOf (L ++ b :: R) b.addr = L.getLast? := by
  induction L with
  | nil =>
    exact prevOf_of_tail_ne _ _ (by
      intro x hx
      simp only [List.nil_append, List.tail_cons] at hx
      exact hR x hx)
  | cons a t ih =>
    cases t with
    | nil => simp [prevOf]
    | cons a2 t2 =>
      have ha2 : a2.addr ≠ b.addr := hL a2 (by simp)
      have hstep : prevOf ((a :: a2 :: t2) ++ b :: R) b.addr
          = prevOf ((a2 :: t2) ++ b :: R) b.addr := by
        simp [prevOf, ha2]
      rw [hstep, ih (fun x hx => hL x (by simp at hx ⊢; tauto))]
      simp [List.getLast?]

theorem replaceRun_decomp (L R news : List Block) (b : Block) (n : Nat)
    (hL : ∀ x ∈ L, x.addr ≠ b.addr) :
    replaceRun (L ++ b :: R) b.addr n news = L ++ news ++ R.drop (n - 1) := by
  induction L with
  | nil => simp [replaceRun]
  | cons a t ih =>
    rw [List.cons_append]
    have ha : ¬ a.addr = b.addr := hL a (by simp)
    rw [replaceRun, if_neg ha, ih (fun x hx => hL x (by simp [hx]))]
    rfl

theorem map_update_decomp (L R : List Block) (b : Block) (f : Block → Block)
    (hL : ∀ x ∈ L, x.addr ≠ b.addr) (hR : ∀ x ∈ R, x.addr ≠ b.addr) :
    (L ++ b :: R).map (fun x => if x.addr = b.addr then f x else x) = L ++ f b :: R := by
  rw [List.map_append, List.map_cons, if_pos rfl]
  congr 1
  · exact List.map_congr_left (fun x hx => if_neg (hL x hx)) |>.trans (List.map_id L)
  · congr 1
    exact List.map_congr_left (fun x hx => if_neg (hR x hx)) |>.trans (List.map_id R)

end Decomposition

section BinLemmas

theorem getD_set_self (B : List (List Nat)) (i : Nat) (l : List Nat) (h : i < B.length) :
    (B.set i l).getD i [] = l := by
  simp [List.getD, List.getElem?_set_self, h]

theorem getD_set_ne (B : List (List Nat)) (i j : Nat) (l : List Nat) (h : i ≠ j) :
    (B.set i l).getD j [] = B.getD j [] := by
  simp [List.getD, List.getElem?_set_ne, h]

theorem join_set_decomp (B : List (List Nat)) (i : Nat) (l : List Nat) (h : i < B.length) :
    ∃ X Y, B.join = X ++ B.getD i [] ++ Y ∧ (B.set i l).join = X ++ l ++ Y := by
  induction B generalizing i with
  | nil => simp at h
  | cons c t ih =>
    cases i with
    | zero =>
      exact ⟨[], t.join, by simp [List.getD], by simp⟩
    | succ j =>
      obtain ⟨X, Y, h1, h2⟩ := ih j (by simpa using h)
      refine ⟨c ++ X, Y, ?_, ?_⟩
      · simp only [List.join_cons, List.getD_cons_succ, h1]
        simp [List.append_assoc]
      · simp only [List.set_cons_succ, List.join_cons, h2]
        simp [List.append_assoc]

theorem mem_getD_mem_join (B : List (List Nat)) (i : Nat) (a : Nat)
    (ha : a ∈ B.getD i []) : a ∈ B.join := by
  by_cases h : i < B.length
  · obtain ⟨X, Y, h1, _⟩ := join_set_decomp B i (B.getD i []) h
    rw [h1]
    exact List.mem_append.mpr (Or.inl (List.mem_append.mpr (Or.inr ha)))
  · rw [List.getD_eq_default] at ha
    · simp at ha
    · omega

theorem binSplice_perm (s : State) (asize bp : Nat) (l : List Nat) :
    (binSplice s asize bp l).Perm (bp :: l) := by
  induction l with
  | nil => simp [binSplice]
  | cons a t ih =>
    rw [binSplice]
    split
    · exact (List.Perm.cons a ih).trans (List.Perm.swap bp a t)
    · exact List.Perm.refl _

theorem binSplice_mem (s : State) (asize bp : Nat) (l : List Nat) (x : Nat) :
    x ∈ binSplice s asize bp l ↔ x = bp ∨ x ∈ l := by
  rw [(binSplice_perm s asize bp l).mem_iff]
  simp

end BinLemmas

/-- The physical adjacency relation between consecutive blocks: the next
block starts where this one ends (headers record true sizes) and its stored
`P` bit equals this block's `A` bit. -/
def blockRel (a b : Block) : Prop := b.addr = a.addr + a.size ∧ b.prevAlloc = a.alloc

instance : DecidableRel blockRel := fun a b => by
  unfold blockRel
  infer_instance

/-- The allocator's representation invariant, maintained by every public
call (except that coalescing completeness is tracked separately, see
`NoAdjFree`): region-bound facts, the contiguous block chain between
prologue and epilogue with correct `P` bits, size normalization, tail and
end-of-heap agreement, and well-formed bins (entries are free blocks whose
size maps to the bin's class, each bin is sorted by non-decreasing stored
size, and no address is linked twice). -/
structure Inv (s : State) : Prop where
  lo_pos : 0 < s.lo
  lo_align : s.lo % 8 = 0
  cap : s.hiMax ≤ 2 ^ 62
  hi_cap : s.heapHi ≤ s.hiMax
  first_addr : s.blocks.head?.map Block.addr = some (s.lo + 4 * WSIZE)
  first_prev : ∀ b ∈ s.blocks.head?, b.prevAlloc = true
  chain : List.Chain' blockRel s.blocks
  size_lb : ∀ b ∈ s.blocks, 2 * DSIZE ≤ b.size
  size_align : ∀ b ∈ s.blocks, b.size % 8 = 0
  hi_eq : s.blocks.getLast?.map (fun b => b.addr + b.size) = some s.heapHi
  tail_eq : s.blocks.getLast?.map Block.addr = some s.tail
  bins_len : s.bins.length = BIN
  bins_ok : ∀ i < BIN, ∀ a ∈ s.bins.getD i [],
    ∃ b ∈ s.blocks, b.addr = a ∧ b.alloc = false ∧ binIndex b.size = i
  bins_sorted : ∀ i < BIN,
    List.Pairwise (fun a c => sizeAt s a ≤ sizeAt s c) (s.bins.getD i [])
  bins_nodup : s.bins.join.Nodup

/-- Coalescing completeness: no two physically adjacent blocks are both
free. -/
def NoAdjFree (s : State) : Prop :=
  List.Chain' (fun a b => a.alloc = true ∨ b.alloc = true) s.blocks

section ChainFacts

theorem chain_mono (l : List Block) (hc : List.Chain' blockRel l) (a0 : Nat)
    (hh : l.head?.map Block.addr = some a0) : ∀ b ∈ l, a0 ≤ b.addr := by
  induction l generalizing a0 with
  | nil => simp
  | cons c t ih =>
    have hc0 : c.addr = a0 := by simpa using hh
    intro b hb
    rcases List.mem_cons.mp hb with rfl | hb
    · omega
    · cases t with
      | nil => simp at hb
      | cons d u =>
        obtain ⟨hrel, hch⟩ := List.chain'_cons.mp hc
        have := ih hch d.addr (by simp) b hb
        have : a0 + c.size ≤ b.addr := by
          rw [← hc0, ← hrel.1]
          exact this
        omega

theorem chain_align (l : List Block) (hc : List.Chain' blockRel l) (a0 : Nat)
    (hh : l.head?.map Block.addr = some a0) (h8 : a0 % 8 = 0)
    (hsz : ∀ b ∈ l, b.size % 8 = 0) : ∀ b ∈ l, b.addr % 8 = 0 := by
  induction l generalizing a0 with
  | nil => simp
  | cons c t ih =>
    have hc0 : c.addr = a0 := by simpa using hh
    intro b hb
    rcases List.mem_cons.mp hb with rfl | hb
    · omega
    · cases t with
      | nil => simp at hb
      | cons d u =>
        obtain ⟨hrel, hch⟩ := List.chain'_cons.mp hc
        refine ih hch d.addr (by simp) ?_ (fun x hx => hsz x (by simp [hx])) b hb
        have hcs : c.size % 8 = 0 := hsz c (by simp)
        have hd := hrel.1
        omega

theorem chain_back (l : List Block) (hc : List.Chain' blockRel l) (e : Nat)
    (hl : l.getLast?.map (fun b => b.addr + b.size) = some e) :
    ∀ b ∈ l, b.addr + b.size ≤ e := by
  induction l with
  | nil => simp
  | cons c t ih =>
    intro b hb
    cases t with
    | nil =>
      simp only [List.mem_singleton] at hb
      subst hb
      simp [List.getLast?] at hl
      omega
    | cons d u =>
      obtain ⟨hrel, hch⟩ := List.chain'_cons.mp hc
      have hl2 : (d :: u).getLast?.map (fun b => b.addr + b.size) = some e := by
        rwa [List.getLast?_cons_cons] at hl
      rcases List.mem_cons.mp hb with rfl | hb
      · have hd := ih hch hl2 d (by simp)
        have hr := hrel.1
        omega
      · exact ih hch hl2 b hb

theorem chain_strict (l : List Block) (hc : List.Chain' blockRel l)
    (hsz : ∀ b ∈ l, 1 ≤ b.size) :
    List.Pairwise (fun a b => a.addr < b.addr) l := by
  induction l with
  | nil => exact List.Pairwise.nil
  | cons c t ih =>
    rw [List.pairwise_cons]
    constructor
    · intro b hb
      cases t with
      | nil => simp at hb
      | cons d u =>
        obtain ⟨hrel, hch⟩ := List.chain'_cons.mp hc
        have := chain_mono _ hch d.addr (by simp) b hb
        have hc1 : 1 ≤ c.size := hsz c (by simp)
        have hr := hrel.1
        omega
    · exact ih (List.Chain'.tail hc) (fun x hx => hsz x (by simp [hx]))

end ChainFacts

section InvFacts

theorem Inv.blocks_ne (h : Inv s) : s.blocks ≠ [] := by
  intro he
  have := h.hi_eq
  rw [he] at this
  simp at this

theorem Inv.addr_strict (h : Inv s) :
    List.Pairwise (fun a b => a.addr < b.addr) s.blocks :=
  chain_strict _ h.chain (fun b hb => by have := h.size_lb b hb; unfold DSIZE at this; omega)

theorem Inv.addr_align (h : Inv s) : ∀ b ∈ s.blocks, b.addr % 8 = 0 :=
  chain_align _ h.chain _ h.first_addr
    (by have h1 := h.lo_align; unfold WSIZE; omega) h.size_align

theorem Inv.addr_lb (h : Inv s) : ∀ b ∈ s.blocks, s.lo + 4 * WSIZE ≤ b.addr :=
  chain_mono _ h.chain _ h.first_addr

theorem Inv.addr_ub (h : Inv s) : ∀ b ∈ s.blocks, b.addr + b.size ≤ s.heapHi :=
  chain_back _ h.chain _ h.hi_eq

theorem Inv.findBlock_of_mem (h : Inv s) (b : Block) (hb : b ∈ s.blocks) :
    findBlock s b.addr = some b := by
  obtain ⟨L, R, hl⟩ := List.append_of_mem hb
  have hp := h.addr_strict
  unfold findBlock
  rw [hl] at hp ⊢
  rw [List.pairwise_append] at hp
  exact find?_addr_eq_some L R b (fun x hx => by
    have := hp.2.2 x hx b (by simp)
    omega)

theorem Inv.sizeAt_of_mem (h : Inv s) (b : Block) (hb : b ∈ s.blocks) :
    sizeAt s b.addr = b.size := by
  unfold sizeAt
  rw [h.findBlock_of_mem b hb]
  rfl

theorem Inv.decomp_unique (h : Inv s) (L R : List Block) (b : Block)
    (hl : s.blocks = L ++ b :: R) :
    (∀ x ∈ L, x.addr < b.addr) ∧ (∀ x ∈ R, b.addr < x.addr) := by
  have hp := h.addr_strict
  rw [hl, List.pairwise_append] at hp
  refine ⟨fun x hx => hp.2.2 x hx b (by simp), fun x hx => ?_⟩
  have := hp.2.1
  rw [List.pairwise_cons] at this
  exact this.1 x hx

end InvFacts

section BinIndexFacts

theorem binLoop_le (fuel size : Nat) : binLoop fuel size ≤ fuel := by
  induction fuel generalizing size with
  | zero => simp [binLoop]
  | succ f ih =>
    rw [binLoop]
    split
    · have := ih (size / 2)
      omega
    · omega

theorem binLoop_pos (fuel size : Nat) (h : MSIZE < size) (hf : 0 < fuel) :
    1 ≤ binLoop fuel size := by
  cases fuel with
  | zero => omega
  | succ f =>
    rw [binLoop, if_pos h]
    omega

theorem binIndex_small (size : Nat) (h : size ≤ MSIZE) :
    binIndex size = (size - 2 * DSIZE) / WSIZE := by
  unfold binIndex
  rw [if_pos h]

theorem binIndex_big (size : Nat) (h : MSIZE < size) :
    binIndex size = 28 + binLoop 7 size := by
  unfold binIndex
  rw [if_neg (by omega)]
  norm_num [MSIZE, DSIZE, WSIZE, BIN]

theorem binIndex_lt (size : Nat) : binIndex size < BIN := by
  by_cases h : size ≤ MSIZE
  · rw [binIndex_small size h]
    unfold MSIZE at h
    unfold DSIZE WSIZE BIN
    omega
  · rw [binIndex_big size (by omega)]
    have := binLoop_le 7 size
    unfold BIN
    omega

theorem binIndex_ge_29 (size : Nat) (h : MSIZE < size) : 29 ≤ binIndex size := by
  rw [binIndex_big size h]
  have := binLoop_pos 7 size h (by omega)
  omega

theorem binIndex_exact_size (size : Nat) (h32 : 2 * DSIZE ≤ size) (h8 : size % 8 = 0)
    (hle : size ≤ MSIZE) : size = 2 * DSIZE + 8 * binIndex size := by
  rw [binIndex_small size hle]
  unfold DSIZE WSIZE MSIZE at *
  omega

theorem binIndex_exact_of_le_28 (size : Nat) (h32 : 2 * DSIZE ≤ size) (h8 : size % 8 = 0)
    (h : binIndex size ≤ 28) : size = 2 * DSIZE + 8 * binIndex size := by
  by_cases hle : size ≤ MSIZE
  · exact binIndex_exact_size size h32 h8 hle
  · have := binIndex_ge_29 size (by omega)
    omega

theorem binLoop_mono (fuel s1 s2 : Nat) (h : s1 ≤ s2) :
    binLoop fuel s1 ≤ binLoop fuel s2 := by
  induction fuel generalizing s1 s2 with
  | zero => simp [binLoop]
  | succ f ih =>
    rw [binLoop, binLoop]
    split
    · rw [if_pos (by omega)]
      have := ih (s1 / 2) (s2 / 2) (by omega)
      omega
    · omega

theorem binIndex_mono (s1 s2 : Nat) (h32 : 2 * DSIZE ≤ s1) (h : s1 ≤ s2) :
    binIndex s1 ≤ binIndex s2 := by
  by_cases h1 : s1 ≤ MSIZE
  · by_cases h2 : s2 ≤ MSIZE
    · rw [binIndex_small s1 h1, binIndex_small s2 h2]
      exact Nat.div_le_div_right (by omega)
    · have ha : binIndex s1 ≤ 28 := by
        rw [binIndex_small s1 h1]
        unfold MSIZE at h1
        unfold DSIZE WSIZE
        omega
      have := binIndex_ge_29 s2 (by omega)
      omega
  · have h2 : MSIZE < s2 := by omega
    rw [binIndex_big s1 (by omega), binIndex_big s2 h2]
    have := binLoop_mono 7 s1 s2 h
    omega

end BinIndexFacts

section BinsPreservation

theorem sizeAt_congr_blocks (s s1 : State) (hb : s1.blocks = s.blocks) (a : Nat) :
    sizeAt s1 a = sizeAt s a := by
  unfold sizeAt findBlock
  rw [hb]

theorem mem_join_getD (B : List (List Nat)) (a : Nat) (ha : a ∈ B.join) :
    ∃ j < B.length, a ∈ B.getD j [] := by
  induction B with
  | nil => simp at ha
  | cons c t ih =>
    simp only [List.join_cons, List.mem_append] at ha
    rcases ha with ha | ha
    · exact ⟨0, by simp, by simpa [List.getD] using ha⟩
    · obtain ⟨j, hj, hmem⟩ := ih ha
      exact ⟨j + 1, by simpa using hj, by simpa [List.getD_cons_succ] using hmem⟩

theorem binSplice_sorted (s : State) (bp : Nat) (l : List Nat)
    (hl : List.Pairwise (fun a c => sizeAt s a ≤ sizeAt s c) l) :
    List.Pairwise (fun a c => sizeAt s a ≤ sizeAt s c)
      (binSplice s (sizeAt s bp) bp l) := by
  induction l with
  | nil => simp [binSplice]
  | cons a t ih =>
    rw [List.pairwise_cons] at hl
    rw [binSplice]
    split
    · next hgt =>
      rw [List.pairwise_cons]
      refine ⟨?_, ih hl.2⟩
      intro x hx
      rcases (binSplice_mem s (sizeAt s bp) bp t x).mp hx with rfl | hx
      · omega
      · exact hl.1 x hx
    · next hle =>
      rw [List.pairwise_cons]
      refine ⟨?_, List.pairwise_cons.mpr hl⟩
      intro x hx
      rcases List.mem_cons.mp hx with rfl | hx
      · omega
      · have := hl.1 x hx
        omega

/-- `insert(bp)` preserves the invariant when `bp` is the payload address of
a free block that is not currently linked into any bin; the multiset of
linked addresses gains exactly `bp`. -/
theorem insertB_inv (s : State) (h : Inv s) (b : Block) (hb : b ∈ s.blocks)
    (hbfree : b.alloc = false) (hnot : b.addr ∉ s.bins.join) :
    Inv (insertB s b.addr) ∧ (insertB s b.addr).bins.join.Perm (b.addr :: s.bins.join) := by
  have hsz : sizeAt s b.addr = b.size := h.sizeAt_of_mem b hb
  have hilt : binIndex b.size < BIN := binIndex_lt b.size
  have hlen : binIndex (sizeAt s b.addr) < s.bins.length := by
    rw [hsz, h.bins_len]
    exact hilt
  have hbins : (insertB s b.addr).bins
      = s.bins.set (binIndex (sizeAt s b.addr)) (newbin s b.addr) := rfl
  have hperm : (newbin s b.addr).Perm
      (b.addr :: s.bins.getD (binIndex (sizeAt s b.addr)) []) := by
    unfold newbin
    split
    · exact List.Perm.refl _
    · exact binSplice_perm ..
  obtain ⟨X, Y, hj1, hj2⟩ := join_set_decomp s.bins (binIndex (sizeAt s b.addr))
    (newbin s b.addr) hlen
  have hstep1 : (X ++ newbin s b.addr ++ Y).Perm
      (X ++ (b.addr :: s.bins.getD (binIndex (sizeAt s b.addr)) []) ++ Y) :=
    (hperm.append_left X).append_right Y
  have hstep2 : (X ++ (b.addr :: s.bins.getD (binIndex (sizeAt s b.addr)) []) ++ Y).Perm
      (b.addr :: (X ++ s.bins.getD (binIndex (sizeAt s b.addr)) [] ++ Y)) := by
    have hmid := @List.perm_middle Nat b.addr X
      (s.bins.getD (binIndex (sizeAt s b.addr)) [] ++ Y)
    have h1 : X ++ (b.addr :: s.bins.getD (binIndex (sizeAt s b.addr)) []) ++ Y
        = X ++ b.addr :: (s.bins.getD (binIndex (sizeAt s b.addr)) [] ++ Y) := by
      simp [List.append_assoc]
    have h2 : b.addr :: (X ++ s.bins.getD (binIndex (sizeAt s b.addr)) [] ++ Y)
        = b.addr :: (X ++ (s.bins.getD (binIndex (sizeAt s b.addr)) [] ++ Y)) := by
      simp [List.append_assoc]
    rw [h1, h2]
    exact hmid
  have hjoinperm : (insertB s b.addr).bins.join.Perm (b.addr :: s.bins.join) := by
    rw [hbins, hj2, hj1]
    exact hstep1.trans hstep2
  refine ⟨?_, hjoinperm⟩
  have hmemnew : ∀ a ∈ newbin s b.addr,
      a = b.addr ∨ a ∈ s.bins.getD (binIndex (sizeAt s b.addr)) [] := by
    intro a ha
    have := hperm.mem_iff.mp ha
    simpa using this
  have hsize_at : ∀ a, sizeAt (insertB s b.addr) a = sizeAt s a :=
    sizeAt_congr_blocks s (insertB s b.addr) rfl
  constructor
  case lo_pos => exact h.lo_pos
  case lo_align => exact h.lo_align
  case cap => exact h.cap
  case hi_cap => exact h.hi_cap
  case first_addr => exact h.first_addr
  case first_prev => exact h.first_prev
  case chain => exact h.chain
  case size_lb => exact h.size_lb
  case size_align => exact h.size_align
  case hi_eq => exact h.hi_eq
  case tail_eq => exact h.tail_eq
  case bins_len =>
    rw [hbins, List.length_set]
    exact h.bins_len
  case bins_ok =>
    intro j hj a ha
    rw [hbins] at ha
    by_cases hji : j = binIndex (sizeAt s b.addr)
    · subst hji
      rw [getD_set_self _ _ _ hlen] at ha
      rcases hmemnew a ha with rfl | ha
      · exact ⟨b, hb, rfl, hbfree, by rw [hsz]⟩
      · exact h.bins_ok _ hj a ha
    · rw [getD_set_ne _ _ _ _ (fun hx => hji hx.symm)] at ha
      exact h.bins_ok j hj a ha
  case bins_sorted =>
    intro j hj
    rw [hbins]
    by_cases hji : j = binIndex (sizeAt s b.addr)
    · subst hji
      rw [getD_set_self _ _ _ hlen]
      have hsorted_new : List.Pairwise (fun a c => sizeAt s a ≤ sizeAt s c)
          (newbin s b.addr) := by
        unfold newbin
        split
        · next hsmall =>
          rw [List.pairwise_cons]
          refine ⟨?_, h.bins_sorted _ (by rw [hsz]; exact hilt)⟩
          intro c hc
          obtain ⟨bc, hbc, rfl, hcfree, hcidx⟩ :=
            h.bins_ok _ (by rw [hsz]; exact hilt) c hc
          have hc32 := h.size_lb bc hbc
          have hc8 := h.size_align bc hbc
          have hb32 := h.size_lb b hb
          have hb8 := h.size_align b hb
          have hile : binIndex b.size ≤ 28 := by
            rw [hsz] at hsmall
            rw [binIndex_small b.size hsmall]
            unfold MSIZE at hsmall
            unfold DSIZE WSIZE
            omega
          have heq1 : bc.size = 2 * DSIZE + 8 * binIndex bc.size :=
            binIndex_exact_of_le_28 bc.size hc32 hc8 (by rw [hcidx, hsz]; exact hile)
          have heq2 : b.size = 2 * DSIZE + 8 * binIndex b.size :=
            binIndex_exact_of_le_28 b.size hb32 hb8 hile
          rw [h.sizeAt_of_mem bc hbc, hsz]
          rw [hcidx, hsz] at heq1
          omega
        · next hbig =>
          exact binSplice_sorted s b.addr _ (h.bins_sorted _ (by rw [hsz]; exact hilt))
      exact hsorted_new.imp (fun hac => by
        rw [hsize_at, hsize_at]
        exact hac)
    · rw [getD_set_ne _ _ _ _ (fun hx => hji hx.symm)]
      exact (h.bins_sorted j hj).imp (fun hac => by
        rw [hsize_at, hsize_at]
        exact hac)
  case bins_nodup =>
    rw [hjoinperm.nodup_iff]
    exact List.Nodup.cons hnot h.bins_nodup

/-- `delete(bp)` preserves the invariant unconditionally: it erases the
occurrence of `bp` from the bin selected by `bp`'s stored size, and by
well-formedness `bp` is linked nowhere else, so afterwards `bp` is not
linked at all. -/
theorem deleteB_inv (s : State) (h : Inv s) (bp : Nat) :
    Inv (deleteB s bp) ∧ (deleteB s bp).bins.join.Sublist s.bins.join ∧
      bp ∉ (deleteB s bp).bins.join := by
  have hlen : binIndex (sizeAt s bp) < s.bins.length := by
    rw [h.bins_len]
    exact binIndex_lt _
  have hbins : (deleteB s bp).bins
      = s.bins.set (binIndex (sizeAt s bp))
          ((s.bins.getD (binIndex (sizeAt s bp)) []).erase bp) := rfl
  obtain ⟨X, Y, hj1, hj2⟩ := join_set_decomp s.bins (binIndex (sizeAt s bp))
    ((s.bins.getD (binIndex (sizeAt s bp)) []).erase bp) hlen
  have hsub : (deleteB s bp).bins.join.Sublist s.bins.join := by
    rw [hbins, hj2, hj1]
    exact ((List.Sublist.refl X).append
      ((s.bins.getD (binIndex (sizeAt s bp)) []).erase_sublist bp)).append
      (List.Sublist.refl Y)
  have hbin_sub : (s.bins.getD (binIndex (sizeAt s bp)) []).Sublist s.bins.join := by
    rw [hj1]
    exact (List.sublist_append_right X (s.bins.getD (binIndex (sizeAt s bp)) [])).trans
      (List.sublist_append_left _ Y)
  have hbin_nodup : (s.bins.getD (binIndex (sizeAt s bp)) []).Nodup :=
    h.bins_nodup.sublist hbin_sub
  have hsize_at : ∀ a, sizeAt (deleteB s bp) a = sizeAt s a :=
    sizeAt_congr_blocks s (deleteB s bp) rfl
  have hnotmem : bp ∉ (deleteB s bp).bins.join := by
    intro hmem
    obtain ⟨j, hj, hjm⟩ := mem_join_getD _ _ hmem
    rw [hbins] at hjm
    rw [hbins, List.length_set] at hj
    by_cases hji : j = binIndex (sizeAt s bp)
    · subst hji
      rw [getD_set_self _ _ _ hlen] at hjm
      exact ((hbin_nodup.mem_erase_iff).mp hjm).1 rfl
    · rw [getD_set_ne _ _ _ _ (fun hx => hji hx.symm)] at hjm
      obtain ⟨bj, hbj, hadr, hfree, hidx⟩ := h.bins_ok j (by rw [← h.bins_len]; exact hj) bp hjm
      have : sizeAt s bp = bj.size := by
        rw [← hadr]
        exact h.sizeAt_of_mem bj hbj
      rw [← this] at hidx
      exact hji hidx.symm
  refine ⟨?_, hsub, hnotmem⟩
  constructor
  case lo_pos => exact h.lo_pos
  case lo_align => exact h.lo_align
  case cap => exact h.cap
  case hi_cap => exact h.hi_cap
  case first_addr => exact h.first_addr
  case first_prev => exact h.first_prev
  case chain => exact h.chain
  case size_lb => exact h.size_lb
  case size_align => exact h.size_align
  case hi_eq => exact h.hi_eq
  case tail_eq => exact h.tail_eq
  case bins_len =>
    rw [hbins, List.length_set]
    exact h.bins_len
  case bins_ok =>
    intro j hj a ha
    rw [hbins] at ha
    by_cases hji : j = binIndex (sizeAt s bp)
    · subst hji
      rw [getD_set_self _ _ _ hlen] at ha
      exact h.bins_ok _ hj a (List.mem_of_mem_erase ha)
    · rw [getD_set_ne _ _ _ _ (fun hx => hji hx.symm)] at ha
      exact h.bins_ok j hj a ha
  case bins_sorted =>
    intro j hj
    rw [hbins]
    by_cases hji : j = binIndex (sizeAt s bp)
    · subst hji
      rw [getD_set_self _ _ _ hlen]
      exact ((h.bins_sorted _ hj).sublist
        ((s.bins.getD (binIndex (sizeAt s bp)) []).erase_sublist bp)).imp (fun hac => by
          rw [hsize_at, hsize_at]
          exact hac)
    · rw [getD_set_ne _ _ _ _ (fun hx => hji hx.symm)]
      exact (h.bins_sorted j hj).imp (fun hac => by
        rw [hsize_at, hsize_at]
        exact hac)
  case bins_nodup =>
    exact h.bins_nodup.sublist hsub

end BinsPreservation

section Surgery

theorem chain_last_end (l : List Block) (hc : List.Chain' blockRel l) (a0 : Nat)
    (hh : l.head?.map Block.addr = some a0) :
    l.getLast?.map (fun b => b.addr + b.size) = some (a0 + (l.map Block.size).sum) := by
  induction l generalizing a0 with
  | nil => simp at hh
  | cons c t ih =>
    have hc0 : c.addr = a0 := by simpa using hh
    cases t with
    | nil => simp [List.getLast?, hc0]
    | cons d u =>
      obtain ⟨hrel, hch⟩ := List.chain'_cons.mp hc
      rw [List.getLast?_cons_cons, ih hch d.addr (by simp)]
      have hd : d.addr = a0 + c.size := by rw [hrel.1, hc0]
      have hs : (List.map Block.size (c :: d :: u)).sum
          = c.size + (List.map Block.size (d :: u)).sum := by simp
      rw [hs]
      congr 1
      omega

theorem chain_range (l : List Block) (hc : List.Chain' blockRel l) (a0 : Nat)
    (hh : l.head?.map Block.addr = some a0) :
    ∀ x ∈ l, a0 ≤ x.addr ∧ x.addr + x.size ≤ a0 + (l.map Block.size).sum := by
  intro x hx
  refine ⟨chain_mono l hc a0 hh x hx, ?_⟩
  have := chain_last_end l hc a0 hh
  exact chain_back l hc _ this x hx

theorem find?_block_none (l : List Block) (a : Nat) (h : ∀ x ∈ l, x.addr ≠ a) :
    l.find? (fun x => x.addr == a) = none := by
  rw [List.find?_eq_none]
  intro x hx
  simpa using h x hx

theorem find?_block_of_mem (l : List Block) (b : Block) (hb : b ∈ l)
    (hp : List.Pairwise (fun x y => x.addr < y.addr) l) :
    l.find? (fun x => x.addr == b.addr) = some b := by
  obtain ⟨L, R, rfl⟩ := List.append_of_mem hb
  rw [List.pairwise_append] at hp
  exact find?_addr_eq_some L R b (fun x hx => by
    have := hp.2.2 x hx b (by simp)
    omega)

/-- The central surgery lemma: replacing the run `olds` of consecutive
blocks by a run `news` that starts at the same address with the same stored
`P` bit, covers the same number of bytes, is internally consistent, ends in
the same allocation state (unless it is the physical tail), carries legal
sizes, and preserves address, size and allocation state of every block a
bin entry names, yields a state satisfying the invariant again — provided
the new tail pointer names the new last block. -/
theorem Inv.replace (s : State) (h : Inv s) (s1 : State) (L olds news R : List Block)
    (a0 : Nat)
    (hdec : s.blocks = L ++ olds ++ R)
    (hblocks : s1.blocks = L ++ news ++ R)
    (hbins : s1.bins = s.bins)
    (hlo : s1.lo = s.lo) (hhiM : s1.hiMax = s.hiMax) (hhi : s1.heapHi = s.heapHi)
    (ho0 : olds.head?.map Block.addr = some a0)
    (hn0 : news.head?.map Block.addr = some a0)
    (hprev0 : news.head?.map Block.prevAlloc = olds.head?.map Block.prevAlloc)
    (hsum : (news.map Block.size).sum = (olds.map Block.size).sum)
    (hnchain : List.Chain' blockRel news)
    (hlastalloc : news.getLast?.map Block.alloc = olds.getLast?.map Block.alloc ∨ R = [])
    (hsz : ∀ x ∈ news, 2 * DSIZE ≤ x.size ∧ x.size % 8 = 0)
    (hbinpres : ∀ x ∈ olds,
      (∃ y ∈ news, y.addr = x.addr ∧ y.size = x.size ∧ y.alloc = x.alloc) ∨
        x.addr ∉ s.bins.join)
    (htail : (L ++ news ++ R).getLast?.map Block.addr = some s1.tail) :
    Inv s1 ∧ (∀ a ∈ s.bins.join, sizeAt s1 a = sizeAt s a) := by
  obtain ⟨oh, hoh, hoha⟩ : ∃ oh, olds.head? = some oh ∧ oh.addr = a0 := by
    cases olds with
    | nil => simp at ho0
    | cons c t => exact ⟨c, rfl, by simpa using ho0⟩
  obtain ⟨nh, hnh, hnha⟩ : ∃ nh, news.head? = some nh ∧ nh.addr = a0 := by
    cases news with
    | nil => simp at hn0
    | cons c t => exact ⟨c, rfl, by simpa using hn0⟩
  have holds_ne : olds ≠ [] := by
    cases olds
    · simp at hoh
    · simp
  have hnews_ne : news ≠ [] := by
    cases news
    · simp at hnh
    · simp
  -- decompose the old chain
  have hchain0 := h.chain
  rw [hdec] at hchain0
  rw [List.chain'_append] at hchain0
  obtain ⟨hcLO, hcR, hlinkR⟩ := hchain0
  rw [List.chain'_append] at hcLO
  obtain ⟨hcL, hcO, hlinkL⟩ := hcLO
  -- last element of olds
  obtain ⟨ol, hol⟩ : ∃ ol, olds.getLast? = some ol := by
    cases holx : olds.getLast? with
    | none => exact absurd (List.getLast?_eq_none_iff.mp holx) holds_ne
    | some x => exact ⟨x, rfl⟩
  obtain ⟨nl, hnl⟩ : ∃ nl, news.getLast? = some nl := by
    cases hnlx : news.getLast? with
    | none => exact absurd (List.getLast?_eq_none_iff.mp hnlx) hnews_ne
    | some x => exact ⟨x, rfl⟩
  -- ends agree
  have hoend : ol.addr + ol.size = a0 + (olds.map Block.size).sum := by
    have := chain_last_end olds hcO a0 ho0
    rw [hol] at this
    simpa using this
  have hnend : nl.addr + nl.size = a0 + (olds.map Block.size).sum := by
    have := chain_last_end news hnchain a0 hn0
    rw [hnl, hsum] at this
    simpa using this
  -- size facts of old blocks
  have hszL : ∀ x ∈ L, 2 * DSIZE ≤ x.size :=
    fun x hx => h.size_lb x (by rw [hdec]; simp [hx])
  have hszO : ∀ x ∈ olds, 2 * DSIZE ≤ x.size :=
    fun x hx => h.size_lb x (by rw [hdec]; simp [hx])
  have hszR : ∀ x ∈ R, 2 * DSIZE ≤ x.size :=
    fun x hx => h.size_lb x (by rw [hdec]; simp [hx])
  -- address ranges
  have hrangeO : ∀ x ∈ olds, a0 ≤ x.addr ∧ x.addr + x.size ≤ a0 + (olds.map Block.size).sum :=
    chain_range olds hcO a0 ho0
  have hrangeN : ∀ x ∈ news, a0 ≤ x.addr ∧ x.addr + x.size ≤ a0 + (olds.map Block.size).sum := by
    intro x hx
    have := chain_range news hnchain a0 hn0 x hx
    rw [hsum] at this
    exact this
  have hstrict := h.addr_strict
  rw [hdec] at hstrict
  have hLlt : ∀ x ∈ L, x.addr < a0 := by
    intro x hx
    have hohm : oh ∈ olds := List.mem_of_mem_head? hoh
    rw [List.pairwise_append, List.pairwise_append] at hstrict
    have := hstrict.1.2.2 x hx oh hohm
    omega
  have hRge : ∀ y ∈ R, a0 + (olds.map Block.size).sum ≤ y.addr := by
    intro y hy
    cases hR : R with
    | nil => subst hR; simp at hy
    | cons rh rt =>
      subst hR
      have hlk : blockRel ol rh := by
        have holsL : (L ++ olds).getLast? = some ol := by
          rw [List.getLast?_append, hol]
          rfl
        exact hlinkR ol (by rw [holsL]; rfl) rh (by simp)
      have hrh : rh.addr = a0 + (olds.map Block.size).sum := by
        rw [hlk.1]
        exact hoend
      have := chain_mono _ hcR rh.addr (by simp) y hy
      omega
  -- find frames
  have hfind_old : ∀ a, findBlock s a = ((L.find? (fun x => x.addr == a)).or
      ((olds.find? (fun x => x.addr == a)).or (R.find? (fun x => x.addr == a)))) := by
    intro a
    unfold findBlock
    rw [hdec, List.append_assoc, List.find?_append, List.find?_append]
  have hfind_new : ∀ a, findBlock s1 a = ((L.find? (fun x => x.addr == a)).or
      ((news.find? (fun x => x.addr == a)).or (R.find? (fun x => x.addr == a)))) := by
    intro a
    unfold findBlock
    rw [hblocks, List.append_assoc, List.find?_append, List.find?_append]
  have hpairO : List.Pairwise (fun x y => x.addr < y.addr) olds := by
    rw [List.pairwise_append, List.pairwise_append] at hstrict
    exact hstrict.1.2.1
  have hpairN : List.Pairwise (fun x y => x.addr < y.addr) news :=
    chain_strict news hnchain (fun x hx => by have := (hsz x hx).1; unfold DSIZE at this; omega)
  have hpairL : List.Pairwise (fun x y => x.addr < y.addr) L := by
    rw [List.pairwise_append, List.pairwise_append] at hstrict
    exact hstrict.1.1
  -- the size frame for bin entries
  have hframe : ∀ a ∈ s.bins.join, sizeAt s1 a = sizeAt s a := by
    intro a ha
    obtain ⟨j, hj, hjm⟩ := mem_join_getD _ _ ha
    obtain ⟨ba, hba, hbaa, hbafree, _⟩ := h.bins_ok j (by rw [← h.bins_len]; exact hj) a hjm
    rw [hdec] at hba
    rcases List.mem_append.mp hba with hba1 | hbaR
    · rcases List.mem_append.mp hba1 with hbaL | hbaO
      · -- the bin entry names a block left of the run
        unfold sizeAt
        rw [hfind_old a, hfind_new a, ← hbaa, find?_block_of_mem L ba hbaL hpairL]
        all_goals rfl
      · -- the bin entry names a block of the run itself
        rcases hbinpres ba hbaO with ⟨y, hy, hya, hys, _⟩ | hnot
        · unfold sizeAt
          rw [hfind_old a, hfind_new a, ← hbaa]
          rw [find?_block_none L ba.addr (fun x hx => by have := hLlt x hx; have := (hrangeO ba hbaO).1; omega)]
          have h1 : olds.find? (fun x => x.addr == ba.addr) = some ba :=
            find?_block_of_mem olds ba hbaO hpairO
          have h2 : news.find? (fun x => x.addr == ba.addr) = some y := by
            rw [← hya]
            exact find?_block_of_mem news y hy hpairN
          rw [h1, h2]
          all_goals simp [hys]
        · rw [hbaa] at hnot
          exact absurd ha hnot
    · -- the bin entry names a block right of the run
      unfold sizeAt
      rw [hfind_old a, hfind_new a, ← hbaa]
      rw [find?_block_none L ba.addr (fun x hx => by
        have h1 := hLlt x hx
        have h2 := hRge ba hbaR
        omega)]
      rw [find?_block_none olds ba.addr (fun x hx => by
        have h1 := (hrangeO x hx).2
        have h2 := hRge ba hbaR
        have h3 := hszO x hx
        unfold DSIZE at h3
        omega)]
      rw [find?_block_none news ba.addr (fun x hx => by
        have h1 := (hrangeN x hx).2
        have h2 := hRge ba hbaR
        have h3 := (hsz x hx).1
        unfold DSIZE at h3
        omega)]
      all_goals rfl
  refine ⟨?_, hframe⟩
  constructor
  case lo_pos => rw [hlo]; exact h.lo_pos
  case lo_align => rw [hlo]; exact h.lo_align
  case cap => rw [hhiM]; exact h.cap
  case hi_cap => rw [hhi, hhiM]; exact h.hi_cap
  case first_addr =>
    rw [hblocks, hlo]
    have hold := h.first_addr
    rw [hdec] at hold
    cases L with
    | nil =>
      simp only [List.nil_append] at hold ⊢
      rw [List.head?_append, hnh]
      rw [List.head?_append, hoh] at hold
      simpa [hnha, ← hoha] using hold
    | cons c t =>
      have hc : c.addr = s.lo + 4 * WSIZE := by simpa using hold
      simpa using hc
  case first_prev =>
    rw [hblocks]
    have hold := h.first_prev
    rw [hdec] at hold
    cases L with
    | nil =>
      intro b hbmem
      simp only [List.nil_append] at hold hbmem
      rw [List.head?_append, hnh] at hbmem
      have hbeq : b = nh := (by simpa using hbmem : nh = b).symm
      have hohprev : oh.prevAlloc = true := by
        apply hold
        rw [List.head?_append, hoh]
        rfl
      have hpe : nh.prevAlloc = oh.prevAlloc := by
        rw [hnh, hoh] at hprev0
        simpa using hprev0
      rw [hbeq, hpe]
      exact hohprev
    | cons c t =>
      intro b hbmem
      simp only [List.cons_append] at hbmem
      have hbeq : b = c := (by simpa using hbmem : c = b).symm
      rw [hbeq]
      apply hold
      simp
  case chain =>
    rw [hblocks, List.chain'_append]
    refine ⟨List.chain'_append.mpr ⟨hcL, hnchain, ?_⟩, hcR, ?_⟩
    · intro x hx y hy
      have hrel := hlinkL x hx oh (by rw [hoh]; rfl)
      have hyeq : y = nh := by rw [hnh] at hy; exact (by simpa using hy : nh = y).symm
      have hgoal : blockRel x nh := by
        constructor
        · rw [hnha, ← hoha]
          exact hrel.1
        · have hpe : nh.prevAlloc = oh.prevAlloc := by
            rw [hnh, hoh] at hprev0
            simpa using hprev0
          rw [hpe]
          exact hrel.2
      rw [hyeq]
      exact hgoal
    · intro x hx y hy
      have hxl : (L ++ news).getLast? = some nl := by
        rw [List.getLast?_append, hnl]
        rfl
      have hxeq : x = nl := by rw [hxl] at hx; exact (by simpa using hx : nl = x).symm
      cases hR : R with
      | nil =>
        rw [hR] at hy
        simp at hy
      | cons rh rt =>
        rw [hR] at hy
        have hyeq : y = rh := (by simpa using hy : rh = y).symm
        have holsL : (L ++ olds).getLast? = some ol := by
          rw [List.getLast?_append, hol]
          rfl
        have hrel : blockRel ol rh := by
          apply hlinkR ol (by rw [holsL]; rfl)
          rw [hR]
          rfl
        have hgoal : blockRel nl rh := by
          constructor
          · rw [hrel.1]
            omega
          · rcases hlastalloc with hla | hla
            · rw [hnl, hol] at hla
              have hne : nl.alloc = ol.alloc := by simpa using hla
              rw [hrel.2, hne]
            · rw [hla] at hR
              simp at hR
        rw [hxeq, hyeq]
        exact hgoal
  case size_lb =>
    intro b hbmem
    rw [hblocks] at hbmem
    rcases List.mem_append.mp hbmem with hb1 | hbR
    · rcases List.mem_append.mp hb1 with hbL | hbN
      · exact hszL b hbL
      · exact (hsz b hbN).1
    · exact hszR b hbR
  case size_align =>
    intro b hbmem
    rw [hblocks] at hbmem
    rcases List.mem_append.mp hbmem with hb1 | hbR
    · rcases List.mem_append.mp hb1 with hbL | hbN
      · exact h.size_align b (by rw [hdec]; simp [hbL])
      · exact (hsz b hbN).2
    · exact h.size_align b (by rw [hdec]; simp [hbR])
  case hi_eq =>
    rw [hblocks, hhi]
    have hold := h.hi_eq
    rw [hdec] at hold
    cases hR : R with
    | nil =>
      subst hR
      simp only [List.append_nil] at hold ⊢
      rw [List.getLast?_append, hnl]
      rw [List.getLast?_append, hol] at hold
      have holdv : ol.addr + ol.size = s.heapHi := by simpa using hold
      simpa using hnend.trans (hoend.symm.trans holdv)
    | cons rh rt =>
      subst hR
      have h1 : (L ++ olds ++ rh :: rt).getLast? = ((rh :: rt).getLast?).or (L ++ olds).getLast? :=
        List.getLast?_append
      have h2 : (L ++ news ++ rh :: rt).getLast? = ((rh :: rt).getLast?).or (L ++ news).getLast? :=
        List.getLast?_append
      rw [h2]
      rw [h1] at hold
      cases hrt : (rh :: rt).getLast? with
      | none => simp at hrt
      | some z =>
        rw [hrt] at hold
        simpa using hold
  case tail_eq =>
    rw [hblocks]
    exact htail
  case bins_len =>
    rw [hbins]
    exact h.bins_len
  case bins_ok =>
    intro j hj a ha
    rw [hbins] at ha
    obtain ⟨ba, hba, hbaa, hbafree, hbaidx⟩ := h.bins_ok j hj a ha
    have hajoin : a ∈ s.bins.join := mem_getD_mem_join _ _ _ ha
    rw [hdec] at hba
    rcases List.mem_append.mp hba with hb1 | hbR
    · rcases List.mem_append.mp hb1 with hbL | hbO
      · exact ⟨ba, by rw [hblocks]; simp [hbL], hbaa, hbafree, hbaidx⟩
      · rcases hbinpres ba hbO with ⟨y, hy, hya, hys, hyal⟩ | hnot
        · refine ⟨y, by rw [hblocks]; simp [hy], by rw [hya]; exact hbaa, ?_, ?_⟩
          · rw [hyal]; exact hbafree
          · rw [hys]; exact hbaidx
        · rw [hbaa] at hnot
          exact absurd hajoin hnot
    · exact ⟨ba, by rw [hblocks]; simp [hbR], hbaa, hbafree, hbaidx⟩
  case bins_sorted =>
    intro j hj
    rw [hbins]
    refine (h.bins_sorted j hj).imp_of_mem ?_
    intro a c hamem hcmem hac
    rw [hframe a (mem_getD_mem_join _ _ _ hamem), hframe c (mem_getD_mem_join _ _ _ hcmem)]
    exact hac
  case bins_nodup =>
    rw [hbins]
    exact h.bins_nodup

end Surgery

section CoalescePreservation

theorem mem_head?_getLast? (l : List Block) :
    (∀ x ∈ l.head?, x ∈ l) ∧ (∀ x ∈ l.getLast?, x ∈ l) := by
  constructor
  · intro x hx
    cases l with
    | nil => simp at hx
    | cons c t =>
      have : x = c := (by simpa using hx : c = x).symm
      rw [this]
      simp
  · intro x hx
    exact List.mem_of_mem_getLast? hx

theorem getLast?_over_append (X Y : List Block) (r2 : Block) (rt2 : List Block) :
    (X ++ r2 :: rt2).getLast? = (Y ++ r2 :: rt2).getLast? := by
  rw [List.getLast?_append, List.getLast?_append]
  cases hz : (r2 :: rt2).getLast? with
  | none => simp at hz
  | some z => rfl

theorem getLast?_cons_ne_nil (r2 : Block) (rt2 : List Block) :
    ∃ z, (r2 :: rt2).getLast? = some z ∧ z ∈ r2 :: rt2 := by
  refine ⟨(r2 :: rt2).getLast (by simp), List.getLast?_eq_getLast _ (by simp), ?_⟩
  exact List.getLast_mem _

/-- `coalesce(bp)` preserves the invariant when applied to a free block
`b` that is not linked into any bin (the state `free` and `extend_heap`
hand it): the result address names a free block at least as large as `b`,
linked into its bin. -/
theorem coalesceB_inv (s : State) (h : Inv s) (b : Block)
    (hfb : findBlock s b.addr = some b)
    (hfree : b.alloc = false) (hnot : b.addr ∉ s.bins.join) :
    Inv (coalesceB s b.addr).2 ∧
      ∃ b2, findBlock (coalesceB s b.addr).2 (coalesceB s b.addr).1 = some b2 ∧
        b2.alloc = false ∧ b.size ≤ b2.size ∧ b2.addr = (coalesceB s b.addr).1 ∧
        (coalesceB s b.addr).1 ∈ (coalesceB s b.addr).2.bins.join := by
  obtain ⟨L, R, hdec, -, hL⟩ := findBlock_decomp s b.addr b hfb
  obtain ⟨hultL, hultR⟩ := h.decomp_unique L R b hdec
  have hLne : ∀ x ∈ L, x.addr ≠ b.addr := fun x hx => by have := hultL x hx; omega
  have hRne : ∀ x ∈ R, x.addr ≠ b.addr := fun x hx => by have := hultR x hx; omega
  have hnext : nextOf s.blocks b.addr = R.head? := by
    rw [hdec]
    exact nextOf_decomp L R b hLne
  have hprev : prevOf s.blocks b.addr = L.getLast? := by
    rw [hdec]
    exact prevOf_decomp L R b hLne hRne
  have hbmem : b ∈ s.blocks := by rw [hdec]; simp
  have hb32 : 2 * DSIZE ≤ b.size := h.size_lb b hbmem
  have hb8 : b.size % 8 = 0 := h.size_align b hbmem
  unfold coalesceB
  rw [hfb]
  dsimp only
  by_cases hpa : b.prevAlloc = true
  all_goals by_cases hnaT : nextAllocOf s b.addr = true
  -- case both neighbours allocated: insert b as is
  · rw [if_pos (show (b.prevAlloc && nextAllocOf s b.addr) = true by rw [hpa, hnaT]; rfl)]
    dsimp only
    obtain ⟨hinv, hperm⟩ := insertB_inv s h b hbmem hfree hnot
    refine ⟨hinv, b, ?_, hfree, le_refl _, rfl, ?_⟩
    · show findBlock (insertB s b.addr) b.addr = some b
      unfold findBlock
      rw [insertB_blocks]
      exact hfb
    · show b.addr ∈ (insertB s b.addr).bins.join
      rw [hperm.mem_iff]
      simp
  -- case next free, previous allocated: absorb the successor
  · have hna : nextAllocOf s b.addr = false := by
      cases hx : nextAllocOf s b.addr
      · rfl
      · exact absurd hx hnaT
    rw [if_neg (show ¬ (b.prevAlloc && nextAllocOf s b.addr) = true by rw [hpa, hna]; simp),
      if_pos (show (b.prevAlloc && !nextAllocOf s b.addr) = true by rw [hpa, hna]; rfl)]
    obtain ⟨nb, R2, hR⟩ : ∃ nb R2, R = nb :: R2 := by
      cases hRx : R with
      | nil =>
        rw [hRx] at hnext
        unfold nextAllocOf at hna
        rw [hnext] at hna
        simp at hna
      | cons nb R2 => exact ⟨nb, R2, rfl⟩
    have hnbfree : nb.alloc = false := by
      unfold nextAllocOf at hna
      rw [hnext, hR] at hna
      simpa using hna
    have hnb : nextOf s.blocks b.addr = some nb := by rw [hnext, hR]; rfl
    rw [hnb]
    dsimp only
    have hnbmem : nb ∈ s.blocks := by rw [hdec, hR]; simp
    have hnb32 : 2 * DSIZE ≤ nb.size := h.size_lb nb hnbmem
    have hnb8 : nb.size % 8 = 0 := h.size_align nb hnbmem
    obtain ⟨h1inv, h1sub, h1nb⟩ := deleteB_inv s h nb.addr
    have hbnot1 : b.addr ∉ (deleteB s nb.addr).bins.join :=
      fun hx => hnot (h1sub.mem hx)
    have hdec1 : (deleteB s nb.addr).blocks = L ++ [b, nb] ++ R2 := by
      rw [deleteB_blocks, hdec, hR]
      simp
    have hrep : ∀ u : State, u.blocks = s.blocks →
        replaceRun u.blocks b.addr 2 [(⟨b.addr, b.size + nb.size, false, b.prevAlloc⟩ : Block)]
          = L ++ [(⟨b.addr, b.size + nb.size, false, b.prevAlloc⟩ : Block)] ++ R2 := by
      intro u hu
      rw [hu, hdec, hR]
      have hx := replaceRun_decomp L (nb :: R2)
        [(⟨b.addr, b.size + nb.size, false, b.prevAlloc⟩ : Block)] b 2 hLne
      rw [hx]
      simp
    have key : ∀ (s3 : State),
        s3.blocks = L ++ [(⟨b.addr, b.size + nb.size, false, b.prevAlloc⟩ : Block)] ++ R2 →
        s3.bins = (deleteB s nb.addr).bins → s3.lo = s.lo → s3.hiMax = s.hiMax →
        s3.heapHi = s.heapHi →
        (L ++ [(⟨b.addr, b.size + nb.size, false, b.prevAlloc⟩ : Block)]
          ++ R2).getLast?.map Block.addr = some s3.tail →
        Inv (insertB s3 b.addr) ∧
          ∃ b2, findBlock (insertB s3 b.addr) b.addr = some b2 ∧ b2.alloc = false ∧
            b.size ≤ b2.size ∧ b2.addr = b.addr ∧ b.addr ∈ (insertB s3 b.addr).bins.join := by
      intro s3 e1 e2 e3 e4 e5 e6
      have hmerged : Inv s3 := by
        refine (Inv.replace (deleteB s nb.addr) h1inv s3 L [b, nb]
          [(⟨b.addr, b.size + nb.size, false, b.prevAlloc⟩ : Block)] R2 b.addr hdec1 e1
          (by rw [e2]) (by rw [e3]; rfl) (by rw [e4]; rfl) (by rw [e5]; rfl) (by simp)
          (by simp) (by simp) (by simp) (by simp) ?_ ?_ ?_ e6).1
        · left
          simp [hnbfree]
        · intro x hx
          simp only [List.mem_singleton] at hx
          subst hx
          constructor
          · show 2 * DSIZE ≤ b.size + nb.size
            unfold DSIZE at *
            omega
          · show (b.size + nb.size) % 8 = 0
            omega
        · intro x hx
          right
          rcases (by simpa using hx : x = b ∨ x = nb) with rfl | rfl
          · exact hbnot1
          · exact h1nb
      have hmmem : (⟨b.addr, b.size + nb.size, false, b.prevAlloc⟩ : Block) ∈ s3.blocks := by
        rw [e1]
        simp
      have hm3 : b.addr ∉ s3.bins.join := by
        rw [e2]
        exact hbnot1
      obtain ⟨hinv2, hperm2⟩ := insertB_inv s3 hmerged _ hmmem rfl hm3
      refine ⟨hinv2, (⟨b.addr, b.size + nb.size, false, b.prevAlloc⟩ : Block), ?_, rfl,
        by show b.size ≤ b.size + nb.size; omega, rfl, ?_⟩
      · have hfind := hmerged.findBlock_of_mem
          (⟨b.addr, b.size + nb.size, false, b.prevAlloc⟩ : Block) hmmem
        show findBlock (insertB s3 b.addr) b.addr = _
        unfold findBlock
        unfold findBlock at hfind
        rw [insertB_blocks]
        exact hfind
      · rw [hperm2.mem_iff]
        simp
    split
    · next htl =>
      refine key _ (hrep _ rfl) rfl rfl rfl rfl ?_
      have hold := h1inv.tail_eq
      rw [hdec1] at hold
      cases hR2 : R2 with
      | nil =>
        subst hR2
        show _ = some b.addr
        simp
      | cons r2 rt2 =>
        subst hR2
        exfalso
        obtain ⟨z, hz, hzm⟩ := getLast?_cons_ne_nil r2 rt2
        rw [List.getLast?_append, hz] at hold
        have hzt : z.addr = (deleteB s nb.addr).tail := by simpa using hold
        have hstr := h.addr_strict
        rw [hdec, hR] at hstr
        have hp2 := (List.pairwise_append.mp hstr).2.1
        have hp3 := (List.pairwise_cons.mp hp2).2
        have hzgt := (List.pairwise_cons.mp hp3).1 z hzm
        rw [htl] at hzt
        omega
    · next htl =>
      refine key _ (hrep _ rfl) rfl rfl rfl rfl ?_
      have hold := h1inv.tail_eq
      rw [hdec1] at hold
      show _ = some (deleteB s nb.addr).tail
      cases hR2 : R2 with
      | nil =>
        subst hR2
        exfalso
        apply htl
        have he : (L ++ [b, nb] ++ ([] : List Block)).getLast? = some nb := by simp
        rw [he] at hold
        exact (by simpa using hold : nb.addr = (deleteB s nb.addr).tail).symm
      | cons r2 rt2 =>
        subst hR2
        rw [getLast?_over_append
          (L ++ [(⟨b.addr, b.size + nb.size, false, b.prevAlloc⟩ : Block)])
          (L ++ [b, nb]) r2 rt2]
        exact hold
  -- case previous free, next allocated: fold into the predecessor
  · have hpaf : b.prevAlloc = false := by
      cases hx : b.prevAlloc
      · rfl
      · exact absurd hx hpa
    rw [if_neg (show ¬ (b.prevAlloc && nextAllocOf s b.addr) = true by rw [hpaf]; simp),
      if_neg (show ¬ (b.prevAlloc && !nextAllocOf s b.addr) = true by rw [hpaf]; simp),
      if_pos (show (!b.prevAlloc && nextAllocOf s b.addr) = true by rw [hpaf, hnaT]; rfl)]
    obtain ⟨pb, hpb⟩ : ∃ pb, L.getLast? = some pb := by
      cases hLx : L with
      | nil =>
        exfalso
        have := h.first_prev b (by rw [hdec, hLx]; rfl)
        rw [this] at hpaf
        simp at hpaf
      | cons c t =>
        obtain ⟨z, hz, -⟩ := getLast?_cons_ne_nil c t
        exact ⟨z, hz⟩
    have hprevSome : prevOf s.blocks b.addr = some pb := by rw [hprev, hpb]
    rw [hprevSome]
    dsimp only
    obtain ⟨L2, hLsplit⟩ : ∃ L2, L = L2 ++ [pb] :=
      ⟨L.dropLast, (List.dropLast_append_getLast? pb hpb).symm⟩
    have hpbmem : pb ∈ s.blocks := by
      rw [hdec, hLsplit]
      simp
    have hpb32 : 2 * DSIZE ≤ pb.size := h.size_lb pb hpbmem
    have hpb8 : pb.size % 8 = 0 := h.size_align pb hpbmem
    obtain ⟨h1inv, h1sub, h1pb⟩ := deleteB_inv s h pb.addr
    have hbnot1 : b.addr ∉ (deleteB s pb.addr).bins.join :=
      fun hx => hnot (h1sub.mem hx)
    have hdec1 : (deleteB s pb.addr).blocks = L2 ++ [pb, b] ++ R := by
      rw [deleteB_blocks, hdec, hLsplit]
      simp
    have hL2ne : ∀ x ∈ L2, x.addr ≠ pb.addr := by
      intro x hx
      have hstr := h.addr_strict
      rw [hdec, hLsplit] at hstr
      rw [List.pairwise_append] at hstr
      have h1 := List.pairwise_append.mp hstr.1
      have := h1.2.2 x hx pb (by simp)
      omega
    have hrep : ∀ u : State, u.blocks = s.blocks →
        replaceRun u.blocks pb.addr 2
          [(⟨pb.addr, b.size + pb.size, false, pb.prevAlloc⟩ : Block)]
          = L2 ++ [(⟨pb.addr, b.size + pb.size, false, pb.prevAlloc⟩ : Block)] ++ R := by
      intro u hu
      rw [hu, hdec, hLsplit]
      have hx := replaceRun_decomp L2 ([b] ++ R)
        [(⟨pb.addr, b.size + pb.size, false, pb.prevAlloc⟩ : Block)] pb 2 hL2ne
      rw [show L2 ++ [pb] ++ b :: R = L2 ++ pb :: ([b] ++ R) by simp]
      rw [hx]
      simp
    have key : ∀ (s3 : State),
        s3.blocks = L2 ++ [(⟨pb.addr, b.size + pb.size, false, pb.prevAlloc⟩ : Block)] ++ R →
        s3.bins = (deleteB s pb.addr).bins → s3.lo = s.lo → s3.hiMax = s.hiMax →
        s3.heapHi = s.heapHi →
        (L2 ++ [(⟨pb.addr, b.size + pb.size, false, pb.prevAlloc⟩ : Block)]
          ++ R).getLast?.map Block.addr = some s3.tail →
        Inv (insertB s3 pb.addr) ∧
          ∃ b2, findBlock (insertB s3 pb.addr) pb.addr = some b2 ∧ b2.alloc = false ∧
            b.size ≤ b2.size ∧ b2.addr = pb.addr ∧
            pb.addr ∈ (insertB s3 pb.addr).bins.join := by
      intro s3 e1 e2 e3 e4 e5 e6
      have hmerged : Inv s3 := by
        refine (Inv.replace (deleteB s pb.addr) h1inv s3 L2 [pb, b]
          [(⟨pb.addr, b.size + pb.size, false, pb.prevAlloc⟩ : Block)] R pb.addr hdec1 e1
          (by rw [e2]) (by rw [e3]; rfl) (by rw [e4]; rfl) (by rw [e5]; rfl) (by simp)
          (by simp) (by simp) (by simp; omega) (by simp) ?_ ?_ ?_ e6).1
        · left
          simp [hfree]
        · intro x hx
          simp only [List.mem_singleton] at hx
          subst hx
          constructor
          · show 2 * DSIZE ≤ b.size + pb.size
            unfold DSIZE at *
            omega
          · show (b.size + pb.size) % 8 = 0
            omega
        · intro x hx
          right
          rcases (by simpa using hx : x = pb ∨ x = b) with rfl | rfl
          · exact h1pb
          · exact hbnot1
      have hmmem : (⟨pb.addr, b.size + pb.size, false, pb.prevAlloc⟩ : Block) ∈ s3.blocks := by
        rw [e1]
        simp
      have hm3 : pb.addr ∉ s3.bins.join := by
        rw [e2]
        exact h1pb
      obtain ⟨hinv2, hperm2⟩ := insertB_inv s3 hmerged _ hmmem rfl hm3
      refine ⟨hinv2, (⟨pb.addr, b.size + pb.size, false, pb.prevAlloc⟩ : Block), ?_, rfl,
        by show b.size ≤ b.size + pb.size; omega, rfl, ?_⟩
      · have hfind := hmerged.findBlock_of_mem
          (⟨pb.addr, b.size + pb.size, false, pb.prevAlloc⟩ : Block) hmmem
        show findBlock (insertB s3 pb.addr) pb.addr = _
        unfold findBlock
        unfold findBlock at hfind
        rw [insertB_blocks]
        exact hfind
      · rw [hperm2.mem_iff]
        simp
    split
    · next htl =>
      refine key _ (hrep _ rfl) rfl rfl rfl rfl ?_
      have hold := h1inv.tail_eq
      rw [hdec1] at hold
      cases hRx : R with
      | nil =>
        subst hRx
        show _ = some pb.addr
        simp
      | cons r2 rt2 =>
        subst hRx
        exfalso
        obtain ⟨z, hz, hzm⟩ := getLast?_cons_ne_nil r2 rt2
        rw [List.getLast?_append, hz] at hold
        have hzt : z.addr = (deleteB s pb.addr).tail := by simpa using hold
        have hzgt := hultR z hzm
        rw [htl] at hzt
        omega
    · next htl =>
      refine key _ (hrep _ rfl) rfl rfl rfl rfl ?_
      have hold := h1inv.tail_eq
      rw [hdec1] at hold
      show _ = some (deleteB s pb.addr).tail
      cases hRx : R with
      | nil =>
        subst hRx
        exfalso
        apply htl
        have he : (L2 ++ [pb, b] ++ ([] : List Block)).getLast? = some b := by simp
        rw [he] at hold
        exact (by simpa using hold : b.addr = (deleteB s pb.addr).tail).symm
      | cons r2 rt2 =>
        subst hRx
        rw [getLast?_over_append
          (L2 ++ [(⟨pb.addr, b.size + pb.size, false, pb.prevAlloc⟩ : Block)])
          (L2 ++ [pb, b]) r2 rt2]
        exact hold
  -- case both neighbours free: fold the three blocks together
  · have hpaf : b.prevAlloc = false := by
      cases hx : b.prevAlloc
      · rfl
      · exact absurd hx hpa
    have hna : nextAllocOf s b.addr = false := by
      cases hx : nextAllocOf s b.addr
      · rfl
      · exact absurd hx hnaT
    rw [if_neg (show ¬ (b.prevAlloc && nextAllocOf s b.addr) = true by rw [hpaf]; simp),
      if_neg (show ¬ (b.prevAlloc && !nextAllocOf s b.addr) = true by rw [hpaf]; simp),
      if_neg (show ¬ (!b.prevAlloc && nextAllocOf s b.addr) = true by rw [hpaf, hna]; simp)]
    obtain ⟨nb, R2, hR⟩ : ∃ nb R2, R = nb :: R2 := by
      cases hRx : R with
      | nil =>
        rw [hRx] at hnext
        unfold nextAllocOf at hna
        rw [hnext] at hna
        simp at hna
      | cons nb R2 => exact ⟨nb, R2, rfl⟩
    have hnbfree : nb.alloc = false := by
      unfold nextAllocOf at hna
      rw [hnext, hR] at hna
      simpa using hna
    obtain ⟨pb, hpb⟩ : ∃ pb, L.getLast? = some pb := by
      cases hLx : L with
      | nil =>
        exfalso
        have := h.first_prev b (by rw [hdec, hLx]; rfl)
        rw [this] at hpaf
        simp at hpaf
      | cons c t =>
        obtain ⟨z, hz, -⟩ := getLast?_cons_ne_nil c t
        exact ⟨z, hz⟩
    have hprevSome : prevOf s.blocks b.addr = some pb := by rw [hprev, hpb]
    have hnb : nextOf s.blocks b.addr = some nb := by rw [hnext, hR]; rfl
    rw [hprevSome, hnb]
    dsimp only
    obtain ⟨L2, hLsplit⟩ : ∃ L2, L = L2 ++ [pb] :=
      ⟨L.dropLast, (List.dropLast_append_getLast? pb hpb).symm⟩
    have hpbmem : pb ∈ s.blocks := by
      rw [hdec, hLsplit]
      simp
    have hnbmem : nb ∈ s.blocks := by rw [hdec, hR]; simp
    have hpb32 : 2 * DSIZE ≤ pb.size := h.size_lb pb hpbmem
    have hpb8 : pb.size % 8 = 0 := h.size_align pb hpbmem
    have hnb32 : 2 * DSIZE ≤ nb.size := h.size_lb nb hnbmem
    have hnb8 : nb.size % 8 = 0 := h.size_align nb hnbmem
    obtain ⟨h1inv, h1sub, h1nb⟩ := deleteB_inv s h nb.addr
    obtain ⟨h2inv, h2sub, h2pb⟩ := deleteB_inv (deleteB s nb.addr) h1inv pb.addr
    have hbnot2 : b.addr ∉ (deleteB (deleteB s nb.addr) pb.addr).bins.join :=
      fun hx => hnot (h1sub.mem (h2sub.mem hx))
    have hnb2 : nb.addr ∉ (deleteB (deleteB s nb.addr) pb.addr).bins.join :=
      fun hx => h1nb (h2sub.mem hx)
    have hdec2 : (deleteB (deleteB s nb.addr) pb.addr).blocks
        = L2 ++ [pb, b, nb] ++ R2 := by
      rw [deleteB_blocks, deleteB_blocks, hdec, hR, hLsplit]
      simp
    have hL2ne : ∀ x ∈ L2, x.addr ≠ pb.addr := by
      intro x hx
      have hstr := h.addr_strict
      rw [hdec, hLsplit] at hstr
      rw [List.pairwise_append] at hstr
      have h1 := List.pairwise_append.mp hstr.1
      have := h1.2.2 x hx pb (by simp)
      omega
    have hrep : ∀ u : State, u.blocks = s.blocks →
        replaceRun u.blocks pb.addr 3
          [(⟨pb.addr, b.size + pb.size + nb.size, false, pb.prevAlloc⟩ : Block)]
          = L2 ++ [(⟨pb.addr, b.size + pb.size + nb.size, false, pb.prevAlloc⟩ : Block)]
            ++ R2 := by
      intro u hu
      rw [hu, hdec, hR, hLsplit]
      have hx := replaceRun_decomp L2 ([b, nb] ++ R2)
        [(⟨pb.addr, b.size + pb.size + nb.size, false, pb.prevAlloc⟩ : Block)] pb 3 hL2ne
      rw [show L2 ++ [pb] ++ b :: nb :: R2 = L2 ++ pb :: ([b, nb] ++ R2) by simp]
      rw [hx]
      simp
    have key : ∀ (s3 : State),
        s3.blocks = L2
          ++ [(⟨pb.addr, b.size + pb.size + nb.size, false, pb.prevAlloc⟩ : Block)] ++ R2 →
        s3.bins = (deleteB (deleteB s nb.addr) pb.addr).bins → s3.lo = s.lo →
        s3.hiMax = s.hiMax → s3.heapHi = s.heapHi →
        (L2 ++ [(⟨pb.addr, b.size + pb.size + nb.size, false, pb.prevAlloc⟩ : Block)]
          ++ R2).getLast?.map Block.addr = some s3.tail →
        Inv (insertB s3 pb.addr) ∧
          ∃ b2, findBlock (insertB s3 pb.addr) pb.addr = some b2 ∧ b2.alloc = false ∧
            b.size ≤ b2.size ∧ b2.addr = pb.addr ∧
            pb.addr ∈ (insertB s3 pb.addr).bins.join := by
      intro s3 e1 e2 e3 e4 e5 e6
      have hmerged : Inv s3 := by
        refine (Inv.replace (deleteB (deleteB s nb.addr) pb.addr) h2inv s3 L2
          [pb, b, nb] [(⟨pb.addr, b.size + pb.size + nb.size, false, pb.prevAlloc⟩ : Block)]
          R2 pb.addr hdec2 e1 (by rw [e2]) (by rw [e3]; rfl) (by rw [e4]; rfl)
          (by rw [e5]; rfl) (by simp) (by simp) (by simp) (by simp; omega) (by simp)
          ?_ ?_ ?_ e6).1
        · left
          simp [hnbfree]
        · intro x hx
          simp only [List.mem_singleton] at hx
          subst hx
          constructor
          · show 2 * DSIZE ≤ b.size + pb.size + nb.size
            unfold DSIZE at *
            omega
          · show (b.size + pb.size + nb.size) % 8 = 0
            omega
        · intro x hx
          right
          rcases (by simpa using hx : x = pb ∨ x = b ∨ x = nb) with rfl | rfl | rfl
          · exact h2pb
          · exact hbnot2
          · exact hnb2
      have hmmem : (⟨pb.addr, b.size + pb.size + nb.size, false, pb.prevAlloc⟩ : Block)
          ∈ s3.blocks := by
        rw [e1]
        simp
      have hm3 : pb.addr ∉ s3.bins.join := by
        rw [e2]
        exact h2pb
      obtain ⟨hinv2, hperm2⟩ := insertB_inv s3 hmerged _ hmmem rfl hm3
      refine ⟨hinv2, (⟨pb.addr, b.size + pb.size + nb.size, false, pb.prevAlloc⟩ : Block),
        ?_, rfl, by show b.size ≤ b.size + pb.size + nb.size; omega, rfl, ?_⟩
      · have hfind := hmerged.findBlock_of_mem
          (⟨pb.addr, b.size + pb.size + nb.size, false, pb.prevAlloc⟩ : Block) hmmem
        show findBlock (insertB s3 pb.addr) pb.addr = _
        unfold findBlock
        unfold findBlock at hfind
        rw [insertB_blocks]
        exact hfind
      · rw [hperm2.mem_iff]
        simp
    split
    · next htl =>
      refine key _ (hrep _ rfl) rfl rfl rfl rfl ?_
      have hold := h2inv.tail_eq
      rw [hdec2] at hold
      cases hR2 : R2 with
      | nil =>
        subst hR2
        show _ = some pb.addr
        simp
      | cons r2 rt2 =>
        subst hR2
        exfalso
        obtain ⟨z, hz, hzm⟩ := getLast?_cons_ne_nil r2 rt2
        rw [List.getLast?_append, hz] at hold
        have hzt : z.addr = (deleteB (deleteB s nb.addr) pb.addr).tail := by simpa using hold
        have hzmR : z ∈ R := by rw [hR]; simp [hzm]
        have hzgtb := hultR z hzmR
        have hstr := h.addr_strict
        rw [hdec, hR] at hstr
        have hp2 := (List.pairwise_append.mp hstr).2.1
        have hp3 := (List.pairwise_cons.mp hp2).2
        have hzgtnb := (List.pairwise_cons.mp hp3).1 z hzm
        rcases htl with htl | htl <;> rw [htl] at hzt <;> omega
    · next htl =>
      refine key _ (hrep _ rfl) rfl rfl rfl rfl ?_
      push_neg at htl
      have hold := h2inv.tail_eq
      rw [hdec2] at hold
      show _ = some (deleteB (deleteB s nb.addr) pb.addr).tail
      cases hR2 : R2 with
      | nil =>
        subst hR2
        exfalso
        apply htl.2
        have he : (L2 ++ [pb, b, nb] ++ ([] : List Block)).getLast? = some nb := by simp
        rw [he] at hold
        exact (by simpa using hold
          : nb.addr = (deleteB (deleteB s nb.addr) pb.addr).tail).symm
      | cons r2 rt2 =>
        subst hR2
        rw [getLast?_over_append
          (L2 ++ [(⟨pb.addr, b.size + pb.size + nb.size, false, pb.prevAlloc⟩ : Block)])
          (L2 ++ [pb, b, nb]) r2 rt2]
        exact hold

end CoalescePreservation

section StateFacts

/-- A state agreeing with `s` on every allocator-visible field satisfies
the invariant whenever `s` does (the payload byte memory plays no role in
`Inv`). -/
theorem inv_of_fields (s s1 : State) (h : Inv s) (hb : s1.blocks = s.blocks)
    (hbins : s1.bins = s.bins) (hlo : s1.lo = s.lo) (hhiM : s1.hiMax = s.hiMax)
    (hhi : s1.heapHi = s.heapHi) (ht : s1.tail = s.tail) : Inv s1 := by
  have hsz : ∀ a, sizeAt s1 a = sizeAt s a := sizeAt_congr_blocks s s1 hb
  refine ⟨?_, ?_, ?_, ?_, ?_, ?_, ?_, ?_, ?_, ?_, ?_, ?_, ?_, ?_, ?_⟩
  · rw [hlo]; exact h.lo_pos
  · rw [hlo]; exact h.lo_align
  · rw [hhiM]; exact h.cap
  · rw [hhi, hhiM]; exact h.hi_cap
  · rw [hb, hlo]; exact h.first_addr
  · rw [hb]; exact h.first_prev
  · rw [hb]; exact h.chain
  · rw [hb]; exact h.size_lb
  · rw [hb]; exact h.size_align
  · rw [hb, hhi]; exact h.hi_eq
  · rw [hb, ht]; exact h.tail_eq
  · rw [hbins]; exact h.bins_len
  · rw [hb, hbins]; exact h.bins_ok
  · simp only [hbins, hsz]; exact h.bins_sorted
  · rw [hbins]; exact h.bins_nodup

/-- Distinct blocks of an invariant state have distinct payload
addresses. -/
theorem Inv.addr_inj (h : Inv s) (b c : Block) (hb : b ∈ s.blocks)
    (hc : c ∈ s.blocks) (he : b.addr = c.addr) : b = c := by
  obtain ⟨L, R, hl⟩ := List.append_of_mem hb
  obtain ⟨hL, hR⟩ := h.decomp_unique L R b hl
  rw [hl] at hc
  rcases List.mem_append.mp hc with hcL | hcc
  · exact absurd he (by have := hL c hcL; omega)
  · rcases List.mem_cons.mp hcc with h2 | hcR
    · exact h2.symm
    · exact absurd he (by have := hR c hcR; omega)

/-- The payload address of an allocated block is never linked in a bin. -/
theorem Inv.alloc_notin_bins (h : Inv s) (b : Block) (hb : b ∈ s.blocks)
    (hba : b.alloc = true) : b.addr ∉ s.bins.join := by
  intro hmem
  obtain ⟨j, hj, hjmem⟩ := mem_join_getD s.bins b.addr hmem
  rw [h.bins_len] at hj
  obtain ⟨c, hcmem, hca, hcf, -⟩ := h.bins_ok j hj b.addr hjmem
  have he := h.addr_inj c b hcmem hb hca
  rw [he, hba] at hcf
  simp at hcf

/-- No block starts strictly inside another block, and such an interior
address is not linked in any bin. -/
theorem Inv.interior (h : Inv s) (L R : List Block) (b : Block)
    (hdec : s.blocks = L ++ b :: R) (q : Nat) (h1 : b.addr < q)
    (h2 : q < b.addr + b.size) :
    (∀ x ∈ s.blocks, x.addr ≠ q) ∧ q ∉ s.bins.join := by
  have hmain : ∀ x ∈ s.blocks, x.addr ≠ q := by
    intro x hx
    rw [hdec] at hx
    rcases List.mem_append.mp hx with hxL | hxc
    · have := (h.decomp_unique L R b hdec).1 x hxL
      omega
    · rcases List.mem_cons.mp hxc with rfl | hxR
      · omega
      · have hch := h.chain
        rw [hdec, List.chain'_append] at hch
        have hcbr : List.Chain' blockRel (b :: R) := hch.2.1
        cases R with
        | nil => simp at hxR
        | cons c Rt =>
          obtain ⟨hrel, hchR⟩ := List.chain'_cons.mp hcbr
          have := chain_mono _ hchR c.addr (by simp) x hxR
          have hc := hrel.1
          omega
  refine ⟨hmain, fun hmem => ?_⟩
  obtain ⟨j, hj, hjmem⟩ := mem_join_getD s.bins q hmem
  rw [h.bins_len] at hj
  obtain ⟨c, hcmem, hca, -, -⟩ := h.bins_ok j hj q hjmem
  exact hmain c hcmem hca

/-- Every address linked in a bin is a block address, hence below the end
of the heap. -/
theorem Inv.bins_lt_heapHi (h : Inv s) : ∀ a ∈ s.bins.join, a < s.heapHi := by
  intro a ha
  obtain ⟨j, hj, hjmem⟩ := mem_join_getD s.bins a ha
  rw [h.bins_len] at hj
  obtain ⟨c, hcmem, hca, -, -⟩ := h.bins_ok j hj a hjmem
  have h1 := h.addr_ub c hcmem
  have h2 := h.size_lb c hcmem
  unfold DSIZE at h2
  omega

/-- A chain transfers along an implication that may use membership of both
endpoints. -/
theorem chain_imp_mem {P Q : Block → Block → Prop} (l : List Block)
    (h : List.Chain' P l) (himp : ∀ x ∈ l, ∀ y ∈ l, P x y → Q x y) :
    List.Chain' Q l := by
  induction l with
  | nil => simp
  | cons c t ih =>
    cases t with
    | nil => simp
    | cons d u =>
      obtain ⟨hrel, hch⟩ := List.chain'_cons.mp h
      exact List.chain'_cons.mpr
        ⟨himp c (by simp) d (by simp) hrel,
         ih hch (fun x hx y hy hp => himp x (by simp [hx]) y (by simp [hy]) hp)⟩

theorem alignedB_iff (p : Nat) : alignedB p = true ↔ p % 8 = 0 := by
  unfold alignedB alignTo
  constructor
  · intro hb
    have he : 8 * ((p + 7) / 8) = p := by simpa using hb
    omega
  · intro hm
    simp only [beq_iff_eq]
    omega

/-- `insert` only ever adds the inserted address to the linked
addresses. -/
theorem insertB_join_subset (s : State) (bp : Nat) :
    ∀ a ∈ (insertB s bp).bins.join, a = bp ∨ a ∈ s.bins.join := by
  intro a ha
  unfold insertB at ha
  obtain ⟨j, hj, hjmem⟩ := mem_join_getD _ a ha
  rw [List.length_set] at hj
  by_cases hji : j = binIndex (sizeAt s bp)
  · subst hji
    rw [getD_set_self s.bins _ _ hj] at hjmem
    unfold newbin at hjmem
    split at hjmem
    · rcases List.mem_cons.mp hjmem with rfl | hmem
      · exact Or.inl rfl
      · exact Or.inr (mem_getD_mem_join s.bins _ a hmem)
    · rcases (binSplice_mem s _ bp _ a).mp hjmem with rfl | hmem
      · exact Or.inl rfl
      · exact Or.inr (mem_getD_mem_join s.bins _ a hmem)
  · rw [getD_set_ne s.bins _ j _ (fun hx => hji hx.symm)] at hjmem
    exact Or.inr (mem_getD_mem_join s.bins j a hjmem)

/-- `binSplice` only inspects the stored sizes, hence is insensitive to the
fields other than `blocks`. -/
theorem binSplice_congr (s t : State) (asize bp : Nat) (hbl : s.blocks = t.blocks) :
    ∀ l, binSplice s asize bp l = binSplice t asize bp l := by
  intro l
  induction l with
  | nil => rfl
  | cons a r ih =>
    unfold binSplice
    rw [sizeAt_congr_blocks t s hbl a, ih]

/-- The bins produced by `insert` only depend on the blocks and bins of the
state it runs in. -/
theorem insertB_state_congr (s t : State) (bp : Nat) (hbl : s.blocks = t.blocks)
    (hbi : s.bins = t.bins) : (insertB s bp).bins = (insertB t bp).bins := by
  have hsa : ∀ a, sizeAt s a = sizeAt t a := fun a => sizeAt_congr_blocks t s hbl a
  unfold insertB newbin
  simp only [hsa, hbi, binSplice_congr s t _ _ hbl]

end StateFacts

section FindFitFacts

/-- The inner walk returns a member of the list of size at least
`asize`. -/
theorem binSearch_some_mem (s : State) (asize : Nat) (l : List Nat) (bp : Nat)
    (h : binSearch s asize l = some bp) : bp ∈ l ∧ asize ≤ sizeAt s bp := by
  unfold binSearch at h
  refine ⟨List.mem_of_find?_eq_some h, ?_⟩
  have := List.find?_some h
  simpa using this

/-- On a size-sorted list the first admissible entry is a best fit: every
admissible entry is at least as large. -/
theorem binSearch_best (s : State) (asize : Nat) (l : List Nat) (bp : Nat)
    (h : binSearch s asize l = some bp)
    (hs : List.Pairwise (fun a c => sizeAt s a ≤ sizeAt s c) l) :
    ∀ x ∈ l, asize ≤ sizeAt s x → sizeAt s bp ≤ sizeAt s x := by
  induction l with
  | nil => simp [binSearch] at h
  | cons a t ih =>
    rw [List.pairwise_cons] at hs
    unfold binSearch at h
    by_cases hfit : asize ≤ sizeAt s a
    · rw [List.find?_cons_of_pos _ (by simpa using hfit)] at h
      obtain rfl := Option.some.inj h
      intro x hx hfx
      rcases List.mem_cons.mp hx with rfl | hx
      · exact le_refl _
      · exact hs.1 x hx
    · rw [List.find?_cons_of_neg _ (by simpa using hfit)] at h
      intro x hx hfx
      rcases List.mem_cons.mp hx with rfl | hx
      · exact absurd hfx hfit
      · exact ih h hs.2 x hx hfx

/-- The outer loop returns an entry of one of the scanned bins. -/
theorem findFitLoop_some (s : State) (asize : Nat) (i fuel bp : Nat)
    (h : findFitLoop s asize i fuel = some bp) :
    ∃ j, i ≤ j ∧ j < i + fuel ∧ binSearch s asize (s.bins.getD j []) = some bp := by
  induction fuel generalizing i with
  | zero => simp [findFitLoop] at h
  | succ f ih =>
    rw [findFitLoop] at h
    cases hb : binSearch s asize (s.bins.getD i []) with
    | some bp2 =>
      rw [hb] at h
      obtain rfl := Option.some.inj h
      exact ⟨i, le_refl i, by omega, hb⟩
    | none =>
      rw [hb] at h
      obtain ⟨j, h1, h2, h3⟩ := ih (i + 1) h
      exact ⟨j, by omega, by omega, h3⟩

/-- `find_fit(asize)` returns an entry of some bin, of size at least
`asize`. -/
theorem findFitB_some (s : State) (asize bp : Nat)
    (h : findFitB s asize = some bp) :
    ∃ j < BIN, bp ∈ s.bins.getD j [] ∧ asize ≤ sizeAt s bp := by
  unfold findFitB at h
  obtain ⟨j, h1, h2, h3⟩ := findFitLoop_some s asize _ _ bp h
  obtain ⟨hmem, hsz⟩ := binSearch_some_mem s asize _ bp h3
  have := binIndex_lt asize
  exact ⟨j, by omega, hmem, hsz⟩

/-- With the invariant: `find_fit` returns the payload address of a linked
free block large enough for the request. -/
theorem findFitB_block (s : State) (h : Inv s) (asize bp : Nat)
    (hf : findFitB s asize = some bp) :
    ∃ b, findBlock s bp = some b ∧ b ∈ s.blocks ∧ b.alloc = false ∧
      asize ≤ b.size ∧ b.addr = bp ∧ bp ∈ s.bins.join := by
  obtain ⟨j, hj, hmem, hsz⟩ := findFitB_some s asize bp hf
  obtain ⟨b, hbmem, hba, hbf, -⟩ := h.bins_ok j hj bp hmem
  have hfind : findBlock s bp = some b := by
    have := h.findBlock_of_mem b hbmem
    rwa [hba] at this
  have hsize : sizeAt s bp = b.size := by
    unfold sizeAt
    rw [hfind]
    rfl
  rw [hsize] at hsz
  exact ⟨b, hfind, hbmem, hbf, hsz, hba, mem_getD_mem_join s.bins j bp hmem⟩

end FindFitFacts

section PlacePreservation

/-- `place(bp, asize)` preserves the invariant when `bp` is the payload of
a free block of size at least `asize` and `asize` is a normalized size. -/
theorem placeB_inv (s : State) (h : Inv s) (b : Block)
    (hfb : findBlock s b.addr = some b) (hfree : b.alloc = false)
    (asize : Nat) (h32 : 2 * DSIZE ≤ asize) (h8 : asize % 8 = 0)
    (hle : asize ≤ b.size) : Inv (placeB s b.addr asize) := by
  obtain ⟨L, R, hdec, -, hL⟩ := findBlock_decomp s b.addr b hfb
  obtain ⟨hultL, hultR⟩ := h.decomp_unique L R b hdec
  have hLne : ∀ x ∈ L, x.addr ≠ b.addr := fun x hx => by have := hultL x hx; omega
  have hRne : ∀ x ∈ R, x.addr ≠ b.addr := fun x hx => by have := hultR x hx; omega
  have hbmem : b ∈ s.blocks := by rw [hdec]; simp
  have hb32 : 2 * DSIZE ≤ b.size := h.size_lb b hbmem
  have hb8 : b.size % 8 = 0 := h.size_align b hbmem
  obtain ⟨h1inv, h1sub, h1b⟩ := deleteB_inv s h b.addr
  have hdec1 : (deleteB s b.addr).blocks = L ++ [b] ++ R := by
    rw [deleteB_blocks, hdec]
    simp
  have hchbR : List.Chain' blockRel (b :: R) := by
    have hch := h.chain
    rw [hdec, List.chain'_append] at hch
    exact hch.2.1
  unfold placeB
  rw [hfb]
  dsimp only
  split
  · next hsplit =>
    have hrep : ∀ u : State, u.blocks = s.blocks →
        replaceRun u.blocks b.addr 1
          [(⟨b.addr, asize, true, b.prevAlloc⟩ : Block),
           (⟨b.addr + asize, b.size - asize, false, true⟩ : Block)]
          = L ++ [(⟨b.addr, asize, true, b.prevAlloc⟩ : Block),
                  (⟨b.addr + asize, b.size - asize, false, true⟩ : Block)] ++ R := by
      intro u hu
      rw [hu, hdec]
      have hx := replaceRun_decomp L R
        [(⟨b.addr, asize, true, b.prevAlloc⟩ : Block),
         (⟨b.addr + asize, b.size - asize, false, true⟩ : Block)] b 1 hLne
      rw [hx]
      simp
    have hnotbins : b.addr + asize ∉ (deleteB s b.addr).bins.join := by
      intro hx
      have hint := (h.interior L R b hdec (b.addr + asize)
        (by unfold DSIZE at h32; omega) (by unfold DSIZE at hsplit; omega)).2
      exact hint (h1sub.mem hx)
    have key : ∀ (s2 : State),
        s2.blocks = L ++ [(⟨b.addr, asize, true, b.prevAlloc⟩ : Block),
          (⟨b.addr + asize, b.size - asize, false, true⟩ : Block)] ++ R →
        s2.bins = (deleteB s b.addr).bins → s2.lo = s.lo → s2.hiMax = s.hiMax →
        s2.heapHi = s.heapHi →
        (L ++ [(⟨b.addr, asize, true, b.prevAlloc⟩ : Block),
          (⟨b.addr + asize, b.size - asize, false, true⟩ : Block)]
          ++ R).getLast?.map Block.addr = some s2.tail →
        Inv (insertB s2 (b.addr + asize)) := by
      intro s2 e1 e2 e3 e4 e5 e6
      have hs2inv : Inv s2 := by
        refine (Inv.replace (deleteB s b.addr) h1inv s2 L [b]
          [(⟨b.addr, asize, true, b.prevAlloc⟩ : Block),
           (⟨b.addr + asize, b.size - asize, false, true⟩ : Block)] R b.addr hdec1 e1
          (by rw [e2]) (by rw [e3]; rfl) (by rw [e4]; rfl) (by rw [e5]; rfl) (by simp)
          (by simp) (by simp) (by simp; omega) ?_ ?_ ?_ ?_ e6).1
        · exact List.chain'_cons.mpr ⟨⟨rfl, rfl⟩, List.chain'_singleton _⟩
        · left
          simp [hfree]
        · intro x hx
          rcases (by simpa using hx :
              x = (⟨b.addr, asize, true, b.prevAlloc⟩ : Block) ∨
              x = (⟨b.addr + asize, b.size - asize, false, true⟩ : Block)) with heq | heq
          · rw [heq]
            exact ⟨h32, h8⟩
          · rw [heq]
            constructor
            · show 2 * DSIZE ≤ b.size - asize
              omega
            · show (b.size - asize) % 8 = 0
              omega
        · intro x hx
          right
          rw [(by simpa using hx : x = b)]
          exact h1b
      have hmmem : (⟨b.addr + asize, b.size - asize, false, true⟩ : Block) ∈ s2.blocks := by
        rw [e1]
        simp
      have hm3 : b.addr + asize ∉ s2.bins.join := by
        rw [e2]
        exact hnotbins
      exact (insertB_inv s2 hs2inv _ hmmem rfl hm3).1
    split
    · next htl =>
      have hst : s.tail = b.addr := (htl : b.addr = s.tail).symm
      have hRnil : R = [] := by
        cases hRx : R with
        | nil => rfl
        | cons r0 Rt =>
          exfalso
          have hold := h.tail_eq
          rw [hdec, hRx] at hold
          rw [show L ++ b :: r0 :: Rt = (L ++ [b]) ++ r0 :: Rt by simp] at hold
          obtain ⟨z, hz, hzm⟩ := getLast?_cons_ne_nil r0 Rt
          rw [List.getLast?_append, hz] at hold
          have hzt : z.addr = s.tail := by simpa using hold
          have hzgt := hultR z (by rw [hRx]; simp [hzm])
          omega
      subst hRnil
      refine inv_of_fields _ _ (key { deleteB s b.addr with
          blocks := replaceRun (deleteB s b.addr).blocks b.addr 1
            [(⟨b.addr, asize, true, b.prevAlloc⟩ : Block),
             (⟨b.addr + asize, b.size - asize, false, true⟩ : Block)],
          tail := b.addr + asize } (hrep _ rfl) rfl rfl rfl rfl (by simp))
        rfl (insertB_state_congr _ _ _ rfl rfl) rfl rfl rfl rfl
    · next htl =>
      refine key _ (hrep _ rfl) rfl rfl rfl rfl ?_
      show (L ++ [(⟨b.addr, asize, true, b.prevAlloc⟩ : Block),
        (⟨b.addr + asize, b.size - asize, false, true⟩ : Block)]
        ++ R).getLast?.map Block.addr = some s.tail
      have hold := h.tail_eq
      rw [hdec] at hold
      cases hRx : R with
      | nil =>
        subst hRx
        exfalso
        apply htl
        show b.addr = s.tail
        rw [show L ++ b :: ([] : List Block) = L ++ [b] by simp] at hold
        have h1 : (L ++ [b]).getLast? = some b := by simp
        rw [h1] at hold
        simpa using hold
      | cons r0 Rt =>
        subst hRx
        rw [getLast?_over_append
          (L ++ [(⟨b.addr, asize, true, b.prevAlloc⟩ : Block),
            (⟨b.addr + asize, b.size - asize, false, true⟩ : Block)])
          (L ++ [b]) r0 Rt]
        rw [show L ++ b :: r0 :: Rt = (L ++ [b]) ++ r0 :: Rt by simp] at hold
        exact hold
  · next hsplit =>
    have hsb : (setBlock (deleteB s b.addr) b.addr
        (fun c => { c with size := b.size, alloc := true })).blocks
        = L ++ [(⟨b.addr, b.size, true, b.prevAlloc⟩ : Block)] ++ R := by
      show ((deleteB s b.addr).blocks.map
        (fun x => if x.addr = b.addr then { x with size := b.size, alloc := true } else x))
        = _
      rw [deleteB_blocks, hdec, map_update_decomp L R b _ hLne hRne]
      simp
    cases hRx : R with
    | nil =>
      subst hRx
      have hno : nextOf (setBlock (deleteB s b.addr) b.addr
          (fun c => { c with size := b.size, alloc := true })).blocks b.addr = none := by
        rw [hsb]
        have := nextOf_decomp L ([] : List Block)
          (⟨b.addr, b.size, true, b.prevAlloc⟩ : Block) hLne
        simpa using this
      unfold updNextP
      rw [hno]
      refine (Inv.replace (deleteB s b.addr) h1inv
        (setBlock (deleteB s b.addr) b.addr
          (fun c => { c with size := b.size, alloc := true })) L [b]
        [(⟨b.addr, b.size, true, b.prevAlloc⟩ : Block)] [] b.addr hdec1 hsb rfl rfl rfl rfl
        (by simp) (by simp) (by simp) (by simp) (by simp) (Or.inr rfl) ?_ ?_ ?_).1
      · intro x hx
        rw [(by simpa using hx : x = (⟨b.addr, b.size, true, b.prevAlloc⟩ : Block))]
        exact ⟨hb32, hb8⟩
      · intro x hx
        right
        rw [(by simpa using hx : x = b)]
        exact h1b
      · have hold := h.tail_eq
        rw [hdec] at hold
        rw [show L ++ b :: ([] : List Block) = L ++ [b] by simp] at hold
        have h1 : (L ++ [b]).getLast? = some b := by simp
        rw [h1] at hold
        show (L ++ [(⟨b.addr, b.size, true, b.prevAlloc⟩ : Block)]
          ++ ([] : List Block)).getLast?.map Block.addr = some (deleteB s b.addr).tail
        have h2 : (L ++ [(⟨b.addr, b.size, true, b.prevAlloc⟩ : Block)]
          ++ ([] : List Block)).getLast?
          = some (⟨b.addr, b.size, true, b.prevAlloc⟩ : Block) := by simp
        rw [h2]
        simpa using hold
    | cons r0 Rt =>
      subst hRx
      obtain ⟨hrel0, hchR0⟩ := List.chain'_cons.mp hchbR
      have hr0mem : r0 ∈ s.blocks := by rw [hdec]; simp
      have hnx : nextOf (setBlock (deleteB s b.addr) b.addr
          (fun c => { c with size := b.size, alloc := true })).blocks b.addr
          = some r0 := by
        rw [hsb]
        have := nextOf_decomp L (r0 :: Rt)
          (⟨b.addr, b.size, true, b.prevAlloc⟩ : Block) hLne
        simpa using this
      unfold updNextP
      rw [hnx]
      have hbr0 : b.addr < r0.addr := by
        have := hrel0.1
        unfold DSIZE at hb32
        omega
      have hupd : (setBlock (setBlock (deleteB s b.addr) b.addr
          (fun c => { c with size := b.size, alloc := true })) r0.addr
          (fun c => { c with prevAlloc := true })).blocks
          = L ++ [(⟨b.addr, b.size, true, b.prevAlloc⟩ : Block),
              { r0 with prevAlloc := true }] ++ Rt := by
        show ((setBlock (deleteB s b.addr) b.addr
          (fun c => { c with size := b.size, alloc := true })).blocks.map
          (fun x => if x.addr = r0.addr then { x with prevAlloc := true } else x)) = _
        rw [hsb]
        rw [show L ++ [(⟨b.addr, b.size, true, b.prevAlloc⟩ : Block)] ++ r0 :: Rt
          = (L ++ [(⟨b.addr, b.size, true, b.prevAlloc⟩ : Block)]) ++ r0 :: Rt by simp]
        rw [map_update_decomp (L ++ [(⟨b.addr, b.size, true, b.prevAlloc⟩ : Block)]) Rt r0 _
          ?_ ?_]
        · simp
        · intro x hx
          rcases List.mem_append.mp hx with hx | hx
          · have h1 := hultL x hx
            omega
          · have hxx : x = (⟨b.addr, b.size, true, b.prevAlloc⟩ : Block) := by
              simpa using hx
            rw [hxx]
            show b.addr ≠ r0.addr
            omega
        · intro x hx
          have hstr := h.addr_strict
          rw [hdec] at hstr
          have h1 := (List.pairwise_append.mp hstr).2.1
          have h2 := (List.pairwise_cons.mp h1).2
          have := (List.pairwise_cons.mp h2).1 x hx
          omega
      refine (Inv.replace (deleteB s b.addr) h1inv
        (setBlock (setBlock (deleteB s b.addr) b.addr
          (fun c => { c with size := b.size, alloc := true })) r0.addr
          (fun c => { c with prevAlloc := true })) L [b, r0]
        [(⟨b.addr, b.size, true, b.prevAlloc⟩ : Block), { r0 with prevAlloc := true }] Rt
        b.addr (by rw [hdec1]; simp) hupd rfl rfl rfl rfl (by simp) (by simp) (by simp)
        (by simp) ?_ ?_ ?_ ?_ ?_).1
      · refine List.chain'_cons.mpr ⟨⟨?_, rfl⟩, List.chain'_singleton _⟩
        show r0.addr = b.addr + b.size
        exact hrel0.1
      · left
        simp
      · intro x hx
        rcases (by simpa using hx :
            x = (⟨b.addr, b.size, true, b.prevAlloc⟩ : Block) ∨
            x = { r0 with prevAlloc := true }) with heq | heq
        · rw [heq]
          exact ⟨hb32, hb8⟩
        · rw [heq]
          exact ⟨h.size_lb r0 hr0mem, h.size_align r0 hr0mem⟩
      · intro x hx
        rcases (by simpa using hx : x = b ∨ x = r0) with heq | heq
        · right
          rw [heq]
          exact h1b
        · left
          refine ⟨{ r0 with prevAlloc := true }, by simp, ?_, ?_, ?_⟩ <;> rw [heq]
      · have hold := h.tail_eq
        rw [hdec] at hold
        show _ = some (deleteB s b.addr).tail
        cases hRt : Rt with
        | nil =>
          subst hRt
          rw [show L ++ b :: r0 :: ([] : List Block) = (L ++ [b]) ++ [r0] by simp] at hold
          rw [List.getLast?_append] at hold
          show (L ++ [(⟨b.addr, b.size, true, b.prevAlloc⟩ : Block),
            { r0 with prevAlloc := true }] ++ ([] : List Block)).getLast?.map Block.addr = _
          simp at hold ⊢
          exact hold
        | cons r1 Rt2 =>
          subst hRt
          rw [getLast?_over_append
            (L ++ [(⟨b.addr, b.size, true, b.prevAlloc⟩ : Block),
              { r0 with prevAlloc := true }])
            ((L ++ [b]) ++ [r0]) r1 Rt2]
          rw [show L ++ b :: r0 :: r1 :: Rt2 = ((L ++ [b]) ++ [r0]) ++ r1 :: Rt2 by simp]
            at hold
          exact hold

end PlacePreservation

section NoAdjPreservation

/-- `coalesce(bp)` restores coalescing completeness: if no two adjacent
blocks other than possibly the freed block `bp` and a neighbour are both
free, then after coalescing no two adjacent blocks at all are both free. -/
theorem coalesceB_noadj (s : State) (h : Inv s) (b : Block)
    (hfb : findBlock s b.addr = some b) (hfree : b.alloc = false)
    (hadj : List.Chain' (fun x y => x.addr = b.addr ∨ y.addr = b.addr ∨
      x.alloc = true ∨ y.alloc = true) s.blocks) :
    NoAdjFree (coalesceB s b.addr).2 := by
  obtain ⟨L, R, hdec, -, hL⟩ := findBlock_decomp s b.addr b hfb
  obtain ⟨hultL, hultR⟩ := h.decomp_unique L R b hdec
  have hLne : ∀ x ∈ L, x.addr ≠ b.addr := fun x hx => by have := hultL x hx; omega
  have hRne : ∀ x ∈ R, x.addr ≠ b.addr := fun x hx => by have := hultR x hx; omega
  have hnext : nextOf s.blocks b.addr = R.head? := by
    rw [hdec]
    exact nextOf_decomp L R b hLne
  have hprev : prevOf s.blocks b.addr = L.getLast? := by
    rw [hdec]
    exact prevOf_decomp L R b hLne hRne
  have hch := h.chain
  rw [hdec, List.chain'_append] at hch
  obtain ⟨hchL, hchbR, hlinkL⟩ := hch
  have hQ := hadj
  rw [hdec, List.chain'_append] at hQ
  obtain ⟨hQL, hQbR, hQlink⟩ := hQ
  have hPL : List.Chain' (fun a c => a.alloc = true ∨ c.alloc = true) L := by
    refine chain_imp_mem L hQL ?_
    intro x hx y hy hq
    rcases hq with h1 | h1 | h1 | h1
    · exact absurd h1 (hLne x hx)
    · exact absurd h1 (hLne y hy)
    · exact Or.inl h1
    · exact Or.inr h1
  unfold coalesceB
  rw [hfb]
  dsimp only
  by_cases hpa : b.prevAlloc = true
  all_goals by_cases hnaT : nextAllocOf s b.addr = true
  · -- both neighbours allocated: the block sequence is unchanged
    rw [if_pos (show (b.prevAlloc && nextAllocOf s b.addr) = true by rw [hpa, hnaT]; rfl)]
    have hlastL : ∀ z ∈ L.getLast?, z.alloc = true := by
      intro z hz
      have h2 := (hlinkL z hz b (by simp)).2
      rw [hpa] at h2
      exact h2.symm
    show NoAdjFree (insertB s b.addr)
    unfold NoAdjFree
    rw [insertB_blocks, hdec]
    rw [List.chain'_append]
    refine ⟨hPL, ?_, ?_⟩
    · cases hR : R with
      | nil => simp
      | cons r0 Rt =>
        refine List.chain'_cons.mpr ⟨?_, ?_⟩
        · right
          unfold nextAllocOf at hnaT
          rw [hnext, hR] at hnaT
          simpa using hnaT
        · refine chain_imp_mem _ ((List.chain'_cons.mp (hR ▸ hQbR)).2) ?_
          intro x hx y hy hq
          rcases hq with h1 | h1 | h1 | h1
          · exact absurd h1 (hRne x (by rw [hR]; simp [hx]))
          · exact absurd h1 (hRne y (by rw [hR]; simp [hy]))
          · exact Or.inl h1
          · exact Or.inr h1
    · intro x hx y hy
      left
      exact hlastL x hx
  · -- next block free: it is absorbed
    have hna : nextAllocOf s b.addr = false := by
      cases hx : nextAllocOf s b.addr
      · rfl
      · exact absurd hx hnaT
    rw [if_neg (show ¬ (b.prevAlloc && nextAllocOf s b.addr) = true by rw [hpa, hna]; simp),
      if_pos (show (b.prevAlloc && !nextAllocOf s b.addr) = true by rw [hpa, hna]; rfl)]
    obtain ⟨nb, R2, hR⟩ : ∃ nb R2, R = nb :: R2 := by
      cases hRx : R with
      | nil =>
        rw [hRx] at hnext
        unfold nextAllocOf at hna
        rw [hnext] at hna
        simp at hna
      | cons nb R2 => exact ⟨nb, R2, rfl⟩
    have hnb : nextOf s.blocks b.addr = some nb := by rw [hnext, hR]; rfl
    rw [hnb]
    dsimp only
    have hlastL : ∀ z ∈ L.getLast?, z.alloc = true := by
      intro z hz
      have h2 := (hlinkL z hz b (by simp)).2
      rw [hpa] at h2
      exact h2.symm
    have hrep : ∀ u : State, u.blocks = s.blocks →
        replaceRun u.blocks b.addr 2
          [(⟨b.addr, b.size + nb.size, false, b.prevAlloc⟩ : Block)]
          = L ++ [(⟨b.addr, b.size + nb.size, false, b.prevAlloc⟩ : Block)] ++ R2 := by
      intro u hu
      rw [hu, hdec, hR]
      have hx := replaceRun_decomp L (nb :: R2)
        [(⟨b.addr, b.size + nb.size, false, b.prevAlloc⟩ : Block)] b 2 hLne
      rw [hx]
      simp
    have hchain : List.Chain' (fun a c => a.alloc = true ∨ c.alloc = true)
        (L ++ [(⟨b.addr, b.size + nb.size, false, b.prevAlloc⟩ : Block)] ++ R2) := by
      rw [show L ++ [(⟨b.addr, b.size + nb.size, false, b.prevAlloc⟩ : Block)] ++ R2
        = L ++ ((⟨b.addr, b.size + nb.size, false, b.prevAlloc⟩ : Block) :: R2) by simp]
      rw [List.chain'_append]
      refine ⟨hPL, ?_, ?_⟩
      · cases hR2 : R2 with
        | nil => simp
        | cons r2 Rt2 =>
          have hq0 : List.Chain' (fun x y => x.addr = b.addr ∨ y.addr = b.addr ∨
              x.alloc = true ∨ y.alloc = true) (b :: nb :: r2 :: Rt2) := by
            rw [← hR2]
            exact hR ▸ hQbR
          refine List.chain'_cons.mpr ⟨?_, ?_⟩
          · right
            have hq := (List.chain'_cons.mp ((List.chain'_cons.mp hq0).2)).1
            rcases hq with h1 | h1 | h1 | h1
            · exact absurd h1 (hRne nb (by rw [hR]; simp))
            · exact absurd h1 (hRne r2 (by rw [hR, hR2]; simp))
            · have hnbf : nb.alloc = false := by
                unfold nextAllocOf at hna
                rw [hnb] at hna
                simpa using hna
              rw [hnbf] at h1
              simp at h1
            · exact h1
          · refine chain_imp_mem _
              ((List.chain'_cons.mp ((List.chain'_cons.mp hq0).2)).2) ?_
            intro x hx y hy hq
            rcases hq with h1 | h1 | h1 | h1
            · exact absurd h1 (hRne x (by rw [hR, hR2]; simp [hx]))
            · exact absurd h1 (hRne y (by rw [hR, hR2]; simp [hy]))
            · exact Or.inl h1
            · exact Or.inr h1
      · intro x hx y hy
        left
        exact hlastL x hx
    split
    all_goals {
      unfold NoAdjFree
      show List.Chain' (fun a c => a.alloc = true ∨ c.alloc = true)
        (replaceRun s.blocks b.addr 2
          [(⟨b.addr, b.size + nb.size, false, b.prevAlloc⟩ : Block)])
      rw [hrep s rfl]
      exact hchain
    }
  · -- previous block free: fold into the predecessor
    have hpaf : b.prevAlloc = false := by
      cases hx : b.prevAlloc
      · rfl
      · exact absurd hx hpa
    rw [if_neg (show ¬ (b.prevAlloc && nextAllocOf s b.addr) = true by rw [hpaf]; simp),
      if_neg (show ¬ (b.prevAlloc && !nextAllocOf s b.addr) = true by rw [hpaf]; simp),
      if_pos (show (!b.prevAlloc && nextAllocOf s b.addr) = true by rw [hpaf, hnaT]; rfl)]
    obtain ⟨pb, hpb⟩ : ∃ pb, L.getLast? = some pb := by
      cases hLx : L with
      | nil =>
        exfalso
        have := h.first_prev b (by rw [hdec, hLx]; rfl)
        rw [this] at hpaf
        simp at hpaf
      | cons c t =>
        obtain ⟨z, hz, -⟩ := getLast?_cons_ne_nil c t
        exact ⟨z, hz⟩
    have hprevSome : prevOf s.blocks b.addr = some pb := by rw [hprev, hpb]
    rw [hprevSome]
    dsimp only
    obtain ⟨L2, hLsplit⟩ : ∃ L2, L = L2 ++ [pb] :=
      ⟨L.dropLast, (List.dropLast_append_getLast? pb hpb).symm⟩
    have hpbal : pb.alloc = false := by
      have h2 := (hlinkL pb (by simp [hpb]) b (by simp)).2
      rw [hpaf] at h2
      exact h2.symm
    have hlastL2 : ∀ z ∈ L2.getLast?, z.alloc = true := by
      intro z hz
      rw [hLsplit] at hQL
      rw [List.chain'_append] at hQL
      have hq := hQL.2.2 z hz pb (by simp)
      rcases hq with h1 | h1 | h1 | h1
      · exact absurd h1 (hLne z (by rw [hLsplit]; exact List.mem_append_left _ (List.mem_of_mem_getLast? hz)))
      · exact absurd h1 (hLne pb (by rw [hLsplit]; simp))
      · exact h1
      · rw [hpbal] at h1
        simp at h1
    have hPL2 : List.Chain' (fun a c => a.alloc = true ∨ c.alloc = true) L2 := by
      rw [hLsplit] at hPL
      rw [List.chain'_append] at hPL
      exact hPL.1
    have hrep : ∀ u : State, u.blocks = s.blocks →
        replaceRun u.blocks pb.addr 2
          [(⟨pb.addr, b.size + pb.size, false, pb.prevAlloc⟩ : Block)]
          = L2 ++ [(⟨pb.addr, b.size + pb.size, false, pb.prevAlloc⟩ : Block)] ++ R := by
      intro u hu
      rw [hu, hdec, hLsplit]
      have hL2ne : ∀ x ∈ L2, x.addr ≠ pb.addr := by
        intro x hx
        have hstr := h.addr_strict
        rw [hdec, hLsplit] at hstr
        rw [List.pairwise_append] at hstr
        have h1 := List.pairwise_append.mp hstr.1
        have := h1.2.2 x hx pb (by simp)
        omega
      have hx := replaceRun_decomp L2 ([b] ++ R)
        [(⟨pb.addr, b.size + pb.size, false, pb.prevAlloc⟩ : Block)] pb 2 hL2ne
      rw [show L2 ++ [pb] ++ b :: R = L2 ++ pb :: ([b] ++ R) by simp]
      rw [hx]
      simp
    have hchain : List.Chain' (fun a c => a.alloc = true ∨ c.alloc = true)
        (L2 ++ [(⟨pb.addr, b.size + pb.size, false, pb.prevAlloc⟩ : Block)] ++ R) := by
      rw [show L2 ++ [(⟨pb.addr, b.size + pb.size, false, pb.prevAlloc⟩ : Block)] ++ R
        = L2 ++ ((⟨pb.addr, b.size + pb.size, false, pb.prevAlloc⟩ : Block) :: R) by simp]
      rw [List.chain'_append]
      refine ⟨hPL2, ?_, ?_⟩
      · cases hRx : R with
        | nil => simp
        | cons r0 Rt =>
          refine List.chain'_cons.mpr ⟨?_, ?_⟩
          · right
            unfold nextAllocOf at hnaT
            rw [hnext, hRx] at hnaT
            simpa using hnaT
          · refine chain_imp_mem _ ((List.chain'_cons.mp (hRx ▸ hQbR)).2) ?_
            intro x hx y hy hq
            rcases hq with h1 | h1 | h1 | h1
            · exact absurd h1 (hRne x (by rw [hRx]; simp [hx]))
            · exact absurd h1 (hRne y (by rw [hRx]; simp [hy]))
            · exact Or.inl h1
            · exact Or.inr h1
      · intro x hx y hy
        left
        exact hlastL2 x hx
    split
    all_goals {
      unfold NoAdjFree
      show List.Chain' (fun a c => a.alloc = true ∨ c.alloc = true)
        (replaceRun s.blocks pb.addr 2
          [(⟨pb.addr, b.size + pb.size, false, pb.prevAlloc⟩ : Block)])
      rw [hrep s rfl]
      exact hchain
    }
  · -- both neighbours free: all three are folded together
    have hpaf : b.prevAlloc = false := by
      cases hx : b.prevAlloc
      · rfl
      · exact absurd hx hpa
    have hna : nextAllocOf s b.addr = false := by
      cases hx : nextAllocOf s b.addr
      · rfl
      · exact absurd hx hnaT
    rw [if_neg (show ¬ (b.prevAlloc && nextAllocOf s b.addr) = true by rw [hpaf]; simp),
      if_neg (show ¬ (b.prevAlloc && !nextAllocOf s b.addr) = true by rw [hpaf]; simp),
      if_neg (show ¬ (!b.prevAlloc && nextAllocOf s b.addr) = true by rw [hpaf, hna]; simp)]
    obtain ⟨nb, R2, hR⟩ : ∃ nb R2, R = nb :: R2 := by
      cases hRx : R with
      | nil =>
        rw [hRx] at hnext
        unfold nextAllocOf at hna
        rw [hnext] at hna
        simp at hna
      | cons nb R2 => exact ⟨nb, R2, rfl⟩
    obtain ⟨pb, hpb⟩ : ∃ pb, L.getLast? = some pb := by
      cases hLx : L with
      | nil =>
        exfalso
        have := h.first_prev b (by rw [hdec, hLx]; rfl)
        rw [this] at hpaf
        simp at hpaf
      | cons c t =>
        obtain ⟨z, hz, -⟩ := getLast?_cons_ne_nil c t
        exact ⟨z, hz⟩
    have hprevSome : prevOf s.blocks b.addr = some pb := by rw [hprev, hpb]
    have hnb : nextOf s.blocks b.addr = some nb := by rw [hnext, hR]; rfl
    rw [hprevSome, hnb]
    dsimp only
    obtain ⟨L2, hLsplit⟩ : ∃ L2, L = L2 ++ [pb] :=
      ⟨L.dropLast, (List.dropLast_append_getLast? pb hpb).symm⟩
    have hpbal : pb.alloc = false := by
      have h2 := (hlinkL pb (by simp [hpb]) b (by simp)).2
      rw [hpaf] at h2
      exact h2.symm
    have hlastL2 : ∀ z ∈ L2.getLast?, z.alloc = true := by
      intro z hz
      rw [hLsplit] at hQL
      rw [List.chain'_append] at hQL
      have hq := hQL.2.2 z hz pb (by simp)
      rcases hq with h1 | h1 | h1 | h1
      · exact absurd h1 (hLne z (by rw [hLsplit]; exact List.mem_append_left _ (List.mem_of_mem_getLast? hz)))
      · exact absurd h1 (hLne pb (by rw [hLsplit]; simp))
      · exact h1
      · rw [hpbal] at h1
        simp at h1
    have hPL2 : List.Chain' (fun a c => a.alloc = true ∨ c.alloc = true) L2 := by
      rw [hLsplit] at hPL
      rw [List.chain'_append] at hPL
      exact hPL.1
    have hnbfree : nb.alloc = false := by
      unfold nextAllocOf at hna
      rw [hnb] at hna
      exact hna
    have hrep : ∀ u : State, u.blocks = s.blocks →
        replaceRun u.blocks pb.addr 3
          [(⟨pb.addr, b.size + pb.size + nb.size, false, pb.prevAlloc⟩ : Block)]
          = L2 ++ [(⟨pb.addr, b.size + pb.size + nb.size, false, pb.prevAlloc⟩ : Block)]
            ++ R2 := by
      intro u hu
      rw [hu, hdec, hR, hLsplit]
      have hL2ne : ∀ x ∈ L2, x.addr ≠ pb.addr := by
        intro x hx
        have hstr := h.addr_strict
        rw [hdec, hLsplit] at hstr
        rw [List.pairwise_append] at hstr
        have h1 := List.pairwise_append.mp hstr.1
        have := h1.2.2 x hx pb (by simp)
        omega
      have hx := replaceRun_decomp L2 ([b, nb] ++ R2)
        [(⟨pb.addr, b.size + pb.size + nb.size, false, pb.prevAlloc⟩ : Block)] pb 3 hL2ne
      rw [show L2 ++ [pb] ++ b :: nb :: R2 = L2 ++ pb :: ([b, nb] ++ R2) by simp]
      rw [hx]
      simp
    have hchain : List.Chain' (fun a c => a.alloc = true ∨ c.alloc = true)
        (L2 ++ [(⟨pb.addr, b.size + pb.size + nb.size, false, pb.prevAlloc⟩ : Block)]
          ++ R2) := by
      rw [show L2 ++ [(⟨pb.addr, b.size + pb.size + nb.size, false, pb.prevAlloc⟩ : Block)]
        ++ R2 = L2
        ++ ((⟨pb.addr, b.size + pb.size + nb.size, false, pb.prevAlloc⟩ : Block) :: R2)
        by simp]
      rw [List.chain'_append]
      refine ⟨hPL2, ?_, ?_⟩
      · cases hR2 : R2 with
        | nil => simp
        | cons r2 Rt2 =>
          have hq0 : List.Chain' (fun x y => x.addr = b.addr ∨ y.addr = b.addr ∨
              x.alloc = true ∨ y.alloc = true) (b :: nb :: r2 :: Rt2) := by
            rw [← hR2]
            exact hR ▸ hQbR
          refine List.chain'_cons.mpr ⟨?_, ?_⟩
          · right
            have hq := (List.chain'_cons.mp ((List.chain'_cons.mp hq0).2)).1
            rcases hq with h1 | h1 | h1 | h1
            · exact absurd h1 (hRne nb (by rw [hR]; simp))
            · exact absurd h1 (hRne r2 (by rw [hR, hR2]; simp))
            · rw [hnbfree] at h1
              simp at h1
            · exact h1
          · refine chain_imp_mem _
              ((List.chain'_cons.mp ((List.chain'_cons.mp hq0).2)).2) ?_
            intro x hx y hy hq
            rcases hq with h1 | h1 | h1 | h1
            · exact absurd h1 (hRne x (by rw [hR, hR2]; simp [hx]))
            · exact absurd h1 (hRne y (by rw [hR, hR2]; simp [hy]))
            · exact Or.inl h1
            · exact Or.inr h1
      · intro x hx y hy
        left
        exact hlastL2 x hx
    split
    all_goals {
      unfold NoAdjFree
      show List.Chain' (fun a c => a.alloc = true ∨ c.alloc = true)
        (replaceRun s.blocks pb.addr 3
          [(⟨pb.addr, b.size + pb.size + nb.size, false, pb.prevAlloc⟩ : Block)])
      rw [hrep s rfl]
      exact hchain
    }


/-- Making blocks more allocated preserves coalescing completeness. -/
theorem chain_alloc_mono (l : List Block) (g : Block → Block)
    (hg : ∀ x, x.alloc = true → (g x).alloc = true)
    (hc : List.Chain' (fun a c => a.alloc = true ∨ c.alloc = true) l) :
    List.Chain' (fun a c => a.alloc = true ∨ c.alloc = true) (l.map g) := by
  rw [List.chain'_map]
  exact hc.imp (fun a b hp => hp.imp (hg a) (hg b))

/-- `place` preserves coalescing completeness: the split-off remainder is
flanked by the newly allocated block and the (necessarily allocated)
successor of the chosen free block. -/
theorem placeB_noadj (s : State) (h : Inv s) (b : Block)
    (hfb : findBlock s b.addr = some b) (hfree : b.alloc = false)
    (asize : Nat) (hnadj : NoAdjFree s) : NoAdjFree (placeB s b.addr asize) := by
  obtain ⟨L, R, hdec, -, hL⟩ := findBlock_decomp s b.addr b hfb
  obtain ⟨hultL, hultR⟩ := h.decomp_unique L R b hdec
  have hLne : ∀ x ∈ L, x.addr ≠ b.addr := fun x hx => by have := hultL x hx; omega
  unfold placeB
  rw [hfb]
  dsimp only
  split
  · next hsplit =>
    have hrep : ∀ u : State, u.blocks = s.blocks →
        replaceRun u.blocks b.addr 1
          [(⟨b.addr, asize, true, b.prevAlloc⟩ : Block),
           (⟨b.addr + asize, b.size - asize, false, true⟩ : Block)]
          = L ++ [(⟨b.addr, asize, true, b.prevAlloc⟩ : Block),
                  (⟨b.addr + asize, b.size - asize, false, true⟩ : Block)] ++ R := by
      intro u hu
      rw [hu, hdec]
      have hx := replaceRun_decomp L R
        [(⟨b.addr, asize, true, b.prevAlloc⟩ : Block),
         (⟨b.addr + asize, b.size - asize, false, true⟩ : Block)] b 1 hLne
      rw [hx]
      simp
    have hQ := hnadj
    unfold NoAdjFree at hQ
    rw [hdec, List.chain'_append] at hQ
    obtain ⟨hQL, hQbR, hQlink⟩ := hQ
    have hchain : List.Chain' (fun a c => a.alloc = true ∨ c.alloc = true)
        (L ++ [(⟨b.addr, asize, true, b.prevAlloc⟩ : Block),
          (⟨b.addr + asize, b.size - asize, false, true⟩ : Block)] ++ R) := by
      rw [show L ++ [(⟨b.addr, asize, true, b.prevAlloc⟩ : Block),
          (⟨b.addr + asize, b.size - asize, false, true⟩ : Block)] ++ R
        = L ++ ((⟨b.addr, asize, true, b.prevAlloc⟩ : Block) ::
            (⟨b.addr + asize, b.size - asize, false, true⟩ : Block) :: R) by simp]
      rw [List.chain'_append]
      refine ⟨hQL, ?_, ?_⟩
      · refine List.chain'_cons.mpr ⟨Or.inl rfl, ?_⟩
        cases hRx : R with
        | nil => simp
        | cons r0 Rt =>
          refine List.chain'_cons.mpr ⟨?_, (List.chain'_cons.mp (hRx ▸ hQbR)).2⟩
          right
          have hp := (List.chain'_cons.mp (hRx ▸ hQbR)).1
          rcases hp with h1 | h1
          · rw [hfree] at h1
            simp at h1
          · exact h1
      · intro x hx y hy
        right
        obtain rfl := (by simpa using hy : (⟨b.addr, asize, true, b.prevAlloc⟩ : Block) = y)
        rfl
    split
    all_goals {
      unfold NoAdjFree
      show List.Chain' (fun a c => a.alloc = true ∨ c.alloc = true)
        (replaceRun s.blocks b.addr 1
          [(⟨b.addr, asize, true, b.prevAlloc⟩ : Block),
           (⟨b.addr + asize, b.size - asize, false, true⟩ : Block)])
      rw [hrep s rfl]
      exact hchain
    }
  · next hsplit =>
    unfold updNextP
    split
    · unfold NoAdjFree
      show List.Chain' (fun a c => a.alloc = true ∨ c.alloc = true)
        (s.blocks.map
          (fun x => if x.addr = b.addr then { x with size := b.size, alloc := true } else x))
      refine chain_alloc_mono s.blocks _ ?_ hnadj
      intro x hx
      dsimp only
      split
      · rfl
      · exact hx
    · unfold NoAdjFree
      show List.Chain' (fun a c => a.alloc = true ∨ c.alloc = true)
        ((s.blocks.map
          (fun x => if x.addr = b.addr then { x with size := b.size, alloc := true } else x)).map
          (fun x => if x.addr = _ then { x with prevAlloc := true } else x))
      refine chain_alloc_mono _ _ ?_ (chain_alloc_mono s.blocks _ ?_ hnadj)
      · intro x hx
        dsimp only
        split
        · exact hx
        · exact hx
      · intro x hx
        dsimp only
        split
        · rfl
        · exact hx

/-- `free(p)` preserves the invariant, and preserves coalescing
completeness. -/
theorem freeB_inv (s : State) (h : Inv s) (p : Nat) :
    Inv (freeB s p) ∧ (NoAdjFree s → NoAdjFree (freeB s p)) := by
  unfold freeB
  split
  · exact ⟨h, fun hn => hn⟩
  split
  · exact ⟨h, fun hn => hn⟩
  split
  · exact ⟨h, fun hn => hn⟩
  split
  · exact ⟨h, fun hn => hn⟩
  next b hfb =>
  split
  · exact ⟨h, fun hn => hn⟩
  next halloc =>
  dsimp only
  have hba : b.alloc = true := by simpa using halloc
  obtain ⟨L, R, hdec, hbp, hL⟩ := findBlock_decomp s p b hfb
  subst hbp
  obtain ⟨hultL, hultR⟩ := h.decomp_unique L R b hdec
  have hLne : ∀ x ∈ L, x.addr ≠ b.addr := fun x hx => by have := hultL x hx; omega
  have hRne : ∀ x ∈ R, x.addr ≠ b.addr := fun x hx => by have := hultR x hx; omega
  have hbmem : b ∈ s.blocks := by rw [hdec]; simp
  have hb32 : 2 * DSIZE ≤ b.size := h.size_lb b hbmem
  have hb8 : b.size % 8 = 0 := h.size_align b hbmem
  have hnotb : b.addr ∉ s.bins.join := h.alloc_notin_bins b hbmem hba
  have hchbR : List.Chain' blockRel (b :: R) := by
    have hch := h.chain
    rw [hdec, List.chain'_append] at hch
    exact hch.2.1
  have hsb : (setBlock s b.addr (fun c => { c with alloc := false })).blocks
      = L ++ [(⟨b.addr, b.size, false, b.prevAlloc⟩ : Block)] ++ R := by
    show (s.blocks.map
      (fun x => if x.addr = b.addr then { x with alloc := false } else x)) = _
    rw [hdec, map_update_decomp L R b _ hLne hRne]
    simp
  cases hRx : R with
  | nil =>
    subst hRx
    have hno : nextOf (setBlock s b.addr
        (fun c => { c with alloc := false })).blocks b.addr = none := by
      rw [hsb]
      have := nextOf_decomp L ([] : List Block)
        (⟨b.addr, b.size, false, b.prevAlloc⟩ : Block) hLne
      simpa using this
    unfold updNextP
    rw [hno]
    have hs2 : Inv (setBlock s b.addr (fun c => { c with alloc := false })) := by
      refine (Inv.replace s h _ L [b]
        [(⟨b.addr, b.size, false, b.prevAlloc⟩ : Block)] [] b.addr (by rw [hdec]; simp)
        hsb rfl rfl rfl rfl (by simp) (by simp) (by simp) (by simp) (by simp)
        (Or.inr rfl) ?_ ?_ ?_).1
      · intro x hx
        rw [(by simpa using hx : x = (⟨b.addr, b.size, false, b.prevAlloc⟩ : Block))]
        exact ⟨hb32, hb8⟩
      · intro x hx
        right
        rw [(by simpa using hx : x = b)]
        exact hnotb
      · have hold := h.tail_eq
        rw [hdec] at hold
        have h1 : (L ++ b :: ([] : List Block)).getLast? = some b := by simp
        rw [h1] at hold
        show (L ++ [(⟨b.addr, b.size, false, b.prevAlloc⟩ : Block)]
          ++ ([] : List Block)).getLast?.map Block.addr = some s.tail
        have h2 : (L ++ [(⟨b.addr, b.size, false, b.prevAlloc⟩ : Block)]
          ++ ([] : List Block)).getLast?
          = some (⟨b.addr, b.size, false, b.prevAlloc⟩ : Block) := by simp
        rw [h2]
        simpa using hold
    have hmem2 : (⟨b.addr, b.size, false, b.prevAlloc⟩ : Block)
        ∈ (setBlock s b.addr (fun c => { c with alloc := false })).blocks := by
      rw [hsb]
      simp
    have hfind2 := hs2.findBlock_of_mem _ hmem2
    have hnot2 : b.addr ∉ (setBlock s b.addr
        (fun c => { c with alloc := false })).bins.join := hnotb
    refine ⟨(coalesceB_inv _ hs2 (⟨b.addr, b.size, false, b.prevAlloc⟩ : Block)
      hfind2 rfl hnot2).1, ?_⟩
    intro hn
    refine coalesceB_noadj _ hs2 (⟨b.addr, b.size, false, b.prevAlloc⟩ : Block)
      hfind2 rfl ?_
    rw [hsb]
    unfold NoAdjFree at hn
    rw [hdec, List.chain'_append] at hn
    obtain ⟨hPL, -, -⟩ := hn
    rw [show L ++ [(⟨b.addr, b.size, false, b.prevAlloc⟩ : Block)] ++ ([] : List Block)
      = L ++ [(⟨b.addr, b.size, false, b.prevAlloc⟩ : Block)] by simp]
    rw [List.chain'_append]
    refine ⟨hPL.imp (fun a c hp => Or.inr (Or.inr hp)), by simp, ?_⟩
    intro x hx y hy
    right
    left
    rw [(by simpa using hy : (⟨b.addr, b.size, false, b.prevAlloc⟩ : Block) = y).symm]
  | cons r0 Rt =>
    subst hRx
    obtain ⟨hrel0, hchR0⟩ := List.chain'_cons.mp hchbR
    have hr0mem : r0 ∈ s.blocks := by rw [hdec]; simp
    have hbr0 : b.addr < r0.addr := by
      have := hrel0.1
      unfold DSIZE at hb32
      omega
    have hnx : nextOf (setBlock s b.addr
        (fun c => { c with alloc := false })).blocks b.addr = some r0 := by
      rw [hsb]
      have := nextOf_decomp L (r0 :: Rt)
        (⟨b.addr, b.size, false, b.prevAlloc⟩ : Block) hLne
      simpa using this
    unfold updNextP
    rw [hnx]
    have hupd : (setBlock (setBlock s b.addr (fun c => { c with alloc := false })) r0.addr
        (fun c => { c with prevAlloc := false })).blocks
        = L ++ [(⟨b.addr, b.size, false, b.prevAlloc⟩ : Block),
            { r0 with prevAlloc := false }] ++ Rt := by
      show ((setBlock s b.addr (fun c => { c with alloc := false })).blocks.map
        (fun x => if x.addr = r0.addr then { x with prevAlloc := false } else x)) = _
      rw [hsb]
      rw [show L ++ [(⟨b.addr, b.size, false, b.prevAlloc⟩ : Block)] ++ r0 :: Rt
        = (L ++ [(⟨b.addr, b.size, false, b.prevAlloc⟩ : Block)]) ++ r0 :: Rt by simp]
      rw [map_update_decomp (L ++ [(⟨b.addr, b.size, false, b.prevAlloc⟩ : Block)]) Rt r0 _
        ?_ ?_]
      · simp
      · intro x hx
        rcases List.mem_append.mp hx with hx | hx
        · have h1 := hultL x hx
          omega
        · have hxx : x = (⟨b.addr, b.size, false, b.prevAlloc⟩ : Block) := by
            simpa using hx
          rw [hxx]
          show b.addr ≠ r0.addr
          omega
      · intro x hx
        have hstr := h.addr_strict
        rw [hdec] at hstr
        have h1 := (List.pairwise_append.mp hstr).2.1
        have h2 := (List.pairwise_cons.mp h1).2
        have := (List.pairwise_cons.mp h2).1 x hx
        omega
    have hs3 : Inv (setBlock (setBlock s b.addr
        (fun c => { c with alloc := false })) r0.addr
        (fun c => { c with prevAlloc := false })) := by
      refine (Inv.replace s h _ L [b, r0]
        [(⟨b.addr, b.size, false, b.prevAlloc⟩ : Block), { r0 with prevAlloc := false }] Rt
        b.addr (by rw [hdec]; simp) hupd rfl rfl rfl rfl (by simp) (by simp) (by simp)
        (by simp) ?_ ?_ ?_ ?_ ?_).1
      · refine List.chain'_cons.mpr ⟨⟨?_, rfl⟩, List.chain'_singleton _⟩
        show r0.addr = b.addr + b.size
        exact hrel0.1
      · left
        simp
      · intro x hx
        rcases (by simpa using hx :
            x = (⟨b.addr, b.size, false, b.prevAlloc⟩ : Block) ∨
            x = { r0 with prevAlloc := false }) with heq | heq
        · rw [heq]
          exact ⟨hb32, hb8⟩
        · rw [heq]
          exact ⟨h.size_lb r0 hr0mem, h.size_align r0 hr0mem⟩
      · intro x hx
        rcases (by simpa using hx : x = b ∨ x = r0) with heq | heq
        · right
          rw [heq]
          exact hnotb
        · left
          refine ⟨{ r0 with prevAlloc := false }, by simp, ?_, ?_, ?_⟩ <;> rw [heq]
      · have hold := h.tail_eq
        rw [hdec] at hold
        show _ = some s.tail
        cases hRt : Rt with
        | nil =>
          subst hRt
          rw [show L ++ b :: r0 :: ([] : List Block) = (L ++ [b]) ++ [r0] by simp] at hold
          rw [List.getLast?_append] at hold
          show (L ++ [(⟨b.addr, b.size, false, b.prevAlloc⟩ : Block),
            { r0 with prevAlloc := false }] ++ ([] : List Block)).getLast?.map
            Block.addr = _
          simp at hold ⊢
          exact hold
        | cons r1 Rt2 =>
          subst hRt
          rw [getLast?_over_append
            (L ++ [(⟨b.addr, b.size, false, b.prevAlloc⟩ : Block),
              { r0 with prevAlloc := false }])
            ((L ++ [b]) ++ [r0]) r1 Rt2]
          rw [show L ++ b :: r0 :: r1 :: Rt2 = ((L ++ [b]) ++ [r0]) ++ r1 :: Rt2 by simp]
            at hold
          exact hold
    have hmem3 : (⟨b.addr, b.size, false, b.prevAlloc⟩ : Block)
        ∈ (setBlock (setBlock s b.addr (fun c => { c with alloc := false })) r0.addr
          (fun c => { c with prevAlloc := false })).blocks := by
      rw [hupd]
      simp
    have hfind3 := hs3.findBlock_of_mem _ hmem3
    have hnot3 : b.addr ∉ (setBlock (setBlock s b.addr
        (fun c => { c with alloc := false })) r0.addr
        (fun c => { c with prevAlloc := false })).bins.join := hnotb
    refine ⟨(coalesceB_inv _ hs3 (⟨b.addr, b.size, false, b.prevAlloc⟩ : Block)
      hfind3 rfl hnot3).1, ?_⟩
    intro hn
    refine coalesceB_noadj _ hs3 (⟨b.addr, b.size, false, b.prevAlloc⟩ : Block)
      hfind3 rfl ?_
    rw [hupd]
    unfold NoAdjFree at hn
    rw [hdec, List.chain'_append] at hn
    obtain ⟨hPL, hPbR, -⟩ := hn
    rw [show L ++ [(⟨b.addr, b.size, false, b.prevAlloc⟩ : Block),
        { r0 with prevAlloc := false }] ++ Rt
      = L ++ ((⟨b.addr, b.size, false, b.prevAlloc⟩ : Block) ::
          { r0 with prevAlloc := false } :: Rt) by simp]
    rw [List.chain'_append]
    refine ⟨hPL.imp (fun a c hp => Or.inr (Or.inr hp)), ?_, ?_⟩
    · refine List.chain'_cons.mpr ⟨Or.inl rfl, ?_⟩
      have hPr0 : List.Chain' (fun a c => a.alloc = true ∨ c.alloc = true) (r0 :: Rt) :=
        (List.chain'_cons.mp hPbR).2
      cases hRt : Rt with
      | nil => simp
      | cons r1 Rt2 =>
        refine List.chain'_cons.mpr ⟨?_, ?_⟩
        · have hp := (List.chain'_cons.mp (hRt ▸ hPr0)).1
          exact hp.elim (fun h1 => Or.inr (Or.inr (Or.inl h1)))
            (fun h1 => Or.inr (Or.inr (Or.inr h1)))
        · exact ((List.chain'_cons.mp (hRt ▸ hPr0)).2).imp
            (fun a c hp => Or.inr (Or.inr hp))
    · intro x hx y hy
      right
      left
      rw [(by simpa using hy : (⟨b.addr, b.size, false, b.prevAlloc⟩ : Block) = y).symm]

end NoAdjPreservation

section ExtendMalloc

/-- `extend_heap(words)` preserves the invariant and coalescing
completeness, and the returned pointer names a linked free block of at
least `words * WSIZE` bytes. -/
theorem extendHeapB_inv (s : State) (h : Inv s) (words r : Nat) (s1 : State)
    (hw : 4 ≤ words) (he : extendHeapB s words = some (r, s1)) :
    Inv s1 ∧ (NoAdjFree s → NoAdjFree s1) ∧
      ∃ b2, findBlock s1 r = some b2 ∧ b2.alloc = false ∧
        words * WSIZE ≤ b2.size ∧ b2.addr = r ∧ r ∈ s1.bins.join := by
  unfold extendHeapB at he
  dsimp only at he
  cases hm : memSbrk s ((if words % 2 == 1 then words + 1 else words) * WSIZE) with
  | none =>
    rw [hm] at he
    exact absurd he (by simp)
  | some pr =>
    obtain ⟨bp, sm⟩ := pr
    rw [hm] at he
    dsimp only at he
    obtain ⟨hmm, hmbl, hmbi, hmt, hml, hmhM, hbp, hmhi, hcap⟩ :=
      memSbrk_some s _ bp sm hm
    have hw2ge : words ≤ (if words % 2 == 1 then words + 1 else words) := by
      split <;> omega
    have hw2mod : (if words % 2 == 1 then words + 1 else words) % 2 = 0 := by
      split
      · next hx =>
        simp only [beq_iff_eq] at hx
        omega
      · next hx =>
        simp only [beq_iff_eq] at hx
        omega
    obtain ⟨lastb, hlast⟩ : ∃ lb, s.blocks.getLast? = some lb := by
      cases hlx : s.blocks.getLast? with
      | none => exact absurd (List.getLast?_eq_none_iff.mp hlx) h.blocks_ne
      | some x => exact ⟨x, rfl⟩
    have hlmem : lastb ∈ s.blocks := List.mem_of_mem_getLast? (by simp [hlast])
    have htaileq : s.tail = lastb.addr := by
      have hx := h.tail_eq
      rw [hlast] at hx
      have h2 : lastb.addr = s.tail := by simpa using hx
      exact h2.symm
    have hhieq : lastb.addr + lastb.size = s.heapHi := by
      have hx := h.hi_eq
      rw [hlast] at hx
      simpa using hx
    have hat : allocOfTail sm = lastb.alloc := by
      unfold allocOfTail
      have hfl : findBlock sm sm.tail = some lastb := by
        unfold findBlock
        rw [hmbl, hmt, htaileq]
        exact h.findBlock_of_mem lastb hlmem
      rw [hfl]
    have hblt : ∀ x ∈ s.blocks, x.addr < bp := by
      intro x hx
      have h1 := h.addr_ub x hx
      have h2 := h.size_lb x hx
      unfold DSIZE at h2
      omega
    have hs2 : Inv { sm with
        blocks := sm.blocks ++ [⟨bp, (if words % 2 == 1 then words + 1 else words) * WSIZE,
          false, allocOfTail sm⟩],
        tail := bp } := by
      refine ⟨?_, ?_, ?_, ?_, ?_, ?_, ?_, ?_, ?_, ?_, ?_, ?_, ?_, ?_, ?_⟩
      · show 0 < sm.lo
        rw [hml]
        exact h.lo_pos
      · show sm.lo % 8 = 0
        rw [hml]
        exact h.lo_align
      · show sm.hiMax ≤ 2 ^ 62
        rw [hmhM]
        exact h.cap
      · show sm.heapHi ≤ sm.hiMax
        rw [hmhi, hmhM]
        exact hcap
      · show (sm.blocks ++ _).head?.map Block.addr = some (sm.lo + 4 * WSIZE)
        rw [hmbl, hml]
        cases hbl : s.blocks with
        | nil => exact absurd hbl h.blocks_ne
        | cons c t =>
          have hx := h.first_addr
          rw [hbl] at hx
          simpa using hx
      · intro x hx
        rw [show ({ sm with blocks := sm.blocks ++ [⟨bp,
            (if words % 2 == 1 then words + 1 else words) * WSIZE, false,
            allocOfTail sm⟩], tail := bp } : State).blocks = sm.blocks ++ _ from rfl,
          hmbl] at hx
        cases hbl : s.blocks with
        | nil => exact absurd hbl h.blocks_ne
        | cons c t =>
          rw [hbl] at hx
          obtain rfl := (by simpa using hx : c = x)
          exact h.first_prev _ (by rw [hbl]; rfl)
      · show List.Chain' blockRel (sm.blocks ++ _)
        rw [hmbl]
        rw [List.chain'_append]
        refine ⟨h.chain, List.chain'_singleton _, ?_⟩
        intro x hx y hy
        rw [hlast] at hx
        obtain rfl := (by simpa using hx : lastb = x)
        obtain rfl := (by simpa using hy :
          (⟨bp, (if words % 2 == 1 then words + 1 else words) * WSIZE, false,
            allocOfTail sm⟩ : Block) = y)
        constructor
        · show bp = lastb.addr + lastb.size
          rw [hbp, hhieq]
        · show allocOfTail sm = lastb.alloc
          rw [hat]
      · intro x hx
        rw [show ({ sm with blocks := sm.blocks ++ [⟨bp,
            (if words % 2 == 1 then words + 1 else words) * WSIZE, false,
            allocOfTail sm⟩], tail := bp } : State).blocks = sm.blocks ++ _ from rfl,
          hmbl] at hx
        rcases List.mem_append.mp hx with hx | hx
        · exact h.size_lb x hx
        · obtain rfl := (by simpa using hx :
            x = (⟨bp, (if words % 2 == 1 then words + 1 else words) * WSIZE, false,
              allocOfTail sm⟩ : Block))
          show 2 * DSIZE ≤ (if words % 2 == 1 then words + 1 else words) * WSIZE
          unfold DSIZE WSIZE
          omega
      · intro x hx
        rw [show ({ sm with blocks := sm.blocks ++ [⟨bp,
            (if words % 2 == 1 then words + 1 else words) * WSIZE, false,
            allocOfTail sm⟩], tail := bp } : State).blocks = sm.blocks ++ _ from rfl,
          hmbl] at hx
        rcases List.mem_append.mp hx with hx | hx
        · exact h.size_align x hx
        · obtain rfl := (by simpa using hx :
            x = (⟨bp, (if words % 2 == 1 then words + 1 else words) * WSIZE, false,
              allocOfTail sm⟩ : Block))
          show (if words % 2 == 1 then words + 1 else words) * WSIZE % 8 = 0
          unfold WSIZE
          omega
      · show (sm.blocks ++ _).getLast?.map (fun b => b.addr + b.size) = some sm.heapHi
        have hgl : (sm.blocks ++ [(⟨bp,
            (if words % 2 == 1 then words + 1 else words) * WSIZE, false,
            allocOfTail sm⟩ : Block)]).getLast? = some (⟨bp,
            (if words % 2 == 1 then words + 1 else words) * WSIZE, false,
            allocOfTail sm⟩ : Block) := by simp
        rw [hgl]
        rw [hmhi, hbp]
        rfl
      · show (sm.blocks ++ _).getLast?.map Block.addr = some bp
        have hgl : (sm.blocks ++ [(⟨bp,
            (if words % 2 == 1 then words + 1 else words) * WSIZE, false,
            allocOfTail sm⟩ : Block)]).getLast? = some (⟨bp,
            (if words % 2 == 1 then words + 1 else words) * WSIZE, false,
            allocOfTail sm⟩ : Block) := by simp
        rw [hgl]
        rfl
      · show sm.bins.length = BIN
        rw [hmbi]
        exact h.bins_len
      · intro i hi a ha
        rw [show ({ sm with blocks := sm.blocks ++ [⟨bp,
            (if words % 2 == 1 then words + 1 else words) * WSIZE, false,
            allocOfTail sm⟩], tail := bp } : State).bins = sm.bins from rfl, hmbi] at ha
        obtain ⟨c, hcmem, hca, hcf, hci⟩ := h.bins_ok i hi a ha
        refine ⟨c, ?_, hca, hcf, hci⟩
        show c ∈ sm.blocks ++ _
        rw [hmbl]
        exact List.mem_append_left _ hcmem
      · intro i hi
        rw [show ({ sm with blocks := sm.blocks ++ [⟨bp,
            (if words % 2 == 1 then words + 1 else words) * WSIZE, false,
            allocOfTail sm⟩], tail := bp } : State).bins = sm.bins from rfl, hmbi]
        refine (h.bins_sorted i hi).imp_of_mem ?_
        intro a c ha hc hle
        have hsa : ∀ x ∈ s.bins.getD i [], sizeAt { sm with
            blocks := sm.blocks ++ [⟨bp,
              (if words % 2 == 1 then words + 1 else words) * WSIZE, false,
              allocOfTail sm⟩], tail := bp } x = sizeAt s x := by
          intro x hx
          obtain ⟨c2, hc2mem, hc2a, -, -⟩ := h.bins_ok i hi x hx
          unfold sizeAt findBlock
          show ((sm.blocks ++ _).find? _).elim 0 Block.size = _
          rw [hmbl, List.find?_append]
          have hfc2 : s.blocks.find? (fun b => b.addr == x) = some c2 := by
            have hx2 := h.findBlock_of_mem c2 hc2mem
            unfold findBlock at hx2
            rwa [hc2a] at hx2
          rw [hfc2]
          rfl
        exact (hsa a ha).trans_le (hle.trans (hsa c hc).ge)
      · show (({ sm with blocks := sm.blocks ++ [⟨bp,
          (if words % 2 == 1 then words + 1 else words) * WSIZE, false,
          allocOfTail sm⟩], tail := bp } : State).bins).join.Nodup
        show sm.bins.join.Nodup
        rw [hmbi]
        exact h.bins_nodup
    have hfb2 : findBlock { sm with
        blocks := sm.blocks ++ [⟨bp, (if words % 2 == 1 then words + 1 else words) * WSIZE,
          false, allocOfTail sm⟩],
        tail := bp } bp = some (⟨bp,
          (if words % 2 == 1 then words + 1 else words) * WSIZE, false,
          allocOfTail sm⟩ : Block) := by
      unfold findBlock
      show (sm.blocks ++ _).find? _ = _
      rw [hmbl, List.find?_append]
      rw [find?_block_none s.blocks bp (fun x hx => by have := hblt x hx; omega)]
      simp
    have hnot2 : bp ∉ ({ sm with
        blocks := sm.blocks ++ [⟨bp, (if words % 2 == 1 then words + 1 else words) * WSIZE,
          false, allocOfTail sm⟩],
        tail := bp } : State).bins.join := by
      show bp ∉ sm.bins.join
      rw [hmbi]
      intro hx
      have := h.bins_lt_heapHi bp hx
      omega
    have hr : r = (coalesceB { sm with
        blocks := sm.blocks ++ [⟨bp, (if words % 2 == 1 then words + 1 else words) * WSIZE,
          false, allocOfTail sm⟩], tail := bp } bp).1 := by
      rw [Option.some.inj he]
    have hs1 : s1 = (coalesceB { sm with
        blocks := sm.blocks ++ [⟨bp, (if words % 2 == 1 then words + 1 else words) * WSIZE,
          false, allocOfTail sm⟩], tail := bp } bp).2 := by
      rw [Option.some.inj he]
    obtain ⟨hcinv, b2, hb2f, hb2free, hb2sz, hb2addr, hb2join⟩ :=
      coalesceB_inv _ hs2 (⟨bp, (if words % 2 == 1 then words + 1 else words) * WSIZE,
        false, allocOfTail sm⟩ : Block) hfb2 rfl hnot2
    refine ⟨by rw [hs1]; exact hcinv, ?_, ?_⟩
    · intro hn
      rw [hs1]
      refine coalesceB_noadj _ hs2 (⟨bp,
        (if words % 2 == 1 then words + 1 else words) * WSIZE,
        false, allocOfTail sm⟩ : Block) hfb2 rfl ?_
      show List.Chain' _ (sm.blocks ++ _)
      rw [hmbl]
      rw [List.chain'_append]
      refine ⟨hn.imp (fun a c hp => Or.inr (Or.inr hp)), by simp, ?_⟩
      intro x hx y hy
      right
      left
      rw [(by simpa using hy :
        (⟨bp, (if words % 2 == 1 then words + 1 else words) * WSIZE, false,
          allocOfTail sm⟩ : Block) = y).symm]
    · refine ⟨b2, ?_, hb2free, ?_, ?_, ?_⟩
      · rw [hs1, hr]
        exact hb2f
      · have hle : words * WSIZE ≤
            (if words % 2 == 1 then words + 1 else words) * WSIZE := by
          unfold WSIZE
          omega
        calc words * WSIZE ≤ _ := hle
          _ ≤ b2.size := hb2sz
      · rw [hr]
        exact hb2addr
      · rw [hs1, hr]
        exact hb2join

/-- `malloc(size)` preserves the invariant and coalescing completeness for
any request that does not overflow the `size_t` rounding. -/
theorem mallocB_inv (s : State) (h : Inv s) (u : Nat) (hu : u ≤ U64 - 2 * WSIZE) :
    Inv (mallocB s u).2 ∧ (NoAdjFree s → NoAdjFree (mallocB s u).2) := by
  unfold mallocB
  split
  · exact ⟨h, fun hn => hn⟩
  next hu0 =>
  dsimp only
  have hupos : 0 < u := Nat.pos_of_ne_zero (by simpa using hu0)
  have h32 : 2 * DSIZE ≤ asizeOf u := (asizeOf_lb u hupos hu).1
  have h8 := asizeOf_mod8 u
  cases hff : findFitB s (asizeOf u) with
  | some bp =>
    dsimp only
    obtain ⟨b, hfind, hbmem, hbfree, hbsz, hbaddr, -⟩ := findFitB_block s h _ bp hff
    constructor
    · rw [← hbaddr]
      exact placeB_inv s h b (by rw [hbaddr]; exact hfind) hbfree (asizeOf u) h32 h8 hbsz
    · intro hn
      rw [← hbaddr]
      exact placeB_noadj s h b (by rw [hbaddr]; exact hfind) hbfree (asizeOf u) hn
  | none =>
    cases heh : extendHeapB s (max (asizeOf u) CHUNKSIZE / WSIZE) with
    | none => exact ⟨h, fun hn => hn⟩
    | some pr =>
      obtain ⟨bp, s1⟩ := pr
      dsimp only
      have hw : 4 ≤ max (asizeOf u) CHUNKSIZE / WSIZE := by
        have h1 : CHUNKSIZE ≤ max (asizeOf u) CHUNKSIZE := le_max_right _ _
        have h2 : CHUNKSIZE / WSIZE ≤ max (asizeOf u) CHUNKSIZE / WSIZE :=
          Nat.div_le_div_right h1
        unfold CHUNKSIZE WSIZE at h2 ⊢
        omega
      obtain ⟨hinv1, hnadj1, b2, hfind2, hfree2, hsz2, haddr2, -⟩ :=
        extendHeapB_inv s h _ bp s1 hw heh
      have hmax8 : max (asizeOf u) CHUNKSIZE % 8 = 0 := by
        rcases le_total (asizeOf u) CHUNKSIZE with hc | hc
        · rw [max_eq_right hc]
          decide
        · rw [max_eq_left hc]
          exact h8
      have hsz3 : asizeOf u ≤ b2.size := by
        have hdm : (max (asizeOf u) CHUNKSIZE / WSIZE) * WSIZE
            = max (asizeOf u) CHUNKSIZE := by
          unfold WSIZE at *
          omega
        rw [hdm] at hsz2
        have := le_max_left (asizeOf u) CHUNKSIZE
        omega
      constructor
      · rw [← haddr2]
        exact placeB_inv s1 hinv1 b2 (by rw [haddr2]; exact hfind2) hfree2 (asizeOf u)
          h32 h8 hsz3
      · intro hn
        rw [← haddr2]
        exact placeB_noadj s1 hinv1 b2 (by rw [haddr2]; exact hfind2) hfree2 (asizeOf u)
          (hnadj1 hn)

end ExtendMalloc

section MallocAligned

theorem extendWords_ge (u : Nat) : 4 ≤ max (asizeOf u) CHUNKSIZE / WSIZE := by
  have h1 : CHUNKSIZE ≤ max (asizeOf u) CHUNKSIZE := le_max_right _ _
  have h2 : CHUNKSIZE / WSIZE ≤ max (asizeOf u) CHUNKSIZE / WSIZE :=
    Nat.div_le_div_right h1
  unfold CHUNKSIZE WSIZE at h2 ⊢
  omega

/-- Every pointer `malloc` hands out is the payload address of a block of
an invariant state, hence 8-aligned. -/
theorem mallocB_some_aligned (s : State) (h : Inv s) (u p : Nat)
    (hp : (mallocB s u).1 = some p) : p % 8 = 0 := by
  unfold mallocB at hp
  split at hp
  · simp at hp
  dsimp only at hp
  cases hff : findFitB s (asizeOf u) with
  | some bp =>
    rw [hff] at hp
    dsimp only at hp
    obtain rfl := Option.some.inj hp
    obtain ⟨b, -, hbmem, -, -, hbaddr, -⟩ := findFitB_block s h _ _ hff
    have := h.addr_align b hbmem
    omega
  | none =>
    rw [hff] at hp
    dsimp only at hp
    cases heh : extendHeapB s (max (asizeOf u) CHUNKSIZE / WSIZE) with
    | none =>
      rw [heh] at hp
      simp at hp
    | some pr =>
      obtain ⟨bp, s1⟩ := pr
      rw [heh] at hp
      dsimp only at hp
      obtain rfl := Option.some.inj hp
      obtain ⟨hinv1, -, b2, hf2, -, -, haddr2, -⟩ :=
        extendHeapB_inv s h _ bp s1 (extendWords_ge u) heh
      have hb2mem : b2 ∈ s1.blocks := (findBlock_mem s1 bp b2 hf2).1
      have := hinv1.addr_align b2 hb2mem
      omega

end MallocAligned

section Wrapping

theorem w64sub_of_le (x y : Nat) (hx : x < 2 ^ 63) (hy : y ≤ x) :
    w64sub x y = x - y := by
  unfold w64sub U64
  have h1 : y % 2 ^ 64 = y := Nat.mod_eq_of_lt (by omega)
  rw [h1]
  have he : x + (2 ^ 64 - y) = (x - y) + 1 * 2 ^ 64 := by omega
  rw [he, Nat.add_mul_mod_self_right, Nat.mod_eq_of_lt (by omega)]

theorem w64sub_of_lt (x y : Nat) (hy : y ≤ 2 ^ 62) (hxy : x < y) :
    2 ^ 63 ≤ w64sub x y := by
  unfold w64sub U64
  have h1 : y % 2 ^ 64 = y := Nat.mod_eq_of_lt (by omega)
  rw [h1]
  have h2 : x + (2 ^ 64 - y) < 2 ^ 64 := by omega
  rw [Nat.mod_eq_of_lt h2]
  omega

end Wrapping

section ReallocPreservation

set_option maxHeartbeats 1600000 in
/-- `realloc(p, u)` preserves the invariant, for a pointer that is null,
guard-rejected, or a valid allocated payload, and a request whose rounded
size stays below `2^63` (beyond that the absorption test misbehaves in the
C code, cf. the signed comparison). -/
theorem reallocB_inv (s : State) (h : Inv s) (p u : Nat)
    (hu : u ≤ U64 - 2 * WSIZE) (husane : asizeOf u < 2 ^ 63)
    (hval : ∀ b, findBlock s p = some b → b.alloc = true) :
    Inv (reallocB s p u).2 := by
  have hu2 : asizeOf u ≤ U64 - 2 * WSIZE := by
    unfold U64 WSIZE
    have : (2 : Nat) ^ 63 ≤ 2 ^ 64 - 2 * 8 := by norm_num
    omega
  have hreloc : ∀ os : Nat, Inv (reallocRelocate s p (asizeOf u) os).2 := by
    intro os
    unfold reallocRelocate
    cases hmal : mallocB s (asizeOf u) with
    | mk o s1 =>
      have hs1 : Inv s1 := by
        have hx := (mallocB_inv s h (asizeOf u) hu2).1
        rw [hmal] at hx
        exact hx
      cases o with
      | none => exact hs1
      | some newptr =>
        dsimp only
        exact (freeB_inv { s1 with mem := memcpyB s1.mem newptr p os }
          (inv_of_fields s1 _ hs1 rfl rfl rfl rfl rfl rfl) p).1
  unfold reallocB
  split
  · exact (freeB_inv s h p).1
  next hu0 =>
  split
  · exact (mallocB_inv s h u hu).1
  next hp0 =>
  split
  · exact h
  next hal =>
  split
  · exact h
  next hih =>
  dsimp only
  cases hfb : findBlock s p with
  | none => exact h
  | some b =>
  dsimp only
  have hba : b.alloc = true := hval b hfb
  obtain ⟨L, R, hdec, hbp, hL⟩ := findBlock_decomp s p b hfb
  subst hbp
  obtain ⟨hultL, hultR⟩ := h.decomp_unique L R b hdec
  have hLne : ∀ x ∈ L, x.addr ≠ b.addr := fun x hx => by have := hultL x hx; omega
  have hRne : ∀ x ∈ R, x.addr ≠ b.addr := fun x hx => by have := hultR x hx; omega
  have hbmem : b ∈ s.blocks := by rw [hdec]; simp
  have hb32 : 2 * DSIZE ≤ b.size := h.size_lb b hbmem
  have hb8 : b.size % 8 = 0 := h.size_align b hbmem
  have hnotb : b.addr ∉ s.bins.join := h.alloc_notin_bins b hbmem hba
  have hbub : b.addr + b.size ≤ s.heapHi := h.addr_ub b hbmem
  have hcap62 : s.heapHi ≤ 2 ^ 62 := le_trans h.hi_cap h.cap
  have hblo : 0 < b.addr := by
    have h1 := h.addr_lb b hbmem
    have h2 := h.lo_pos
    omega
  have hchbR : List.Chain' blockRel (b :: R) := by
    have hch := h.chain
    rw [hdec, List.chain'_append] at hch
    exact hch.2.1
  have hnext : nextOf s.blocks b.addr = R.head? := by
    rw [hdec]
    exact nextOf_decomp L R b hLne
  have hupos : 0 < u := Nat.pos_of_ne_zero (by simpa using hu0)
  have h32 : 2 * DSIZE ≤ asizeOf u := (asizeOf_lb u hupos hu).1
  have h8 := asizeOf_mod8 u
  split
  · next hshr =>
    split
    · next hrem =>
      -- shrink in place with a split-off remainder
      have hrep : ∀ uS : State, uS.blocks = s.blocks →
          replaceRun uS.blocks b.addr 1
            [(⟨b.addr, asizeOf u, true, b.prevAlloc⟩ : Block),
             (⟨b.addr + asizeOf u, b.size - asizeOf u, false, true⟩ : Block)]
            = L ++ [(⟨b.addr, asizeOf u, true, b.prevAlloc⟩ : Block),
                (⟨b.addr + asizeOf u, b.size - asizeOf u, false, true⟩ : Block)] ++ R := by
        intro uS hu3
        rw [hu3, hdec]
        have hx := replaceRun_decomp L R
          [(⟨b.addr, asizeOf u, true, b.prevAlloc⟩ : Block),
           (⟨b.addr + asizeOf u, b.size - asizeOf u, false, true⟩ : Block)] b 1 hLne
        rw [hx]
        simp
      have hint := h.interior L R b hdec (b.addr + asizeOf u)
        (by unfold DSIZE at h32; omega) (by unfold DSIZE at hrem; omega)
      have hnxr : nextOf (replaceRun s.blocks b.addr 1
          [(⟨b.addr, asizeOf u, true, b.prevAlloc⟩ : Block),
           (⟨b.addr + asizeOf u, b.size - asizeOf u, false, true⟩ : Block)])
          (b.addr + asizeOf u) = R.head? := by
        rw [hrep s rfl]
        rw [show L ++ [(⟨b.addr, asizeOf u, true, b.prevAlloc⟩ : Block),
            (⟨b.addr + asizeOf u, b.size - asizeOf u, false, true⟩ : Block)] ++ R
          = (L ++ [(⟨b.addr, asizeOf u, true, b.prevAlloc⟩ : Block)])
            ++ (⟨b.addr + asizeOf u, b.size - asizeOf u, false, true⟩ : Block) :: R
          by simp]
        have hx := nextOf_decomp (L ++ [(⟨b.addr, asizeOf u, true, b.prevAlloc⟩ : Block)])
          R (⟨b.addr + asizeOf u, b.size - asizeOf u, false, true⟩ : Block) ?_
        · exact hx
        · intro x hx2
          rcases List.mem_append.mp hx2 with hx2 | hx2
          · have := hultL x hx2
            show x.addr ≠ b.addr + asizeOf u
            unfold DSIZE at h32
            omega
          · obtain rfl := (by simpa using hx2 :
              x = (⟨b.addr, asizeOf u, true, b.prevAlloc⟩ : Block))
            show b.addr ≠ b.addr + asizeOf u
            unfold DSIZE at h32
            omega
      cases hRc : R with
      | nil =>
        subst hRc
        have key : ∀ (s2 : State),
            s2.blocks = L ++ [(⟨b.addr, asizeOf u, true, b.prevAlloc⟩ : Block),
              (⟨b.addr + asizeOf u, b.size - asizeOf u, false, true⟩ : Block)]
              ++ ([] : List Block) →
            s2.bins = s.bins → s2.lo = s.lo → s2.hiMax = s.hiMax → s2.heapHi = s.heapHi →
            (L ++ [(⟨b.addr, asizeOf u, true, b.prevAlloc⟩ : Block),
              (⟨b.addr + asizeOf u, b.size - asizeOf u, false, true⟩ : Block)]
              ++ ([] : List Block)).getLast?.map Block.addr = some s2.tail →
            Inv (insertB s2 (b.addr + asizeOf u)) := by
          intro s2 e1 e2 e3 e4 e5 e6
          have hs2inv : Inv s2 := by
            refine (Inv.replace s h s2 L [b]
              [(⟨b.addr, asizeOf u, true, b.prevAlloc⟩ : Block),
               (⟨b.addr + asizeOf u, b.size - asizeOf u, false, true⟩ : Block)]
              [] b.addr
              (by rw [hdec]; simp) e1 e2 e3 e4 e5 (by simp) (by simp) (by simp)
              (by simp; omega) ?_ (Or.inr rfl) ?_ ?_ e6).1
            · exact List.chain'_cons.mpr ⟨⟨rfl, rfl⟩, List.chain'_singleton _⟩
            · intro x hx
              rcases (by simpa using hx :
                  x = (⟨b.addr, asizeOf u, true, b.prevAlloc⟩ : Block) ∨
                  x = (⟨b.addr + asizeOf u, b.size - asizeOf u, false, true⟩ : Block))
                with heq | heq
              · rw [heq]
                exact ⟨h32, h8⟩
              · rw [heq]
                constructor
                · show 2 * DSIZE ≤ b.size - asizeOf u
                  omega
                · show (b.size - asizeOf u) % 8 = 0
                  omega
            · intro x hx
              right
              rw [(by simpa using hx : x = b)]
              exact hnotb
          have hmmem : (⟨b.addr + asizeOf u, b.size - asizeOf u, false, true⟩ : Block)
              ∈ s2.blocks := by
            rw [e1]
            simp
          have hm3 : b.addr + asizeOf u ∉ s2.bins.join := by
            rw [e2]
            exact hint.2
          exact (insertB_inv s2 hs2inv _ hmmem rfl hm3).1
        have hnone : nextOf (replaceRun s.blocks b.addr 1
            [(⟨b.addr, asizeOf u, true, b.prevAlloc⟩ : Block),
             (⟨b.addr + asizeOf u, b.size - asizeOf u, false, true⟩ : Block)])
            (b.addr + asizeOf u) = none := by rw [hnxr]; rfl
        unfold updNextP
        rw [hnone]
        have hst : s.tail = b.addr := by
          have hold := h.tail_eq
          rw [hdec] at hold
          have h1 : (L ++ b :: ([] : List Block)).getLast? = some b := by simp
          rw [h1] at hold
          exact (by simpa using hold : b.addr = s.tail).symm
        split
        · next htl =>
          refine inv_of_fields _ _ (key { s with
              blocks := replaceRun s.blocks b.addr 1
                [(⟨b.addr, asizeOf u, true, b.prevAlloc⟩ : Block),
                 (⟨b.addr + asizeOf u, b.size - asizeOf u, false, true⟩ : Block)],
              tail := b.addr + asizeOf u } (hrep _ rfl) rfl rfl rfl rfl (by simp))
            rfl (insertB_state_congr _ _ _ rfl rfl) rfl rfl rfl rfl
        · next htl =>
          exfalso
          exact htl (show _ = b.addr from hst.symm ▸ rfl)
      | cons r0 Rt =>
        subst hRc
        obtain ⟨hrel0, hchR0⟩ := List.chain'_cons.mp hchbR
        have hr0mem : r0 ∈ s.blocks := by rw [hdec]; simp
        have hbr0 : b.addr < r0.addr := by
          have := hrel0.1
          unfold DSIZE at hb32
          omega
        have hsome : nextOf (replaceRun s.blocks b.addr 1
            [(⟨b.addr, asizeOf u, true, b.prevAlloc⟩ : Block),
             (⟨b.addr + asizeOf u, b.size - asizeOf u, false, true⟩ : Block)])
            (b.addr + asizeOf u) = some r0 := by rw [hnxr]; rfl
        unfold updNextP
        rw [hsome]
        dsimp only
        have hstne : s.tail ≠ b.addr := by
          have hold := h.tail_eq
          rw [hdec] at hold
          rw [show L ++ b :: r0 :: Rt = (L ++ [b]) ++ r0 :: Rt by simp] at hold
          obtain ⟨z, hz, hzm⟩ := getLast?_cons_ne_nil r0 Rt
          rw [List.getLast?_append, hz] at hold
          have hzt : z.addr = s.tail := by simpa using hold
          have hzgt := hultR z (by simp [hzm])
          omega
        have hupd : (setBlock { s with
            blocks := replaceRun s.blocks b.addr 1
              [(⟨b.addr, asizeOf u, true, b.prevAlloc⟩ : Block),
               (⟨b.addr + asizeOf u, b.size - asizeOf u, false, true⟩ : Block)] } r0.addr
            (fun c => { c with prevAlloc := false })).blocks
            = L ++ [(⟨b.addr, asizeOf u, true, b.prevAlloc⟩ : Block),
                (⟨b.addr + asizeOf u, b.size - asizeOf u, false, true⟩ : Block),
                { r0 with prevAlloc := false }] ++ Rt := by
          show ((replaceRun s.blocks b.addr 1
            [(⟨b.addr, asizeOf u, true, b.prevAlloc⟩ : Block),
             (⟨b.addr + asizeOf u, b.size - asizeOf u, false, true⟩ : Block)]).map
            (fun x => if x.addr = r0.addr then { x with prevAlloc := false } else x)) = _
          rw [hrep s rfl]
          rw [show L ++ [(⟨b.addr, asizeOf u, true, b.prevAlloc⟩ : Block),
              (⟨b.addr + asizeOf u, b.size - asizeOf u, false, true⟩ : Block)] ++ r0 :: Rt
            = (L ++ [(⟨b.addr, asizeOf u, true, b.prevAlloc⟩ : Block),
                (⟨b.addr + asizeOf u, b.size - asizeOf u, false, true⟩ : Block)])
              ++ r0 :: Rt by simp]
          rw [map_update_decomp (L ++ [(⟨b.addr, asizeOf u, true, b.prevAlloc⟩ : Block),
            (⟨b.addr + asizeOf u, b.size - asizeOf u, false, true⟩ : Block)]) Rt r0 _ ?_ ?_]
          · simp
          · intro x hx
            rcases List.mem_append.mp hx with hx | hx
            · have := hultL x hx
              omega
            · rcases (by simpa using hx :
                  x = (⟨b.addr, asizeOf u, true, b.prevAlloc⟩ : Block) ∨
                  x = (⟨b.addr + asizeOf u, b.size - asizeOf u, false, true⟩ : Block))
                with heq | heq
              · rw [heq]
                show b.addr ≠ r0.addr
                omega
              · rw [heq]
                show b.addr + asizeOf u ≠ r0.addr
                have h1 := hrel0.1
                unfold DSIZE at hrem
                omega
          · intro x hx
            have hstr := h.addr_strict
            rw [hdec] at hstr
            have h1 := (List.pairwise_append.mp hstr).2.1
            have h2 := (List.pairwise_cons.mp h1).2
            have := (List.pairwise_cons.mp h2).1 x hx
            omega
        have hs2inv : Inv (setBlock { s with
            blocks := replaceRun s.blocks b.addr 1
              [(⟨b.addr, asizeOf u, true, b.prevAlloc⟩ : Block),
               (⟨b.addr + asizeOf u, b.size - asizeOf u, false, true⟩ : Block)] } r0.addr
            (fun c => { c with prevAlloc := false })) := by
          refine (Inv.replace s h _ L [b, r0]
            [(⟨b.addr, asizeOf u, true, b.prevAlloc⟩ : Block),
             (⟨b.addr + asizeOf u, b.size - asizeOf u, false, true⟩ : Block),
             { r0 with prevAlloc := false }] Rt b.addr
            (by rw [hdec]; simp) hupd rfl rfl rfl rfl (by simp) (by simp) (by simp)
            (by simp; omega) ?_ ?_ ?_ ?_ ?_).1
          · refine List.chain'_cons.mpr ⟨⟨rfl, rfl⟩, ?_⟩
            refine List.chain'_cons.mpr ⟨⟨?_, rfl⟩, List.chain'_singleton _⟩
            show r0.addr = b.addr + asizeOf u + (b.size - asizeOf u)
            have := hrel0.1
            omega
          · left
            simp
          · intro x hx
            rcases (by simpa using hx :
                x = (⟨b.addr, asizeOf u, true, b.prevAlloc⟩ : Block) ∨
                x = (⟨b.addr + asizeOf u, b.size - asizeOf u, false, true⟩ : Block) ∨
                x = { r0 with prevAlloc := false }) with heq | heq | heq
            · rw [heq]
              exact ⟨h32, h8⟩
            · rw [heq]
              constructor
              · show 2 * DSIZE ≤ b.size - asizeOf u
                omega
              · show (b.size - asizeOf u) % 8 = 0
                omega
            · rw [heq]
              exact ⟨h.size_lb r0 hr0mem, h.size_align r0 hr0mem⟩
          · intro x hx
            rcases (by simpa using hx : x = b ∨ x = r0) with heq | heq
            · right
              rw [heq]
              exact hnotb
            · left
              refine ⟨{ r0 with prevAlloc := false }, by simp, ?_, ?_, ?_⟩ <;> rw [heq]
          · have hold := h.tail_eq
            rw [hdec] at hold
            show _ = some s.tail
            cases hRt : Rt with
            | nil =>
              subst hRt
              rw [show L ++ b :: r0 :: ([] : List Block) = (L ++ [b]) ++ [r0] by simp]
                at hold
              rw [List.getLast?_append] at hold
              show (L ++ [(⟨b.addr, asizeOf u, true, b.prevAlloc⟩ : Block),
                (⟨b.addr + asizeOf u, b.size - asizeOf u, false, true⟩ : Block),
                { r0 with prevAlloc := false }] ++ ([] : List Block)).getLast?.map
                Block.addr = _
              simp at hold ⊢
              exact hold
            | cons r1 Rt2 =>
              subst hRt
              rw [getLast?_over_append
                (L ++ [(⟨b.addr, asizeOf u, true, b.prevAlloc⟩ : Block),
                  (⟨b.addr + asizeOf u, b.size - asizeOf u, false, true⟩ : Block),
                  { r0 with prevAlloc := false }])
                ((L ++ [b]) ++ [r0]) r1 Rt2]
              rw [show L ++ b :: r0 :: r1 :: Rt2 = ((L ++ [b]) ++ [r0]) ++ r1 :: Rt2
                by simp] at hold
              exact hold
        split
        · next htl =>
          exfalso
          exact hstne (htl : _ = b.addr)
        · next htl =>
          have hmmem : (⟨b.addr + asizeOf u, b.size - asizeOf u, false, true⟩ : Block)
              ∈ (setBlock { s with
                blocks := replaceRun s.blocks b.addr 1
                  [(⟨b.addr, asizeOf u, true, b.prevAlloc⟩ : Block),
                   (⟨b.addr + asizeOf u, b.size - asizeOf u, false, true⟩ : Block)] }
                r0.addr (fun c => { c with prevAlloc := false })).blocks := by
            rw [hupd]
            simp
          exact (insertB_inv _ hs2inv _ hmmem rfl hint.2).1
    · next hrem =>
      -- shrink without a remainder: the state is unchanged
      have hb' : ({ b with size := b.size, alloc := true } : Block) = b := by
        rw [← hba]
      have hsb : (setBlock s b.addr
          (fun c => { c with size := b.size, alloc := true })).blocks = s.blocks := by
        show (s.blocks.map
          (fun x => if x.addr = b.addr then { x with size := b.size, alloc := true }
            else x)) = _
        rw [hdec, map_update_decomp L R b _ hLne hRne, hb']
      have hnxs : nextOf (setBlock s b.addr
          (fun c => { c with size := b.size, alloc := true })).blocks b.addr
          = R.head? := by
        rw [hsb]
        exact hnext
      cases hRc : R with
      | nil =>
        subst hRc
        have hnone : nextOf (setBlock s b.addr
            (fun c => { c with size := b.size, alloc := true })).blocks b.addr = none := by
          rw [hnxs]
          rfl
        unfold updNextP
        rw [hnone]
        exact inv_of_fields s _ h hsb rfl rfl rfl rfl rfl
      | cons r0 Rt =>
        subst hRc
        obtain ⟨hrel0, hchR0⟩ := List.chain'_cons.mp hchbR
        have hr0p : r0.prevAlloc = true := by
          rw [hrel0.2, hba]
        have hr0' : ({ r0 with prevAlloc := true } : Block) = r0 := by
          rw [← hr0p]
        have hsome : nextOf (setBlock s b.addr
            (fun c => { c with size := b.size, alloc := true })).blocks b.addr
            = some r0 := by
          rw [hnxs]
          rfl
        unfold updNextP
        rw [hsome]
        dsimp only
        have hupd2 : (setBlock (setBlock s b.addr
            (fun c => { c with size := b.size, alloc := true })) r0.addr
            (fun c => { c with prevAlloc := true })).blocks = s.blocks := by
          show ((setBlock s b.addr
            (fun c => { c with size := b.size, alloc := true })).blocks.map
            (fun x => if x.addr = r0.addr then { x with prevAlloc := true } else x)) = _
          rw [hsb, hdec]
          rw [show L ++ b :: r0 :: Rt = (L ++ [b]) ++ r0 :: Rt by simp]
          rw [map_update_decomp (L ++ [b]) Rt r0 _ ?_ ?_]
          · rw [hr0']
          · intro x hx
            have hbr0 : b.addr < r0.addr := by
              have := hrel0.1
              unfold DSIZE at hb32
              omega
            rcases List.mem_append.mp hx with hx | hx
            · have := hultL x hx
              omega
            · rw [(by simpa using hx : x = b)]
              show b.addr ≠ r0.addr
              omega
          · intro x hx
            have hstr := h.addr_strict
            rw [hdec] at hstr
            have h1 := (List.pairwise_append.mp hstr).2.1
            have h2 := (List.pairwise_cons.mp h1).2
            have := (List.pairwise_cons.mp h2).1 x hx
            omega
        exact inv_of_fields s _ h hupd2 rfl rfl rfl rfl rfl
  · next hgrow =>
    cases hnx : nextOf s.blocks b.addr with
    | none => exact hreloc b.size
    | some nb =>
    dsimp only
    split
    · next hnbf =>
      have hnbfree : nb.alloc = false := by simpa using hnbf
      have hhd : R.head? = some nb := hnext.symm.trans hnx
      obtain ⟨R2, hR2eq⟩ : ∃ R2, R = nb :: R2 := by
        cases hRc : R with
        | nil =>
          rw [hRc] at hhd
          simp at hhd
        | cons x xs =>
          rw [hRc] at hhd
          obtain rfl := (by simpa using hhd : x = nb)
          exact ⟨xs, rfl⟩
      subst hR2eq
      obtain ⟨hrel0, hchR0⟩ := List.chain'_cons.mp hchbR
      have hnbaddr : nb.addr = b.addr + b.size := hrel0.1
      have hnbmem : nb ∈ s.blocks := by rw [hdec]; simp
      have hnb32 : 2 * DSIZE ≤ nb.size := h.size_lb nb hnbmem
      have hnb8 : nb.size % 8 = 0 := h.size_align nb hnbmem
      have hnbub : nb.addr + nb.size ≤ s.heapHi := h.addr_ub nb hnbmem
      have hsum62 : b.size + nb.size ≤ 2 ^ 62 := by omega
      have hbszlt : b.size < asizeOf u := by omega
      split
      · next hcond =>
        have hlt : asizeOf u - b.size < nb.size := by
          by_contra hge
          push_neg at hge
          rw [w64sub_of_le _ _ (by omega) hge] at hcond
          omega
        have hstrict : asizeOf u < b.size + nb.size := by omega
        have hr3 : w64sub (nb.size + b.size) (asizeOf u)
            = nb.size + b.size - asizeOf u :=
          w64sub_of_le _ _ (by omega) (by omega)
        obtain ⟨h1inv, h1sub, h1nb⟩ := deleteB_inv s h nb.addr
        have hnotb1 : b.addr ∉ (deleteB s nb.addr).bins.join :=
          fun hx => hnotb (h1sub.mem hx)
        have hdec1 : (deleteB s nb.addr).blocks = L ++ [b, nb] ++ R2 := by
          rw [deleteB_blocks, hdec]
          simp
        have hint : b.addr + asizeOf u ∉ (deleteB s nb.addr).bins.join := by
          intro hx
          have h2 := (h.interior (L ++ [b]) R2 nb (by rw [hdec]; simp)
            (b.addr + asizeOf u) (by omega) (by omega)).2
          exact h2 (h1sub.mem hx)
        split
        · next hc3 =>
          -- absorb with split remainder
          rw [hr3] at hc3
          have hrep : ∀ uS : State, uS.blocks = s.blocks →
              replaceRun uS.blocks b.addr 2
                [(⟨b.addr, asizeOf u, true, b.prevAlloc⟩ : Block),
                 (⟨b.addr + asizeOf u, w64sub (nb.size + b.size) (asizeOf u), false,
                   true⟩ : Block)]
                = L ++ [(⟨b.addr, asizeOf u, true, b.prevAlloc⟩ : Block),
                    (⟨b.addr + asizeOf u, w64sub (nb.size + b.size) (asizeOf u), false,
                      true⟩ : Block)] ++ R2 := by
            intro uS hu3
            rw [hu3, hdec]
            have hx := replaceRun_decomp L (nb :: R2)
              [(⟨b.addr, asizeOf u, true, b.prevAlloc⟩ : Block),
               (⟨b.addr + asizeOf u, w64sub (nb.size + b.size) (asizeOf u), false,
                 true⟩ : Block)] b 2 hLne
            rw [hx]
            simp
          have key : ∀ (s2 : State),
              s2.blocks = L ++ [(⟨b.addr, asizeOf u, true, b.prevAlloc⟩ : Block),
                (⟨b.addr + asizeOf u, w64sub (nb.size + b.size) (asizeOf u), false,
                  true⟩ : Block)] ++ R2 →
              s2.bins = (deleteB s nb.addr).bins → s2.lo = s.lo → s2.hiMax = s.hiMax →
              s2.heapHi = s.heapHi →
              (L ++ [(⟨b.addr, asizeOf u, true, b.prevAlloc⟩ : Block),
                (⟨b.addr + asizeOf u, w64sub (nb.size + b.size) (asizeOf u), false,
                  true⟩ : Block)] ++ R2).getLast?.map Block.addr = some s2.tail →
              Inv (insertB s2 (b.addr + asizeOf u)) := by
            intro s2 e1 e2 e3 e4 e5 e6
            have hs2inv : Inv s2 := by
              refine (Inv.replace (deleteB s nb.addr) h1inv s2 L [b, nb]
                [(⟨b.addr, asizeOf u, true, b.prevAlloc⟩ : Block),
                 (⟨b.addr + asizeOf u, w64sub (nb.size + b.size) (asizeOf u), false,
                   true⟩ : Block)] R2 b.addr hdec1 e1
                (by rw [e2]) (by rw [e3]; rfl) (by rw [e4]; rfl) (by rw [e5]; rfl)
                (by simp) (by simp) (by simp) (by simp; rw [hr3]; omega) ?_ ?_ ?_ ?_
                e6).1
              · exact List.chain'_cons.mpr ⟨⟨rfl, rfl⟩, List.chain'_singleton _⟩
              · left
                simp [hnbfree]
              · intro x hx
                rcases (by simpa using hx :
                    x = (⟨b.addr, asizeOf u, true, b.prevAlloc⟩ : Block) ∨
                    x = (⟨b.addr + asizeOf u, w64sub (nb.size + b.size) (asizeOf u),
                      false, true⟩ : Block)) with heq | heq
                · rw [heq]
                  exact ⟨h32, h8⟩
                · rw [heq]
                  constructor
                  · show 2 * DSIZE ≤ w64sub (nb.size + b.size) (asizeOf u)
                    omega
                  · show w64sub (nb.size + b.size) (asizeOf u) % 8 = 0
                    rw [hr3]
                    omega
              · intro x hx
                rcases (by simpa using hx : x = b ∨ x = nb) with heq | heq
                · right
                  rw [heq]
                  exact hnotb1
                · right
                  rw [heq]
                  exact h1nb
            have hmmem : (⟨b.addr + asizeOf u, w64sub (nb.size + b.size) (asizeOf u),
                false, true⟩ : Block) ∈ s2.blocks := by
              rw [e1]
              simp
            have hm3 : b.addr + asizeOf u ∉ s2.bins.join := by
              rw [e2]
              exact hint
            exact (insertB_inv s2 hs2inv _ hmmem rfl hm3).1
          cases hR2c : R2 with
          | nil =>
            subst hR2c
            have hst : s.tail = nb.addr := by
              have hold := h.tail_eq
              rw [hdec] at hold
              rw [show L ++ b :: nb :: ([] : List Block) = (L ++ [b]) ++ [nb] by simp]
                at hold
              rw [List.getLast?_append] at hold
              simp at hold
              exact hold.symm
            split
            · next htl =>
              refine inv_of_fields _ _ (key { deleteB s nb.addr with
                  blocks := replaceRun (deleteB s nb.addr).blocks b.addr 2
                    [(⟨b.addr, asizeOf u, true, b.prevAlloc⟩ : Block),
                     (⟨b.addr + asizeOf u, w64sub (nb.size + b.size) (asizeOf u), false,
                       true⟩ : Block)],
                  tail := b.addr + asizeOf u } (hrep _ rfl) rfl rfl rfl rfl (by simp))
                rfl (insertB_state_congr _ _ _ rfl rfl) rfl rfl rfl rfl
            · next htl =>
              exfalso
              exact htl (show _ = nb.addr from hst.symm ▸ rfl)
          | cons r2 Rt2 =>
            subst hR2c
            have hstne : s.tail ≠ nb.addr := by
              have hold := h.tail_eq
              rw [hdec] at hold
              rw [show L ++ b :: nb :: r2 :: Rt2 = ((L ++ [b]) ++ [nb]) ++ r2 :: Rt2
                by simp] at hold
              obtain ⟨z, hz, hzm⟩ := getLast?_cons_ne_nil r2 Rt2
              rw [List.getLast?_append, hz] at hold
              have hzt : z.addr = s.tail := by simpa using hold
              have hstr := h.addr_strict
              rw [hdec] at hstr
              have h1 := (List.pairwise_append.mp hstr).2.1
              have h2 := (List.pairwise_cons.mp h1).2
              have := (List.pairwise_cons.mp h2).1 z hzm
              omega
            split
            · next htl =>
              exfalso
              exact hstne (htl : _ = nb.addr)
            · next htl =>
              refine key _ (hrep _ rfl) rfl rfl rfl rfl ?_
              show _ = some s.tail
              have hold := h.tail_eq
              rw [hdec] at hold
              rw [getLast?_over_append
                (L ++ [(⟨b.addr, asizeOf u, true, b.prevAlloc⟩ : Block),
                  (⟨b.addr + asizeOf u, w64sub (nb.size + b.size) (asizeOf u), false,
                    true⟩ : Block)])
                ((L ++ [b]) ++ [nb]) r2 Rt2]
              rw [show L ++ b :: nb :: r2 :: Rt2 = ((L ++ [b]) ++ [nb]) ++ r2 :: Rt2
                by simp] at hold
              exact hold
        · next hc3 =>
          -- absorb the whole successor
          obtain ⟨h1inv2, h1sub2, h1nb2⟩ := deleteB_inv s h nb.addr
          have hrep : ∀ uS : State, uS.blocks = s.blocks →
              replaceRun uS.blocks b.addr 2
                [(⟨b.addr, nb.size + b.size, true, b.prevAlloc⟩ : Block)]
                = L ++ [(⟨b.addr, nb.size + b.size, true, b.prevAlloc⟩ : Block)]
                  ++ R2 := by
            intro uS hu3
            rw [hu3, hdec]
            have hx := replaceRun_decomp L (nb :: R2)
              [(⟨b.addr, nb.size + b.size, true, b.prevAlloc⟩ : Block)] b 2 hLne
            rw [hx]
            simp
          have hnxm : nextOf (replaceRun (deleteB s nb.addr).blocks b.addr 2
              [(⟨b.addr, nb.size + b.size, true, b.prevAlloc⟩ : Block)]) b.addr
              = R2.head? := by
            rw [show replaceRun (deleteB s nb.addr).blocks b.addr 2
                [(⟨b.addr, nb.size + b.size, true, b.prevAlloc⟩ : Block)]
              = L ++ [(⟨b.addr, nb.size + b.size, true, b.prevAlloc⟩ : Block)] ++ R2
              from hrep (deleteB s nb.addr) rfl]
            rw [show L ++ [(⟨b.addr, nb.size + b.size, true, b.prevAlloc⟩ : Block)] ++ R2
              = L ++ (⟨b.addr, nb.size + b.size, true, b.prevAlloc⟩ : Block) :: R2
              by simp]
            exact nextOf_decomp L R2
              (⟨b.addr, nb.size + b.size, true, b.prevAlloc⟩ : Block) hLne
          cases hR2c : R2 with
          | nil =>
            subst hR2c
            have hnone : nextOf (replaceRun (deleteB s nb.addr).blocks b.addr 2
                [(⟨b.addr, nb.size + b.size, true, b.prevAlloc⟩ : Block)]) b.addr
                = none := by rw [hnxm]; rfl
            unfold updNextP
            rw [hnone]
            have hst : s.tail = nb.addr := by
              have hold := h.tail_eq
              rw [hdec] at hold
              rw [show L ++ b :: nb :: ([] : List Block) = (L ++ [b]) ++ [nb] by simp]
                at hold
              rw [List.getLast?_append] at hold
              simp at hold
              exact hold.symm
            split
            · next htl =>
              refine (Inv.replace (deleteB s nb.addr) h1inv2 _ L [b, nb]
                [(⟨b.addr, nb.size + b.size, true, b.prevAlloc⟩ : Block)] [] b.addr
                hdec1 ?_ ?_ ?_ ?_ ?_ (by simp) (by simp) (by simp) (by simp; omega)
                (by simp) (Or.inr rfl) ?_ ?_ ?_).1
              · show replaceRun (deleteB s nb.addr).blocks b.addr 2
                  [(⟨b.addr, nb.size + b.size, true, b.prevAlloc⟩ : Block)] = _
                rw [hrep (deleteB s nb.addr) rfl]
              · rfl
              · rfl
              · rfl
              · rfl
              · intro x hx
                rw [(by simpa using hx :
                  x = (⟨b.addr, nb.size + b.size, true, b.prevAlloc⟩ : Block))]
                constructor
                · show 2 * DSIZE ≤ nb.size + b.size
                  omega
                · show (nb.size + b.size) % 8 = 0
                  omega
              · intro x hx
                rcases (by simpa using hx : x = b ∨ x = nb) with heq | heq
                · right
                  rw [heq]
                  exact hnotb1
                · right
                  rw [heq]
                  exact h1nb2
              · show (L ++ [(⟨b.addr, nb.size + b.size, true, b.prevAlloc⟩ : Block)]
                  ++ ([] : List Block)).getLast?.map Block.addr = some b.addr
                simp
            · next htl =>
              exfalso
              exact htl (show _ = nb.addr from hst.symm ▸ rfl)
          | cons r2 Rt2 =>
            subst hR2c
            have hsome : nextOf (replaceRun (deleteB s nb.addr).blocks b.addr 2
                [(⟨b.addr, nb.size + b.size, true, b.prevAlloc⟩ : Block)]) b.addr
                = some r2 := by rw [hnxm]; rfl
            unfold updNextP
            rw [hsome]
            dsimp only
            have hr2mem : r2 ∈ s.blocks := by rw [hdec]; simp
            have hrelnb := List.chain'_cons.mp hchR0
            have hr2addr : r2.addr = nb.addr + nb.size := hrelnb.1.1
            have hstne : s.tail ≠ nb.addr := by
              have hold := h.tail_eq
              rw [hdec] at hold
              rw [show L ++ b :: nb :: r2 :: Rt2 = ((L ++ [b]) ++ [nb]) ++ r2 :: Rt2
                by simp] at hold
              obtain ⟨z, hz, hzm⟩ := getLast?_cons_ne_nil r2 Rt2
              rw [List.getLast?_append, hz] at hold
              have hzt : z.addr = s.tail := by simpa using hold
              have hstr := h.addr_strict
              rw [hdec] at hstr
              have h1 := (List.pairwise_append.mp hstr).2.1
              have h2 := (List.pairwise_cons.mp h1).2
              have := (List.pairwise_cons.mp h2).1 z hzm
              omega
            have hupd : (setBlock { deleteB s nb.addr with
                blocks := replaceRun (deleteB s nb.addr).blocks b.addr 2
                  [(⟨b.addr, nb.size + b.size, true, b.prevAlloc⟩ : Block)] } r2.addr
                (fun c => { c with prevAlloc := true })).blocks
                = L ++ [(⟨b.addr, nb.size + b.size, true, b.prevAlloc⟩ : Block),
                    { r2 with prevAlloc := true }] ++ Rt2 := by
              show ((replaceRun (deleteB s nb.addr).blocks b.addr 2
                [(⟨b.addr, nb.size + b.size, true, b.prevAlloc⟩ : Block)]).map
                (fun x => if x.addr = r2.addr then { x with prevAlloc := true } else x))
                = _
              rw [show (deleteB s nb.addr).blocks = s.blocks from rfl, hrep s rfl]
              rw [show L ++ [(⟨b.addr, nb.size + b.size, true, b.prevAlloc⟩ : Block)]
                  ++ r2 :: Rt2
                = (L ++ [(⟨b.addr, nb.size + b.size, true, b.prevAlloc⟩ : Block)])
                  ++ r2 :: Rt2 by simp]
              rw [map_update_decomp
                (L ++ [(⟨b.addr, nb.size + b.size, true, b.prevAlloc⟩ : Block)]) Rt2 r2 _
                ?_ ?_]
              · simp
              · intro x hx
                rcases List.mem_append.mp hx with hx | hx
                · have := hultL x hx
                  omega
                · rw [(by simpa using hx :
                    x = (⟨b.addr, nb.size + b.size, true, b.prevAlloc⟩ : Block))]
                  show b.addr ≠ r2.addr
                  omega
              · intro x hx
                have hstr := h.addr_strict
                rw [hdec] at hstr
                have h1 := (List.pairwise_append.mp hstr).2.1
                have h2 := (List.pairwise_cons.mp h1).2
                have h3 := (List.pairwise_cons.mp h2).2
                have := (List.pairwise_cons.mp h3).1 x hx
                omega
            split
            · next htl =>
              exfalso
              exact hstne (htl : _ = nb.addr)
            · next htl =>
              refine (Inv.replace (deleteB s nb.addr) h1inv2 _ L [b, nb, r2]
                [(⟨b.addr, nb.size + b.size, true, b.prevAlloc⟩ : Block),
                 { r2 with prevAlloc := true }] Rt2 b.addr
                (by rw [hdec1]; simp) hupd rfl rfl rfl rfl (by simp) (by simp) (by simp)
                (by simp; omega) ?_ ?_ ?_ ?_ ?_).1
              · refine List.chain'_cons.mpr ⟨⟨?_, rfl⟩, List.chain'_singleton _⟩
                show r2.addr = b.addr + (nb.size + b.size)
                omega
              · left
                simp
              · intro x hx
                rcases (by simpa using hx :
                    x = (⟨b.addr, nb.size + b.size, true, b.prevAlloc⟩ : Block) ∨
                    x = { r2 with prevAlloc := true }) with heq | heq
                · rw [heq]
                  constructor
                  · show 2 * DSIZE ≤ nb.size + b.size
                    omega
                  · show (nb.size + b.size) % 8 = 0
                    omega
                · rw [heq]
                  exact ⟨h.size_lb r2 hr2mem, h.size_align r2 hr2mem⟩
              · intro x hx
                rcases (by simpa using hx : x = b ∨ x = nb ∨ x = r2)
                  with heq | heq | heq
                · right
                  rw [heq]
                  exact hnotb1
                · right
                  rw [heq]
                  exact h1nb2
                · left
                  refine ⟨{ r2 with prevAlloc := true }, by simp, ?_, ?_, ?_⟩ <;>
                    rw [heq]
              · have hold := h.tail_eq
                rw [hdec] at hold
                show _ = some s.tail
                cases hRt2 : Rt2 with
                | nil =>
                  subst hRt2
                  rw [show L ++ b :: nb :: r2 :: ([] : List Block)
                    = ((L ++ [b]) ++ [nb]) ++ [r2] by simp] at hold
                  rw [List.getLast?_append] at hold
                  show (L ++ [(⟨b.addr, nb.size + b.size, true, b.prevAlloc⟩ : Block),
                    { r2 with prevAlloc := true }] ++ ([] : List Block)).getLast?.map
                    Block.addr = _
                  simp at hold ⊢
                  exact hold
                | cons r3 Rt3 =>
                  subst hRt2
                  rw [getLast?_over_append
                    (L ++ [(⟨b.addr, nb.size + b.size, true, b.prevAlloc⟩ : Block),
                      { r2 with prevAlloc := true }])
                    (((L ++ [b]) ++ [nb]) ++ [r2]) r3 Rt3]
                  rw [show L ++ b :: nb :: r2 :: r3 :: Rt3
                    = (((L ++ [b]) ++ [nb]) ++ [r2]) ++ r3 :: Rt3 by simp] at hold
                  exact hold
      · next hcond => exact hreloc b.size
    · next hnbf => exact hreloc b.size

end ReallocPreservation

section CallocInit

/-- `calloc(n, s)` preserves the invariant and coalescing completeness when
it returns (the model refuses the null-`memset` crash, cf. C9). -/
theorem callocB_inv (s : State) (h : Inv s) (n usz : Nat)
    (hn : n * usz ≤ U64 - 2 * WSIZE) (r : Option Nat × State)
    (hc : callocB s n usz = some r) :
    Inv r.2 ∧ (NoAdjFree s → NoAdjFree r.2) := by
  unfold callocB at hc
  dsimp only at hc
  have hb : n * usz % U64 = n * usz := Nat.mod_eq_of_lt
    (by unfold U64 WSIZE at hn; unfold U64; omega)
  rw [hb] at hc
  obtain ⟨hinv, hnadj⟩ := mallocB_inv s h (n * usz) hn
  cases hmal : mallocB s (n * usz) with
  | mk o s1 =>
    rw [hmal] at hc hinv hnadj
    cases o with
    | some p =>
      dsimp only at hc
      obtain rfl := Option.some.inj hc
      refine ⟨inv_of_fields s1 _ hinv rfl rfl rfl rfl rfl rfl, ?_⟩
      intro hn2
      have hx := hnadj hn2
      unfold NoAdjFree at hx ⊢
      exact hx
    | none =>
      dsimp only at hc
      split at hc
      · obtain rfl := Option.some.inj hc
        exact ⟨hinv, hnadj⟩
      · exact absurd hc (by simp)

theorem getD_replicate_nil (n i : Nat) :
    (List.replicate n ([] : List Nat)).getD i [] = [] := by
  induction n generalizing i with
  | zero => simp
  | succ m ih =>
    cases i with
    | zero => rfl
    | succ j => simpa [List.replicate_succ] using ih j

theorem join_replicate_nil (n : Nat) : (List.replicate n ([] : List Nat)).join = [] := by
  induction n with
  | zero => rfl
  | succ m ih => simpa [List.replicate_succ] using ih

/-- A successful `mm_init` (with its initial 256-byte extension) yields an
invariant, fully coalesced state. -/
theorem mkInit_inv (lo cap : Nat) (s : State) (h8 : lo % 8 = 0) (hpos : 0 < lo)
    (hcap : cap ≤ 2 ^ 62) (he : mkInit lo cap = some s) : Inv s ∧ NoAdjFree s := by
  unfold mkInit at he
  dsimp only at he
  cases hm1 : memSbrk ({ lo := lo, hiMax := cap, heapHi := lo, tail := lo + DSIZE, blocks := [], bins := List.replicate BIN [], mem := fun _ => 0 } : State) (4 * WSIZE) with
  | none =>
    rw [hm1] at he
    exact absurd he (by simp)
  | some pr1 =>
    obtain ⟨r1, s1⟩ := pr1
    rw [hm1] at he
    dsimp only at he
    obtain ⟨-, hbl1, hbi1, ht1, hl1, hM1, -, hh1, -⟩ := memSbrk_some _ _ _ _ hm1
    have hbl1e : s1.blocks = [] := hbl1
    have hbi1e : s1.bins = List.replicate BIN [] := hbi1
    have hl1e : s1.lo = lo := hl1
    have hM1e : s1.hiMax = cap := hM1
    have hh1e : s1.heapHi = lo + 4 * WSIZE := hh1
    cases hm2 : extendHeapB s1 (CHUNKSIZE / WSIZE) with
    | none =>
      rw [hm2] at he
      exact absurd he (by simp)
    | some pr2 =>
      obtain ⟨r2, s2⟩ := pr2
      rw [hm2] at he
      dsimp only at he
      obtain rfl := Option.some.inj he
      unfold extendHeapB at hm2
      dsimp only at hm2
      rw [show (if (CHUNKSIZE / WSIZE) % 2 == 1 then CHUNKSIZE / WSIZE + 1
        else CHUNKSIZE / WSIZE) * WSIZE = 256 from by decide] at hm2
      cases hm3 : memSbrk s1 256 with
      | none =>
        rw [hm3] at hm2
        exact absurd hm2 (by simp)
      | some pr3 =>
        obtain ⟨bp, sm⟩ := pr3
        rw [hm3] at hm2
        dsimp only at hm2
        obtain ⟨-, hbl3, hbi3, -, hl3, hM3, hbp3, hh3, hc3⟩ := memSbrk_some _ _ _ _ hm3
        have hco := Option.some.inj hm2
        have hs2 : s2 = (coalesceB { sm with
            blocks := sm.blocks ++ [⟨bp, 256, false, allocOfTail sm⟩],
            tail := bp } bp).2 := by rw [hco]
        have hsmbl : sm.blocks = [] := hbl3.trans hbl1e
        have hat : allocOfTail sm = true := by
          unfold allocOfTail findBlock
          rw [hsmbl]
          rfl
        have hinvX : Inv { sm with
            blocks := sm.blocks ++ [⟨bp, 256, false, allocOfTail sm⟩],
            tail := bp } := by
          refine ⟨?_, ?_, ?_, ?_, ?_, ?_, ?_, ?_, ?_, ?_, ?_, ?_, ?_, ?_, ?_⟩
          · show 0 < sm.lo
            rw [hl3, hl1e]
            exact hpos
          · show sm.lo % 8 = 0
            rw [hl3, hl1e]
            exact h8
          · show sm.hiMax ≤ 2 ^ 62
            rw [hM3, hM1e]
            exact hcap
          · show sm.heapHi ≤ sm.hiMax
            rw [hh3, hM3]
            exact hc3
          · show (sm.blocks ++ [(⟨bp, 256, false, allocOfTail sm⟩ : Block)]).head?.map
              Block.addr = some (sm.lo + 4 * WSIZE)
            rw [hsmbl, hl3, hl1e]
            have hbpe : bp = lo + 4 * WSIZE := by
              rw [hbp3, hh1e]
            simp [hbpe]
          · intro x hx
            show x.prevAlloc = true
            rw [show ({ sm with blocks := sm.blocks ++ [⟨bp, 256, false, allocOfTail sm⟩], tail := bp } : State).blocks = sm.blocks ++ _ from rfl, hsmbl] at hx
            obtain rfl := (by simpa using hx :
              (⟨bp, 256, false, allocOfTail sm⟩ : Block) = x)
            show allocOfTail sm = true
            exact hat
          · show List.Chain' blockRel (sm.blocks ++ _)
            rw [hsmbl]
            simp
          · intro x hx
            rw [show ({ sm with blocks := sm.blocks ++ [⟨bp, 256, false, allocOfTail sm⟩], tail := bp } : State).blocks = sm.blocks ++ _ from rfl, hsmbl] at hx
            obtain rfl := (by simpa using hx :
              x = (⟨bp, 256, false, allocOfTail sm⟩ : Block))
            show 2 * DSIZE ≤ 256
            decide
          · intro x hx
            rw [show ({ sm with blocks := sm.blocks ++ [⟨bp, 256, false, allocOfTail sm⟩], tail := bp } : State).blocks = sm.blocks ++ _ from rfl, hsmbl] at hx
            obtain rfl := (by simpa using hx :
              x = (⟨bp, 256, false, allocOfTail sm⟩ : Block))
            show (256 : Nat) % 8 = 0
            decide
          · show (sm.blocks ++ [(⟨bp, 256, false, allocOfTail sm⟩ : Block)]).getLast?.map
              (fun b => b.addr + b.size) = some sm.heapHi
            rw [hsmbl]
            have hbpe : bp + 256 = sm.heapHi := by
              rw [hbp3, hh3]
            simp [hbpe]
          · show (sm.blocks ++ [(⟨bp, 256, false, allocOfTail sm⟩ : Block)]).getLast?.map
              Block.addr = some bp
            rw [hsmbl]
            simp
          · show sm.bins.length = BIN
            rw [hbi3, hbi1e]
            simp
          · intro i hi a ha
            rw [show ({ sm with blocks := sm.blocks ++ [⟨bp, 256, false, allocOfTail sm⟩], tail := bp } : State).bins = sm.bins from rfl, hbi3, hbi1e,
              getD_replicate_nil] at ha
            simp at ha
          · intro i hi
            rw [show ({ sm with blocks := sm.blocks ++ [⟨bp, 256, false, allocOfTail sm⟩], tail := bp } : State).bins = sm.bins from rfl, hbi3, hbi1e,
              getD_replicate_nil]
            simp
          · show sm.bins.join.Nodup
            rw [hbi3, hbi1e, join_replicate_nil]
            simp
        have hfbX : findBlock { sm with
            blocks := sm.blocks ++ [⟨bp, 256, false, allocOfTail sm⟩],
            tail := bp } bp = some (⟨bp, 256, false, allocOfTail sm⟩ : Block) := by
          unfold findBlock
          show (sm.blocks ++ _).find? _ = _
          rw [hsmbl]
          simp
        have hnotX : bp ∉ ({ sm with
            blocks := sm.blocks ++ [⟨bp, 256, false, allocOfTail sm⟩],
            tail := bp } : State).bins.join := by
          show bp ∉ sm.bins.join
          rw [hbi3, hbi1e, join_replicate_nil]
          simp
        constructor
        · rw [hs2]
          exact (coalesceB_inv _ hinvX (⟨bp, 256, false, allocOfTail sm⟩ : Block)
            hfbX rfl hnotX).1
        · rw [hs2]
          refine coalesceB_noadj _ hinvX (⟨bp, 256, false, allocOfTail sm⟩ : Block)
            hfbX rfl ?_
          show List.Chain' _ (sm.blocks ++ _)
          rw [hsmbl]
          simp

end CallocInit

section Reach

/-- A `free`/`realloc` pointer argument with defined behaviour: null,
rejected by the raw guards, or the payload address of a heap block. -/
def ValidPtr (s : State) (p : Nat) : Prop :=
  p = 0 ∨ inHeapB s p = false ∨ alignedB p = false ∨ ∃ b ∈ s.blocks, b.addr = p

/-- A `realloc` pointer argument with defined behaviour: as `ValidPtr`, but
a genuine block must be allocated (reallocating a free block corrupts the
free lists in the C code). -/
def ValidReallocPtr (s : State) (p : Nat) : Prop :=
  p = 0 ∨ inHeapB s p = false ∨ alignedB p = false ∨
    ∃ b ∈ s.blocks, b.addr = p ∧ b.alloc = true

/-- The states reachable through the public interface from a fresh 8-aligned
region, restricted to calls whose behaviour is defined in the C code:
allocation requests small enough not to wrap the rounding (cf. C10),
reallocation requests additionally below `2^63` (the signed absorption test
misbehaves beyond, writing a header far outside the heap), pointer
arguments that are null, guard-rejected, or genuine payloads, and `calloc`
calls that do not crash in `memset` (cf. C9). -/
inductive Reachable : State → Prop where
  | init (lo cap : Nat) (s : State) : lo % 8 = 0 → 0 < lo → cap ≤ 2 ^ 62 →
      mkInit lo cap = some s → Reachable s
  | malloc (s : State) (u : Nat) : Reachable s → u ≤ U64 - 2 * WSIZE →
      Reachable (mallocB s u).2
  | free (s : State) (p : Nat) : Reachable s → ValidPtr s p → Reachable (freeB s p)
  | realloc (s : State) (p u : Nat) : Reachable s → u ≤ U64 - 2 * WSIZE →
      asizeOf u < 2 ^ 63 → ValidReallocPtr s p → Reachable (reallocB s p u).2
  | calloc (s : State) (n usz : Nat) (r : Option Nat × State) : Reachable s →
      n * usz ≤ U64 - 2 * WSIZE → callocB s n usz = some r → Reachable r.2

/-- The states reachable without using `realloc` (which can break
coalescing completeness, cf. C2). -/
inductive ReachableNF : State → Prop where
  | init (lo cap : Nat) (s : State) : lo % 8 = 0 → 0 < lo → cap ≤ 2 ^ 62 →
      mkInit lo cap = some s → ReachableNF s
  | malloc (s : State) (u : Nat) : ReachableNF s → u ≤ U64 - 2 * WSIZE →
      ReachableNF (mallocB s u).2
  | free (s : State) (p : Nat) : ReachableNF s → ValidPtr s p →
      ReachableNF (freeB s p)
  | calloc (s : State) (n usz : Nat) (r : Option Nat × State) : ReachableNF s →
      n * usz ≤ U64 - 2 * WSIZE → callocB s n usz = some r → ReachableNF r.2

/-- With the invariant, a valid `realloc` pointer looked up successfully
names an allocated block. -/
theorem validReallocPtr_lookup (s : State) (h : Inv s) (p : Nat)
    (hv : ValidReallocPtr s p) : ∀ b, findBlock s p = some b → b.alloc = true := by
  intro b hfb
  obtain ⟨hbmem, hbaddr⟩ := findBlock_mem s p b hfb
  rcases hv with h0 | h0 | h0 | ⟨c, hcmem, hca, hcal⟩
  · exfalso
    subst h0
    have h1 := h.addr_lb b hbmem
    have h2 := h.lo_pos
    unfold WSIZE at h1
    omega
  · exfalso
    have h1 := h.addr_lb b hbmem
    have h2 := h.addr_ub b hbmem
    have h3 := h.size_lb b hbmem
    unfold inHeapB memHeapHi at h0
    rw [Bool.and_eq_false_iff] at h0
    rcases h0 with h0 | h0 <;> rw [decide_eq_false_iff_not] at h0 <;>
      unfold WSIZE DSIZE at * <;> omega
  · exfalso
    have h1 := h.addr_align b hbmem
    have h2 := (alignedB_iff p).mpr (by omega)
    rw [h0] at h2
    simp at h2
  · have he := h.addr_inj b c hbmem hcmem (by rw [hbaddr, hca])
    rw [he]
    exact hcal

/-- Every reachable state satisfies the representation invariant. -/
theorem inv_reachable (s : State) (h : Reachable s) : Inv s := by
  induction h with
  | init lo cap s h8 hpos hcap he => exact (mkInit_inv lo cap s h8 hpos hcap he).1
  | malloc s u hr hu ih => exact (mallocB_inv s ih u hu).1
  | free s p hr hv ih => exact (freeB_inv s ih p).1
  | realloc s p u hr hu hs hv ih =>
    exact reallocB_inv s ih p u hu hs (validReallocPtr_lookup s ih p hv)
  | calloc s n usz r hr hn hc ih => exact (callocB_inv s ih n usz hn r hc).1

/-- Every realloc-free reachable state satisfies the invariant and is fully
coalesced. -/
theorem reachableNF_inv (s : State) (h : ReachableNF s) : Inv s ∧ NoAdjFree s := by
  induction h with
  | init lo cap s h8 hpos hcap he => exact mkInit_inv lo cap s h8 hpos hcap he
  | malloc s u hr hu ih =>
    exact ⟨(mallocB_inv s ih.1 u hu).1, (mallocB_inv s ih.1 u hu).2 ih.2⟩
  | free s p hr hv ih =>
    exact ⟨(freeB_inv s ih.1 p).1, (freeB_inv s ih.1 p).2 ih.2⟩
  | calloc s n usz r hr hn hc ih =>
    exact ⟨(callocB_inv s ih.1 n usz hn r hc).1,
      (callocB_inv s ih.1 n usz hn r hc).2 ih.2⟩

end Reach

section BinRange

theorem binLoop_bounds (fuel size : Nat) :
    (0 < binLoop fuel size → (MSIZE + 1) * 2 ^ (binLoop fuel size - 1) ≤ size) ∧
    (binLoop fuel size < fuel → size < (MSIZE + 1) * 2 ^ binLoop fuel size) := by
  induction fuel generalizing size with
  | zero =>
    exact ⟨fun h => absurd h (by simp [binLoop]), fun h => absurd h (by simp [binLoop])⟩
  | succ f ih =>
    rw [binLoop]
    by_cases hs : MSIZE < size
    · rw [if_pos hs]
      obtain ⟨ih1, ih2⟩ := ih (size / 2)
      constructor
      · intro _
        rw [Nat.add_sub_cancel_left]
        cases hk : binLoop f (size / 2) with
        | zero =>
          simp only [pow_zero, Nat.mul_one]
          omega
        | succ k =>
          rw [hk] at ih1
          have h1 := ih1 (by omega)
          rw [Nat.succ_sub_one] at h1
          rw [pow_succ]
          unfold MSIZE at h1 ⊢
          omega
      · intro hlt
        have h2 := ih2 (by omega)
        rw [pow_add, pow_one]
        unfold MSIZE at h2 ⊢
        omega
    · rw [if_neg hs]
      refine ⟨fun h => absurd h (by omega), fun _ => ?_⟩
      simp only [pow_zero, Nat.mul_one]
      omega

/-- The size range of a power-of-two bin, read off the halving loop: a size
whose bin index is `i ≥ 29` is above `(MSIZE+1)·2^(i-29)` (inclusive), and
below `(MSIZE+1)·2^(i-28)` (exclusive) unless `i` is the last bin. -/
theorem binIndex_range (size i : Nat) (h : binIndex size = i) (h29 : 29 ≤ i) :
    (MSIZE + 1) * 2 ^ (i - 29) ≤ size ∧
      (i < BIN - 1 → size < (MSIZE + 1) * 2 ^ (i - 28)) := by
  by_cases hle : size ≤ MSIZE
  · exfalso
    rw [binIndex_small size hle] at h
    unfold MSIZE DSIZE WSIZE at *
    omega
  · rw [binIndex_big size (by omega)] at h
    obtain ⟨h1, h2⟩ := binLoop_bounds 7 size
    have hk : binLoop 7 size = i - 28 := by omega
    rw [hk] at h1 h2
    constructor
    · have h3 := h1 (by omega)
      have he : i - 28 - 1 = i - 29 := by omega
      rwa [he] at h3
    · intro hi
      exact h2 (by unfold BIN at hi; omega)

end BinRange

section ReallocShape


theorem reallocRelocate_facts (s : State) (p sz osz q : Nat) (s1 : State)
    (hr1 : (reallocRelocate s p sz osz).1 = some q)
    (hr2 : (reallocRelocate s p sz osz).2 = s1) :
    (mallocB s sz).1 = some q ∧ s1.mem = memcpyB s.mem q p osz := by
  unfold reallocRelocate at hr1 hr2
  cases hm : mallocB s sz with
  | mk o s0 =>
    rw [hm] at hr1 hr2
    cases o with
    | none => simp at hr1
    | some np =>
      dsimp only at hr1 hr2
      have hnp : np = q := by simpa using hr1
      subst hnp
      have hm0 : s0.mem = s.mem := by
        have hx := mallocB_mem s sz
        rw [hm] at hx
        exact hx
      refine ⟨rfl, ?_⟩
      rw [← hr2]
      show (freeB { s0 with mem := memcpyB s0.mem np p osz } p).mem = memcpyB s.mem np p osz
      rw [freeB_mem]
      show memcpyB s0.mem np p osz = memcpyB s.mem np p osz
      rw [hm0]

/-- The three ways `realloc` can return a non-null pointer: the null-pointer
`malloc` delegation, an in-place return of `oldptr` (memory untouched), or
the relocation fallback (a `malloc` result, with `oldsize` bytes copied from
the old payload). -/
theorem reallocB_some_shape (s : State) (p u q : Nat) (s1 : State)
    (hr : reallocB s p u = (some q, s1)) :
    (p = 0 ∧ mallocB s u = (some q, s1)) ∨
    (q = p ∧ alignedB p = true ∧ s1.mem = s.mem) ∨
    (∃ b, findBlock s p = some b ∧ alignedB p = true ∧
      (mallocB s (asizeOf u)).1 = some q ∧ s1.mem = memcpyB s.mem q p b.size) := by
  have hr1 : (reallocB s p u).1 = some q := by rw [hr]
  have hr2 : (reallocB s p u).2 = s1 := by rw [hr]
  clear hr
  unfold reallocB at hr1 hr2
  by_cases hu0 : u = 0
  · rw [if_pos (by simp [hu0])] at hr1
    simp at hr1
  rw [if_neg (by simp [hu0])] at hr1 hr2
  by_cases hp0 : p = 0
  · rw [if_pos (by simp [hp0])] at hr1 hr2
    left
    refine ⟨hp0, ?_⟩
    rw [← hr1, ← hr2]
  rw [if_neg (by simp [hp0])] at hr1 hr2
  by_cases hal : alignedB p = true
  case neg =>
    have hfa : alignedB p = false := by revert hal; cases alignedB p <;> simp
    rw [if_pos (by rw [hfa]; rfl)] at hr1
    simp at hr1
  rw [if_neg (by rw [hal]; simp)] at hr1 hr2
  by_cases hin : inHeapB s p = true
  case neg =>
    have hfi : inHeapB s p = false := by revert hin; cases inHeapB s p <;> simp
    rw [if_pos (by rw [hfi]; rfl)] at hr1
    simp at hr1
  rw [if_neg (by rw [hin]; simp)] at hr1 hr2
  dsimp only at hr1 hr2
  cases hfb : findBlock s p with
  | none =>
    rw [hfb] at hr1
    simp at hr1
  | some b =>
    rw [hfb] at hr1 hr2
    dsimp only at hr1 hr2
    by_cases hsz : asizeOf u ≤ b.size
    · rw [if_pos hsz] at hr1 hr2
      right; left
      by_cases hrem : b.size - asizeOf u ≥ 2 * DSIZE
      · rw [if_pos hrem] at hr1 hr2
        refine ⟨by simp at hr1; omega, hal, ?_⟩
        rw [← hr2]
        split
        · dsimp only
          rw [insertB_mem, updNextP_mem]
        · dsimp only
          rw [insertB_mem, updNextP_mem]
      · rw [if_neg hrem] at hr1 hr2
        refine ⟨by simp at hr1; omega, hal, ?_⟩
        rw [← hr2]
        dsimp only
        rw [updNextP_mem, setBlock_mem]
    · rw [if_neg hsz] at hr1 hr2
      cases hnx : nextOf s.blocks p with
      | none =>
        rw [hnx] at hr1 hr2
        obtain ⟨h1, h2⟩ := reallocRelocate_facts s p (asizeOf u) b.size q s1 hr1 hr2
        exact Or.inr (Or.inr ⟨b, rfl, hal, h1, h2⟩)
      | some nb =>
        rw [hnx] at hr1 hr2
        dsimp only at hr1 hr2
        by_cases hnba : nb.alloc = true
        · rw [if_neg (by rw [hnba]; simp)] at hr1 hr2
          obtain ⟨h1, h2⟩ := reallocRelocate_facts s p (asizeOf u) b.size q s1 hr1 hr2
          exact Or.inr (Or.inr ⟨b, rfl, hal, h1, h2⟩)
        · have hnbf : nb.alloc = false := by revert hnba; cases nb.alloc <;> simp
          rw [if_pos (by rw [hnbf]; rfl)] at hr1 hr2
          by_cases hw : 2 ^ 63 ≤ w64sub (asizeOf u - b.size) nb.size
          · rw [if_pos hw] at hr1 hr2
            right; left
            by_cases hrem3 : w64sub (nb.size + b.size) (asizeOf u) ≥ 2 * DSIZE
            · rw [if_pos hrem3] at hr1 hr2
              refine ⟨by simp at hr1; omega, hal, ?_⟩
              rw [← hr2]
              split
              · dsimp only
                rw [insertB_mem, deleteB_mem]
              · dsimp only
                rw [insertB_mem, deleteB_mem]
            · rw [if_neg hrem3] at hr1 hr2
              refine ⟨by simp at hr1; omega, hal, ?_⟩
              rw [← hr2]
              split
              · dsimp only
                rw [updNextP_mem, deleteB_mem]
              · dsimp only
                rw [updNextP_mem, deleteB_mem]
          · rw [if_neg hw] at hr1 hr2
            obtain ⟨h1, h2⟩ := reallocRelocate_facts s p (asizeOf u) b.size q s1 hr1 hr2
            exact Or.inr (Or.inr ⟨b, rfl, hal, h1, h2⟩)

end ReallocShape

section AlignmentHelpers

/-- A non-null pointer returned by `realloc` is 8-aligned: it is either the
guard-checked old pointer or a `malloc` result. -/
theorem reallocB_some_aligned (s : State) (h : Inv s) (p u q : Nat)
    (hq : (reallocB s p u).1 = some q) : q % 8 = 0 := by
  have hr : reallocB s p u = (some q, (reallocB s p u).2) := by rw [← hq]
  rcases reallocB_some_shape s p u q (reallocB s p u).2 hr with
    ⟨-, hm⟩ | ⟨rfl, hal, -⟩ | ⟨b, -, -, hm, -⟩
  · exact mallocB_some_aligned s h u q (by rw [hm])
  · exact (alignedB_iff _).mp hal
  · exact mallocB_some_aligned s h (asizeOf u) q hm

/-- A pointer returned by `calloc` is a `malloc` result, hence 8-aligned. -/
theorem callocB_some_aligned (s : State) (h : Inv s) (n usz : Nat)
    (r : Option Nat × State) (q : Nat) (hc : callocB s n usz = some r)
    (hq : r.1 = some q) : q % 8 = 0 := by
  unfold callocB at hc
  dsimp only at hc
  cases hm : mallocB s (n * usz % U64) with
  | mk o s0 =>
    rw [hm] at hc
    cases o with
    | some np =>
      dsimp only at hc
      obtain rfl := Option.some.inj hc
      obtain rfl := (by simpa using hq : np = q)
      exact mallocB_some_aligned s h (n * usz % U64) np (by rw [hm])
    | none =>
      dsimp only at hc
      split at hc
      · obtain rfl := Option.some.inj hc
        simp at hq
      · exact absurd hc (by simp)

end AlignmentHelpers

section Claims

/-- Executable check of coalescing completeness over the block list. -/
def noAdjFreeB : List Block → Bool
  | [] => true
  | [_] => true
  | a :: b :: t => (a.alloc || b.alloc) && noAdjFreeB (b :: t)

theorem noAdjFreeB_iff (l : List Block) :
    List.Chain' (fun a b : Block => a.alloc = true ∨ b.alloc = true) l ↔
      noAdjFreeB l = true := by
  induction l with
  | nil => simp [noAdjFreeB]
  | cons a t ih =>
    cases t with
    | nil => simp [noAdjFreeB]
    | cons b t2 => simp [noAdjFreeB, List.chain'_cons, ← ih]

instance noAdjFreeDecidable (s : State) : Decidable (NoAdjFree s) :=
  decidable_of_iff (noAdjFreeB s.blocks = true) (noAdjFreeB_iff s.blocks).symm

/-- C1: every pointer returned by a successful malloc, realloc or calloc
call on a reachable allocator state has an address that is a multiple
of 8. -/
theorem c1_alignment (s : State) (h : Reachable s) :
    (∀ u p, (mallocB s u).1 = some p → p % 8 = 0) ∧
    (∀ p u q, (reallocB s p u).1 = some q → q % 8 = 0) ∧
    (∀ n usz r q, callocB s n usz = some r → r.1 = some q → q % 8 = 0) := by
  have hinv := inv_reachable s h
  exact ⟨fun u p hp => mallocB_some_aligned s hinv u p hp,
    fun p u q hq => reallocB_some_aligned s hinv p u q hq,
    fun n usz r q hc hq => callocB_some_aligned s hinv n usz r q hc hq⟩

theorem c1_alignment_witness :
    (mallocB initS 24).1 = some 40 ∧ (40 : Nat) % 8 = 0 :=
  ⟨by decide, (c1_alignment initS
    (Reachable.init 8 4200 initS (by decide) (by decide) (by decide) rfl)).1
    24 40 (by decide)⟩

/-- C2 (counterexample): the claim fails for `realloc`.  The shrink-split
path of `realloc` inserts the split-off remainder into its bin without
coalescing it with the following block, so the reachable call sequence
`init`, `malloc 56`, `malloc 24`, `free 104`, `realloc 40 8` ends with the
free blocks at 72 and 104 physically adjacent. -/
theorem c2_counterexample :
    Reachable (reallocB (freeB (mallocB (mallocB initS 56).2 24).2 104) 40 8).2 ∧
    ¬ NoAdjFree (reallocB (freeB (mallocB (mallocB initS 56).2 24).2 104) 40 8).2 := by
  constructor
  · refine Reachable.realloc _ 40 8 ?_ (by decide) (by decide) ?_
    · refine Reachable.free _ 104 ?_ ?_
      · exact Reachable.malloc _ 24 (Reachable.malloc _ 56
          (Reachable.init 8 4200 initS (by decide) (by decide) (by decide) rfl)
          (by decide)) (by decide)
      · exact Or.inr (Or.inr (Or.inr ⟨⟨104, 32, true, true⟩, by decide, rfl⟩))
    · exact Or.inr (Or.inr (Or.inr ⟨⟨40, 64, true, true⟩, by decide, rfl, rfl⟩))
  · decide

/-- C2 (amended): after every public call other than `realloc` (init,
malloc, free, calloc), no two physically adjacent blocks are both free. -/
theorem c2_coalescing_amended (s : State) (h : ReachableNF s) : NoAdjFree s :=
  (reachableNF_inv s h).2

theorem c2_coalescing_amended_witness : NoAdjFree initS :=
  c2_coalescing_amended initS
    (ReachableNF.init 8 4200 initS (by decide) (by decide) (by decide) rfl)

/-- C4: a successful `realloc(p, u)` of an allocated block preserves the
first `min(u, old payload size)` payload bytes: in place trivially, and
through the `memcpy` of the relocation fallback. -/
theorem c4_copy_preservation (s : State) (h : Inv s) (p u : Nat) (b : Block)
    (hfb : findBlock s p = some b) (hal : b.alloc = true) (q : Nat) (s1 : State)
    (hr : reallocB s p u = (some q, s1)) (i : Nat)
    (hi : i < min u (b.size - WSIZE)) : s1.mem (q + i) = s.mem (p + i) := by
  obtain ⟨hbm, hba⟩ := findBlock_mem s p b hfb
  rcases reallocB_some_shape s p u q s1 hr with
    ⟨hp0, -⟩ | ⟨rfl, -, hmem⟩ | ⟨b2, hfb2, -, -, hmem⟩
  · exfalso
    have h1 := h.addr_lb b hbm
    have h2 := h.lo_pos
    rw [hba, hp0] at h1
    unfold WSIZE at h1
    omega
  · rw [hmem]
  · rw [hfb] at hfb2
    obtain rfl := Option.some.inj hfb2
    have hsl := h.size_lb b hbm
    have hib : i < b.size := by unfold WSIZE DSIZE at *; omega
    rw [hmem]
    unfold memcpyB
    rw [if_pos ⟨Nat.le_add_right q i, by omega⟩]
    congr 1
    omega

theorem c4_copy_preservation_witness :
    (reallocB (mallocB initS 24).2 40 8).2.mem (40 + 3) =
      (mallocB initS 24).2.mem (40 + 3) :=
  c4_copy_preservation (mallocB initS 24).2
    (inv_reachable _ (Reachable.malloc initS 24
      (Reachable.init 8 4200 initS (by decide) (by decide) (by decide) rfl)
      (by decide)))
    40 8 ⟨40, 32, true, true⟩ (by decide) rfl 40 (reallocB (mallocB initS 24).2 40 8).2
    (by rw [← (show (reallocB (mallocB initS 24).2 40 8).1 = some 40 by decide)])
    3 (by decide)

/-- C5 (counterexample): the claim fails in the equality case.  The code
grows in place only when `o + next.size` strictly exceeds the rounded size
`a` (its test is `(signed long)(a - o - next.size) < 0`): after
`malloc 24` on a fresh heap the block at 40 has `o = 32` and a free
successor of size 224, and `realloc(40, 248)` with `a = 256 = o + next.size`
relocates to 72 instead of absorbing the successor and returning 40. -/
theorem c5_counterexample :
    nextOf (mallocB initS 24).2.blocks 40 = some ⟨72, 224, false, true⟩ ∧
    sizeAt (mallocB initS 24).2 40 + 224 = asizeOf 248 ∧
    sizeAt (mallocB initS 24).2 40 < asizeOf 248 ∧
    (reallocB (mallocB initS 24).2 40 248).1 = some 72 ∧
    (reallocB (mallocB initS 24).2 40 248).1 ≠ some 40 :=
  ⟨by decide, by decide, by decide, by decide, by decide⟩

/-- C5 (amended): when the rounded size `a` exceeds the current block size
`o`, the immediately following block is free and `o + next.size` is
STRICTLY greater than `a`, `realloc` absorbs the successor in place and
returns `p` itself. -/
theorem c5_inplace_grow_amended (s : State) (h : Inv s) (p u : Nat) (b nb : Block)
    (hu0 : u ≠ 0) (hfb : findBlock s p = some b) (hnx : nextOf s.blocks p = some nb)
    (hnbf : nb.alloc = false) (hgrow : b.size < asizeOf u)
    (habs : asizeOf u < b.size + nb.size) :
    (reallocB s p u).1 = some p := by
  obtain ⟨hbm, hba⟩ := findBlock_mem s p b hfb
  have hp0 : p ≠ 0 := by
    have h1 := h.addr_lb b hbm
    have h2 := h.lo_pos
    unfold WSIZE at h1
    omega
  have hal : alignedB p = true := by
    rw [← hba]
    exact (alignedB_iff b.addr).mpr (h.addr_align b hbm)
  have hin : inHeapB s p = true := by
    unfold inHeapB memHeapHi
    have h1 := h.addr_lb b hbm
    have h2 := h.addr_ub b hbm
    have h3 := h.size_lb b hbm
    have h4 := h.lo_pos
    simp only [Bool.and_eq_true, decide_eq_true_eq]
    unfold WSIZE DSIZE at *
    omega
  have hnbm : nb ∈ s.blocks := by
    obtain ⟨L, R, hdec, hba2, hL⟩ := findBlock_decomp s p b hfb
    have hnx2 : nextOf (L ++ b :: R) b.addr = R.head? :=
      nextOf_decomp L R b (fun x hx => by rw [hba2]; exact hL x hx)
    rw [hdec, ← hba2] at hnx
    rw [hnx2] at hnx
    cases R with
    | nil => simp at hnx
    | cons r t =>
      obtain rfl := (by simpa using hnx : r = nb)
      rw [hdec]
      simp
  have hnbsz : nb.size ≤ 2 ^ 62 := by
    have h1 := h.addr_ub nb hnbm
    have h2 := h.hi_cap
    have h3 := h.cap
    omega
  unfold reallocB
  rw [if_neg (by simp [hu0]), if_neg (by simp [hp0]), if_neg (by rw [hal]; simp),
    if_neg (by rw [hin]; simp)]
  dsimp only
  rw [hfb]
  dsimp only
  rw [if_neg (by omega)]
  rw [hnx]
  dsimp only
  rw [if_pos (by rw [hnbf]; rfl)]
  rw [if_pos (w64sub_of_lt (asizeOf u - b.size) nb.size hnbsz (by omega))]
  split <;> rfl

theorem c5_inplace_grow_amended_witness :
    (reallocB (mallocB initS 24).2 40 100).1 = some 40 :=
  c5_inplace_grow_amended (mallocB initS 24).2
    (inv_reachable _ (Reachable.malloc initS 24
      (Reachable.init 8 4200 initS (by decide) (by decide) (by decide) rfl)
      (by decide)))
    40 100 ⟨40, 32, true, true⟩ ⟨72, 224, false, true⟩ (by decide) (by decide)
    (by decide) rfl (by decide) (by decide)

/-- C6: on every reachable state the free lists are well-formed for their
classes: exact-fit bins hold only blocks of exactly the class size
`2*DSIZE + 8*i`, power-of-two bins hold only blocks in the class range and
are sorted by non-decreasing size, and the first admissible entry the
search finds in a bin is a best fit within that bin. -/
theorem c6_bins_wellformed (s : State) (h : Reachable s) :
    (∀ i, i ≤ 28 → ∀ a ∈ s.bins.getD i [], sizeAt s a = 2 * DSIZE + 8 * i) ∧
    (∀ i, 29 ≤ i → i < BIN → ∀ a ∈ s.bins.getD i [],
      (MSIZE + 1) * 2 ^ (i - 29) ≤ sizeAt s a ∧
        (i < BIN - 1 → sizeAt s a < (MSIZE + 1) * 2 ^ (i - 28))) ∧
    (∀ i < BIN, List.Pairwise (fun a c => sizeAt s a ≤ sizeAt s c) (s.bins.getD i [])) ∧
    (∀ asize i bp, i < BIN → binSearch s asize (s.bins.getD i []) = some bp →
      ∀ x ∈ s.bins.getD i [], asize ≤ sizeAt s x → sizeAt s bp ≤ sizeAt s x) := by
  have hinv := inv_reachable s h
  refine ⟨?_, ?_, hinv.bins_sorted, ?_⟩
  · intro i hi a ha
    obtain ⟨b, hbm, hbaddr, hbf, hbi⟩ := hinv.bins_ok i (by unfold BIN; omega) a ha
    have hs := hinv.sizeAt_of_mem b hbm
    rw [hbaddr] at hs
    rw [hs]
    have h32 := hinv.size_lb b hbm
    have h8 := hinv.size_align b hbm
    have he := binIndex_exact_of_le_28 b.size h32 h8 (by omega)
    omega
  · intro i h29 hlt a ha
    obtain ⟨b, hbm, hbaddr, hbf, hbi⟩ := hinv.bins_ok i hlt a ha
    have hs := hinv.sizeAt_of_mem b hbm
    rw [hbaddr] at hs
    rw [hs]
    exact binIndex_range b.size i hbi h29
  · intro asize i bp hi hbs x hx hax
    exact binSearch_best s asize _ bp hbs (hinv.bins_sorted i hi) x hx hax

theorem c6_bins_wellformed_witness :
    40 ∈ initS.bins.getD 28 [] ∧ sizeAt initS 40 = 2 * DSIZE + 8 * 28 :=
  ⟨by decide, (c6_bins_wellformed initS
    (Reachable.init 8 4200 initS (by decide) (by decide) (by decide) rfl)).1
    28 (by decide) 40 (by decide)⟩

/-- C8: `malloc(u)` returns null exactly when `u = 0` or when both the bin
search and the heap extension fail; on `u = 0` the state is unchanged. -/
theorem c8_malloc_failure (s : State) (u : Nat) :
    ((mallocB s u).1 = none ↔
      u = 0 ∨ (findFitB s (asizeOf u) = none ∧
        extendHeapB s (max (asizeOf u) CHUNKSIZE / WSIZE) = none)) ∧
    (u = 0 → (mallocB s u).2 = s) := by
  constructor
  · by_cases h0 : u = 0
    · subst h0
      exact ⟨fun _ => Or.inl rfl, fun _ => rfl⟩
    · unfold mallocB
      rw [if_neg (by simp [h0])]
      dsimp only
      cases hff : findFitB s (asizeOf u) with
      | some bp =>
        dsimp only
        simp [h0]
      | none =>
        dsimp only
        cases heh : extendHeapB s (max (asizeOf u) CHUNKSIZE / WSIZE) with
        | none => simp
        | some pr =>
          obtain ⟨bp, s1⟩ := pr
          dsimp only
          simp [h0]
  · intro h0
    subst h0
    rfl

/-- C9: the claim describes `calloc(n, s)` as returning null when the
underlying allocation fails, but the code calls `memset(ptr, 0, bytes)`
before the null check: on a failed nonzero-byte allocation it writes
through a null pointer (undefined behaviour, modelled as `none`) instead
of returning null.  On the 304-byte region, `malloc(1000)` fails and
`calloc(1, 1000)` crashes. -/
theorem c9_calloc_null_crash :
    (mallocB tinyS 1000).1 = none ∧ callocB tinyS 1 1000 = none :=
  ⟨by decide, rfl⟩

end Claims







end MM
